import Mathlib

/-!
Verification of the ColabFold MSA pipeline (src/colabfold/batch.py).

Python strings are embedded as lists of characters (`Str`), and the
Python string operations used by the source (splitlines, split, slicing
with negative indices, str.replace, repetition) are defined below with
Python semantics.  Fallible code (Python statements that can raise
IndexError / ValueError / AssertionError) is modelled with `Option`,
`none` standing for a raised exception.

All numeric parsing (`int(...)`) is modelled on decimal literals with an
optional leading minus sign, which covers every value this pipeline ever
produces or consumes.  `str.islower` / the regex class `[a-z]` are
modelled with `Char.isLower`, which agrees with them on ASCII text
(amino-acid alphabets are ASCII).
-/

abbrev Str := List Char

/-- Python `s.split(c)` for a one-character separator: splits at every
occurrence, keeping empty pieces; `"".split(c) = [""]`. -/
def pySplit (c : Char) : Str → List Str
  | [] => [[]]
  | a :: rest =>
    match pySplit c rest with
    | [] => [[a]]
    | s :: ss => if a = c then [] :: s :: ss else (a :: s) :: ss

/-- Python `"\n".join(lines)` generalised to any one-character separator. -/
def joinSep (c : Char) : List Str → Str
  | [] => []
  | [l] => l
  | l :: l2 :: rest => l ++ c :: joinSep c (l2 :: rest)

/-- Python `s.splitlines()` restricted to `'\n'` line endings (the only
line ending this pipeline produces): like split, but an empty input
gives no lines and a trailing newline produces no trailing empty line. -/
def pySplitlines (s : Str) : List Str :=
  if s = [] then []
  else if s.getLast? = some '\n' then (pySplit '\n' s).dropLast
  else pySplit '\n' s

/-- Python `s.replace(a, b, 1)` for one-character `a`, `b`. -/
def replaceFirst (a b : Char) : Str → Str
  | [] => []
  | c :: rest => if c = a then b :: rest else c :: replaceFirst a b rest

/-- Python `s * k` (string repetition). -/
def repeatStr (s : Str) (k : Nat) : Str :=
  (List.replicate k s).flatten

/-- Python `s.startswith(c)` for a one-character prefix. -/
def startsChar (c : Char) (s : Str) : Bool :=
  match s with
  | [] => false
  | a :: _ => a = c

/-- Normalisation of a Python slice index against a length `n`:
negative indices count from the end, and everything is clamped. -/
def pyIdx (n : Nat) (i : Int) : Nat :=
  if i < 0 then n - min n (-i).toNat else min i.toNat n

/-- Python `s[a:b]`. -/
def pySlice (s : Str) (a b : Int) : Str :=
  (s.take (pyIdx s.length b)).drop (pyIdx s.length a)

/-- The decimal digit character for `n < 10` (`'0'` used as a default
out of range, which never happens in use). -/
def digitChar (n : Nat) : Char :=
  if n = 0 then '0' else if n = 1 then '1' else if n = 2 then '2'
  else if n = 3 then '3' else if n = 4 then '4' else if n = 5 then '5'
  else if n = 6 then '6' else if n = 7 then '7' else if n = 8 then '8'
  else '9'

/-- Fuel-driven digit expansion; with fuel above `n` it equals the usual
most-significant-first decimal rendering. -/
def natToStrAux : Nat → Nat → Str
  | 0, _ => []
  | fuel + 1, n =>
      if n < 10 then [digitChar n]
      else natToStrAux fuel (n / 10) ++ [digitChar (n % 10)]

/-- Python `str(n)` for a natural number. -/
def natToStr (n : Nat) : Str :=
  natToStrAux (n + 1) n

/-- Accumulating decimal reader: `none` on any non-digit character. -/
def digitsAux : Str → Nat → Option Nat
  | [], acc => some acc
  | c :: rest, acc =>
      if c.isDigit then digitsAux rest (acc * 10 + (c.toNat - 48)) else none

/-- Python `int(s)` on an unsigned decimal literal. -/
def parseDigits (s : Str) : Option Nat :=
  if s = [] then none else digitsAux s 0

/-- Python `int(s)` on a decimal literal with optional leading minus. -/
def pyInt (s : Str) : Option Int :=
  match s with
  | [] => none
  | c :: rest =>
    if c = '-' then (parseDigits rest).map (fun n => -(n : Int))
    else (parseDigits (c :: rest)).map (fun n => (n : Int))

/-- Number of match-state columns of an a3m row: the characters that are
not lower-case inserts. -/
def matchCount (s : Str) : Nat :=
  (s.filter (fun c => !c.isLower)).length

/-- Whether an a3m fragment contains at least one residue: a character
that is neither a lower-case insert nor the gap character. -/
def hasResidue (s : Str) : Bool :=
  s.any (fun c => !c.isLower && !(c = '-'))

/-- All characters are lower-case inserts. -/
def allLower (s : Str) : Bool :=
  s.all (fun c => c.isLower)

/-- Number of `'>'` characters in a string; on the accumulated a3m texts
built by the decoder this counts the FASTA records. -/
def countGt (s : Str) : Nat :=
  (s.filter (fun c => c = '>')).length

/-!
## Region Cropper (`crop_msa`, batch.py lines 177-196)

For every alignment row preceded by a header, insert characters and
newlines are stripped (`re.sub("[a-z\n]", "", line)`) and the remainder
is sliced with the Python slice `[start - 1 : end]`.  A line read before
any header becomes the active header itself (the `else` branch).
Accessing `line[0]` on an empty line raises, hence the `Option`.
-/

/-- `re.sub(r"[a-z\n]", "", line)`. -/
def stripInserts (line : Str) : Str :=
  line.filter (fun c => !(c.isLower || c = '\n'))

def cropLoop (start stop : Int) (drop_empty : Bool) :
    List Str → Option Str → Option (List Str)
  | [], _ => some []
  | line :: rest, active =>
    match line with
    | [] => none
    | c :: _ =>
      if c ≠ '>' then
        match active with
        | some a =>
          let new_line := pySlice (stripInserts line) (start - 1) stop
          (fun r =>
            if drop_empty then
              if (new_line.filter (fun x => !(x = '-'))) ≠ [] then
                a :: new_line :: r
              else r
            else a :: new_line :: r) <$>
            cropLoop start stop drop_empty rest active
        | none => cropLoop start stop drop_empty rest (some line)
      else cropLoop start stop drop_empty rest (some line)

def crop_msa (msa_str : Str) (start stop : Int) (drop_empty : Bool) :
    Option Str :=
  (joinSep '\n') <$> cropLoop start stop drop_empty (pySplitlines msa_str) none

/-- Caller-side use of the region sentinel (batch.py lines 403-406 and
433-437): the stored or fetched MSA is cropped only when the job name is
valid and the region end is not the `-1` sentinel; otherwise the MSA
string is left untouched. -/
def stored_msa_crop (msa_str : Str) (valid_name : Bool)
    (region_start region_end : Int) : Option Str :=
  if valid_name && !(region_end = -1 : Bool) then
    crop_msa msa_str region_start region_end true
  else some msa_str

/-!
## Content-addressed cache read paths

The on-disk stores are abstracted by their observable file state: whether
the file exists, its size, its modification time, and the payload the
read would return.  `none` models a raised exception.
-/

/-- v2 alignment-store lookup (batch.py lines 388-401): the file counts
as usable only if it exists, has size above 100 bytes and was last
modified more than 20 seconds ago; an accepted file whose second line is
not the requested sequence is then discarded again.  Result
`some (some m)`: the cached text `m` is used; `some none`: the sequence
goes to the remote fetch list; `none`: exception. -/
def stored_unpaired_msa_v2 (present : Bool) (size : Nat) (mtime now : Int)
    (content : Str) (seq : Str) : Option (Option Str) :=
  if present && decide (size > 100) && decide (now - mtime > 20) then
    match (pySplitlines content)[1]? with
    | none => none
    | some l => if l = seq then some (some content) else some none
  else some none

/-- v3 template-store lookup (batch.py lines 540-551): the source checks
only that the file exists and that the stored feature has a
`template_aatype` entry whose first array has first dimension equal to
the requested sequence length.  The file modification time and size are
not inspected, which is why they appear here as unused arguments.  The
payload is abstracted by that first dimension (`none` when the
`template_aatype` key is absent). -/
def stored_template_v3 (present : Bool) (mtime now : Int)
    (template_aatype_dim : Option Nat) (seq : Str) : Bool :=
  present && (template_aatype_dim == some seq.length)

/-- v3 alignment-store lookup (batch.py lines 639-651): only file
existence is checked; then the second `'\n'`-separated piece of the
stored text must equal the requested sequence for the entry to be used.
`some true` means used, `some false` means the index is left for the
remote search, `none` an exception. -/
def stored_unpaired_msa_v3 (present : Bool) (content : Str) (seq : Str) :
    Option Bool :=
  if present then
    match (pySplit '\n' content)[1]? with
    | none => none
    | some l => some (l = seq)
  else some false

/-!
## Prefetch worker (`fetch_msas_in_background`, batch.py lines 2081-2111)

The worker walks the job list once.  A job whose done-marker exists while
`keep_existing_results` is set is skipped without touching the mailbox.
Otherwise the whole fetch-and-serialize body runs inside one `try`; the
oracle `outcome` abstracts it (`some r`: the body finished and left the
result `r` in the mailbox; `none`: some step raised).  On an exception
the worker logs, stores the `'error'` sentinel under the job name and
continues with the next job.  The mailbox is a dictionary; it is
modelled as an association list whose most recent binding wins.
-/

inductive JobEntry (α : Type) where
  | ok (r : α)
  | error
  deriving DecidableEq

def storeSet {α : Type} (st : List (Str × JobEntry α)) (k : Str)
    (v : JobEntry α) : List (Str × JobEntry α) :=
  (k, v) :: st

def storeGet {α : Type} (st : List (Str × JobEntry α)) (k : Str) :
    Option (JobEntry α) :=
  (st.find? (fun p => p.1 = k)).map (fun p => p.2)

def fetch_msas_in_background {α : Type} (keep_existing_results : Bool)
    (done_marker : Str → Bool) (outcome : Str → Option α) :
    List Str → List (Str × JobEntry α) → List (Str × JobEntry α)
  | [], st => st
  | j :: rest, st =>
    if keep_existing_results && done_marker j then
      fetch_msas_in_background keep_existing_results done_marker outcome rest st
    else
      match outcome j with
      | some r =>
          fetch_msas_in_background keep_existing_results done_marker outcome
            rest (storeSet st j (JobEntry.ok r))
      | none =>
          fetch_msas_in_background keep_existing_results done_marker outcome
            rest (storeSet st j JobEntry.error)

example : crop_msa (">x\nAB".toList) 1 (-1) true = some (">x\nA".toList) := by
  decide

example : crop_msa (">x\nAB-cD".toList) 2 3 true = some (">x\nB-".toList) := by
  decide

example : pySplitlines ("a\n\nb\n".toList) = ["a".toList, "".toList, "b".toList] := by
  decide

example : pyInt ("104".toList) = some 104 := by decide

example : natToStr 1507 = "1507".toList := by decide

/-!
## Pairing Engine (`pair_sequences`, `pad_sequences`, batch.py 1410-1448)
-/

/-- Inner loop of `pair_sequences` for chain `n`: every line `i` of the
chain block is appended to output row `i`; headers of chains after the
first have their first `'>'` replaced by a tab, residue lines are
repeated `query_cardinality[n]` times.  The cardinality list is only
consulted when a residue line occurs, as in the source. -/
def pairAddLines (n : Nat) (cards : List Nat) :
    List Str → Nat → List Str → Option (List Str)
  | [], _, rows => some rows
  | line :: rest, i, rows =>
    if h : i < rows.length then
      if startsChar '>' line then
        let line2 := if n ≠ 0 then replaceFirst '>' '\t' line else line
        pairAddLines n cards rest (i + 1) (rows.set i (rows.get ⟨i, h⟩ ++ line2))
      else
        match cards[n]? with
        | none => none
        | some card =>
            pairAddLines n cards rest (i + 1)
              (rows.set i (rows.get ⟨i, h⟩ ++ repeatStr line card))
    else none

def pairChains (blocks : List Str) (cards : List Nat) :
    List Str → Nat → List Str → Option (List Str)
  | [], _, rows => some rows
  | _ :: qrest, n, rows =>
    match blocks[n]? with
    | none => none
    | some block =>
      match pairAddLines n cards (pySplitlines block) 0 rows with
      | none => none
      | some rows2 => pairChains blocks cards qrest (n + 1) rows2

/-- batch.py lines 1410-1423. -/
def pair_sequences (a3m_lines : List Str) (query_sequences : List Str)
    (query_cardinality : List Nat) : Option Str :=
  match a3m_lines[0]? with
  | none => none
  | some first =>
    (joinSep '\n') <$>
      pairChains a3m_lines query_cardinality query_sequences 0
        (List.replicate (pySplitlines first).length [])

/-- The `_blank_seq` comprehension of `pad_sequences`: one all-gap string
of the chain query length per cardinality copy. -/
def mkBlanksAux (cards : List Nat) : List Str → Nat → Option (List Str)
  | [], _ => some []
  | q :: rest, n =>
    match cards[n]? with
    | none => none
    | some card =>
        (fun r => List.replicate card (List.replicate q.length '-') ++ r) <$>
          mkBlanksAux cards rest (n + 1)

/-- One cardinality copy of one chain block at expanded position `pos`:
empty lines are skipped, headers kept, residue lines embedded between
the other chains' gap placeholders. -/
def padOneCopy (blanks : List Str) (pos : Nat) (lines : List Str) : List Str :=
  lines.filterMap (fun line =>
    if line = [] then none
    else if startsChar '>' line then some line
    else some ((blanks.take pos).flatten ++ line ++ (blanks.drop (pos + 1)).flatten))

def padCopies (card : Nat) (blockLines : List Str) (blanks : List Str)
    (pos : Nat) : List Str :=
  ((List.range card).map (fun j => padOneCopy blanks (pos + j) blockLines)).flatten

def padChains (blocks : List Str) (cards : List Nat) (blanks : List Str) :
    List Str → Nat → Nat → Option (List Str)
  | [], _, _ => some []
  | _ :: qrest, n, pos =>
    match cards[n]? with
    | none => none
    | some card =>
      let copies : Option (List Str) :=
        if card = 0 then some []
        else
          match blocks[n]? with
          | none => none
          | some block => some (padCopies card (pySplit '\n' block) blanks pos)
      match copies with
      | none => none
      | some cs =>
          (fun r => cs ++ r) <$> padChains blocks cards blanks qrest (n + 1) (pos + card)

/-- batch.py lines 1425-1448. -/
def pad_sequences (a3m_lines : List Str) (query_sequences : List Str)
    (query_cardinality : List Nat) : Option Str :=
  match mkBlanksAux query_cardinality query_sequences 0 with
  | none => none
  | some blanks =>
    (joinSep '\n') <$>
      padChains a3m_lines query_cardinality blanks query_sequences 0 0

/-- batch.py lines 1650-1672; `none` models the raised `ValueError`
(and a propagated `IndexError` from the two helpers). -/
def pair_msa (query_seqs_unique : List Str) (query_seqs_cardinality : List Nat)
    (paired_msa unpaired_msa : Option (List Str)) : Option Str :=
  match paired_msa, unpaired_msa with
  | none, some up => pad_sequences up query_seqs_unique query_seqs_cardinality
  | some p, some up =>
    match pair_sequences p query_seqs_unique query_seqs_cardinality,
        pad_sequences up query_seqs_unique query_seqs_cardinality with
    | some a, some b => some (a ++ '\n' :: b)
    | _, _ => none
  | some p, none => pair_sequences p query_seqs_unique query_seqs_cardinality
  | none, none => none

/-!
## Compact MSA Codec (`unserialize_msa`, `msa_to_str`, batch.py 1765-1881)
-/

/-- A template feature dictionary is abstracted by the residue dimension
of its arrays; `mk_mock_template` builds zero arrays of exactly the
query length. -/
structure TemplateFeature where
  ln : Nat
  deriving DecidableEq

def mk_mock_template (query_sequence : Str) : TemplateFeature :=
  ⟨query_sequence.length⟩

/-- The inner position scan of `unserialize_msa` (batch.py 1821-1830):
starting before `rest` (which is the tail of the record sequence from
absolute position `pos`), characters are consumed into the chain segment
until `query_len` non-insert characters have been counted; the loop then
breaks at the next position, which becomes the new `prev_pos`.  If the
sequence runs out first, `prev_pos` keeps the value `start` it had when
the chain scan began. -/
def scanChainAux (qlen : Int) :
    List Char → Nat → Str → Nat → Bool → Nat → Str × Bool × Nat
  | [], _, acc, _, aa, start => (acc, aa, start)
  | c :: rest, pos, acc, curr, aa, start =>
    if (curr : Int) = qlen then (acc, aa, pos)
    else if c.isLower then
      scanChainAux qlen rest (pos + 1) (acc ++ [c]) curr aa start
    else
      scanChainAux qlen rest (pos + 1) (acc ++ [c]) (curr + 1)
        (aa || !(c = '-')) start

def scanChain (sq : Str) (qlen : Int) (prev : Nat) : Str × Bool × Nat :=
  scanChainAux qlen (sq.drop prev) prev [] 0 false prev

/-- Per-chain segmentation of one record sequence (batch.py 1815-1831):
returns the list of chain segments and the `has_amino_acid` flags. -/
def splitChainsAux (sq : Str) : List Int → Nat → List Str × List Bool
  | [], _ => ([], [])
  | q :: rest, prev =>
    let r := scanChain sq q prev
    let t := splitChainsAux sq rest r.2.2
    (r.1 :: t.1, r.2.1 :: t.2)

def splitChains (lens : List Int) (sq : Str) : List Str × List Bool :=
  splitChainsAux sq lens 0

/-- Pair up the body lines `(header, sequence)` as the decoder's
`range(1, len(a3m_lines), 2)` loop does; a dangling header whose
sequence line is missing raises. -/
def pairUp : List Str → Option (List (Str × Str))
  | [] => some []
  | [_] => none
  | h :: s :: rest => (fun r => (h, s) :: r) <$> pairUp rest

structure DecodeState where
  seen : List (Str × Str)
  paired_msa : List Str
  unpaired_msa : List Str
  deriving DecidableEq

/-- Paired branch (batch.py 1839-1843): chain `j` of the paired output
gains the record `'>' + parts[j] + newline + segment[j] + newline`.
Missing header parts raise. -/
def appendPaired : List Str → List Str → List Str → Option (List Str)
  | pm, _, [] => some pm
  | p :: pmrest, part :: partrest, sg :: sgrest =>
      (fun r => (p ++ '>' :: (part ++ '\n' :: (sg ++ ['\n']))) :: r) <$>
        appendPaired pmrest partrest sgrest
  | [], _, _ :: _ => none
  | _ :: _, [], _ :: _ => none

/-- Unpaired branch (batch.py 1844-1848): every chain whose segment has
a residue gains the full record header and its segment. -/
def appendUnpaired (header : Str) : List Str → List Str → List Bool →
    Option (List Str)
  | um, [], _ => some um
  | u :: umrest, sg :: sgrest, b :: brest =>
      (fun r => (if b then u ++ header ++ '\n' :: (sg ++ ['\n']) else u) :: r) <$>
        appendUnpaired header umrest sgrest brest
  | [], _ :: _, _ => none
  | _ :: _, _ :: _, [] => none

/-- One iteration of the decoder's body loop (batch.py 1809-1848):
skip an already-seen `(header, sequence)` pair; otherwise classify by
`sum(has_amino_acid) == len(query_seq_len)` together with the
single-protein and homo-oligomer exclusions, and append to the paired or
unpaired accumulators. -/
def decode_record (lens : List Int) (sing homo : Bool) (st : DecodeState)
    (header sq : Str) : Option DecodeState :=
  if (header, sq) ∈ st.seen then some st
  else if !sing && !homo &&
      ((splitChains lens sq).2.count true == lens.length) then
    match appendPaired st.paired_msa
        (pySplit '\t' (header.filter (fun c => !(c = '>'))))
        (splitChains lens sq).1 with
    | none => none
    | some pm => some ⟨(header, sq) :: st.seen, pm, st.unpaired_msa⟩
  else
    match appendUnpaired header st.unpaired_msa (splitChains lens sq).1
        (splitChains lens sq).2 with
    | none => none
    | some um => some ⟨(header, sq) :: st.seen, st.paired_msa, um⟩

def decodeBody (lens : List Int) (sing homo : Bool) :
    List (Str × Str) → DecodeState → Option DecodeState
  | [], st => some st
  | (h, s) :: rest, st =>
    match decode_record lens sing homo st h s with
    | none => none
    | some st2 => decodeBody lens sing homo rest st2

/-- Query extraction (batch.py 1798-1805): successive slices of body
line 2 of the declared chain lengths. -/
def extractUniq (line2 : Str) : List Int → Int → List Str
  | [], _ => []
  | q :: rest, prev => pySlice line2 prev (prev + q) :: extractUniq line2 rest (prev + q)

/-- Homo-oligomer paired rebuild (batch.py 1849-1854). -/
def homoPaired (card : Nat) (q0 : Str) : List Str :=
  (List.range card).map (fun i => '>' :: (natToStr (101 + i) ++ '\n' :: (q0 ++ ['\n'])))

structure MsaResult where
  unpaired_msa : List Str
  paired_msa : Option (List Str)
  query_seqs_unique : List Str
  query_seqs_cardinality : List Int
  template_features : List TemplateFeature
  deriving DecidableEq

/-- The line-level decoder of `unserialize_msa` (batch.py 1774-1868),
applied after null characters are stripped and the text is split into
lines. -/
def unserialize_lines (lines : List Str) (query_sequence : Str ⊕ List Str) :
    Option MsaResult :=
  match lines[0]? with
  | none => none
  | some l0 =>
    if !(startsChar '#' l0) || !((pySplit '\t' (l0.drop 1)).length == 2) then
      match query_sequence with
      | Sum.inl q => some ⟨[joinSep '\n' lines], none, [q], [1], [mk_mock_template q]⟩
      | Sum.inr _ => none
    else if lines.length < 3 then none
    else
      match pySplit '\t' (l0.drop 1) with
      | [f0, f1] =>
        match (pySplit ',' f0).mapM pyInt, (pySplit ',' f1).mapM pyInt with
        | some lens, some cards =>
          match cards[0]? with
          | none => none
          | some c0 =>
            let is_homooligomer := decide (lens.length = 1) && decide (c0 > 1)
            let is_single_protein := decide (lens.length = 1) && decide (c0 = 1)
            match lines[2]? with
            | none => none
            | some line2 =>
              let query_seqs_unique := extractUniq line2 lens 0
              match pairUp (lines.drop 1) with
              | none => none
              | some body =>
                match decodeBody lens is_single_protein is_homooligomer body
                    ⟨[], List.replicate lens.length [], List.replicate lens.length []⟩ with
                | none => none
                | some st =>
                  let paired1 : Option (Option (List Str)) :=
                    if is_homooligomer then
                      if c0.toNat = 0 then some (some [])
                      else
                        match query_seqs_unique[0]? with
                        | none => none
                        | some q0 => some (some (homoPaired c0.toNat q0))
                    else some (some st.paired_msa)
                  match paired1 with
                  | none => none
                  | some pm1 =>
                    some ⟨st.unpaired_msa,
                      (if is_single_protein then none else pm1),
                      query_seqs_unique, cards,
                      query_seqs_unique.map mk_mock_template⟩
        | _, _ => none
      | _ => none

/-- batch.py lines 1765-1868. -/
def unserialize_msa (a3m_lines : List Str) (query_sequence : Str ⊕ List Str) :
    Option MsaResult :=
  match a3m_lines[0]? with
  | none => none
  | some first =>
    unserialize_lines
      (pySplitlines (first.filter (fun c => !(c = Char.ofNat 0)))) query_sequence

/-- batch.py lines 1870-1881: the header records the true lengths and
cardinalities, but the body is built with every cardinality set to 1. -/
def msa_to_str (unpaired_msa paired_msa : Option (List Str))
    (query_seqs_unique : List Str) (query_seqs_cardinality : List Nat) :
    Option Str :=
  let hdr : Str :=
    '#' :: (joinSep ',' (query_seqs_unique.map (fun s => natToStr s.length)) ++
      '\t' :: (joinSep ',' (query_seqs_cardinality.map natToStr) ++ ['\n']))
  (fun body => hdr ++ body) <$>
    pair_msa query_seqs_unique (query_seqs_cardinality.map (fun _ => 1))
      paired_msa unpaired_msa

/-!
## Statement vocabulary

Derived notions used only to state properties of the functions above:
the per-chain fragment a `pair_sequences` output row is built from, the
concatenated column an output row equals, the expected row width, and
renderings of FASTA record lists as block strings.
-/

/-- The fragment chain `n` contributes to an output row of
`pair_sequences`: headers of chains after the first have their first
`'>'` replaced by a tab, residue lines are repeated `card` times. -/
def pairFrag (n : Nat) (card : Nat) (line : Str) : Str :=
  if startsChar '>' line then
    (if n ≠ 0 then replaceFirst '>' '\t' line else line)
  else repeatStr line card

/-- Concatenation of the fragments of chains `n, n+1, ...` (`k` chains)
at row `i`. -/
def pairColumn (blocks : List Str) (cards : List Nat) : Nat → Nat → Nat → Str
  | 0, _, _ => []
  | k + 1, n, i =>
      pairFrag n (cards.getD n 0) ((pySplitlines (blocks.getD n [])).getD i []) ++
        pairColumn blocks cards k (n + 1) i

/-- Sum over chains of the chain's row width at row `i` multiplied by
the chain's cardinality. -/
def pairWidth (blocks : List Str) (cards : List Nat) : Nat → Nat → Nat → Nat
  | 0, _, _ => 0
  | k + 1, n, i =>
      ((pySplitlines (blocks.getD n [])).getD i []).length * cards.getD n 0 +
        pairWidth blocks cards k (n + 1) i

/-- The cardinality-expanded gap placeholders of `pad_sequences`
(`_blank_seq`): one all-gap string of the chain query length per copy. -/
def expandedBlanks (qs : List Str) (cards : List Nat) : List Str :=
  (List.zipWith (fun (q : Str) c =>
    List.replicate c (List.replicate q.length '-')) qs cards).flatten

/-- Sum of the cardinalities of chains `n, n+1, ..., n+j-1`. -/
def sumCards (cards : List Nat) : Nat → Nat → Nat
  | _, 0 => 0
  | n, j + 1 => cards.getD n 0 + sumCards cards (n + 1) j

/-- A residue row embedded block-diagonally at expanded position `pos`. -/
def embedRow (blanks : List Str) (pos : Nat) (s : Str) : Str :=
  (blanks.take pos).flatten ++ s ++ (blanks.drop (pos + 1)).flatten

/-- The interleaved line list of a FASTA record list, headers rendered
with a leading `'>'`. -/
def recLines (recs : List (Str × Str)) : List Str :=
  (recs.map (fun r => ['>' :: r.1, r.2])).flatten

/-- The interleaved line list of a record list whose headers are already
full lines. -/
def recLinesRaw (recs : List (Str × Str)) : List Str :=
  (recs.map (fun r => [r.1, r.2])).flatten

/-- An a3m block string for a record list. -/
def renderBlock (recs : List (Str × Str)) : Str :=
  joinSep '\n' (recLines recs)

/-- The tail of the combined header line `pair_sequences` builds: every
chain after the first contributes its header with the `'>'` replaced by
a tab. -/
def pairTail (names : List Str) : Str :=
  (names.map (fun nm => '\t' :: nm)).flatten

/-- The combined header line of one paired output record. -/
def pairHeader : List Str → Str
  | [] => []
  | n0 :: rest => '>' :: (n0 ++ pairTail rest)

/-- The FASTA records of the paired part of an encoded body (`t` records
starting at per-chain record row `m`): the joined headers of row `m + r`
of every chain paired with the concatenation of the chains' rows. -/
def pairedDerived (P : List (List (Str × Str))) : Nat → Nat → List (Str × Str)
  | 0, _ => []
  | t + 1, m =>
    (pairHeader (P.map (fun b => (b.getD m ([], [])).1)),
      (P.map (fun b => (b.getD m ([], [])).2)).flatten) ::
    pairedDerived P t (m + 1)

/-- The FASTA records of the padded part of an encoded body: chain `n`
keeps its headers and has each row embedded at expanded position `n`. -/
def unpairedDerived (blanks : List Str) :
    List (List (Str × Str)) → Nat → List (Str × Str)
  | [], _ => []
  | b :: rest, n =>
    b.map (fun p => ('>' :: p.1, embedRow blanks n p.2)) ++
      unpairedDerived blanks rest (n + 1)

/-- A well-formed FASTA record name: free of the decoder's structural
characters. -/
def goodName (nm : Str) : Prop :=
  '>' ∉ nm ∧ '\t' ∉ nm ∧ '\n' ∉ nm ∧ Char.ofNat 0 ∉ nm

/-- A well-formed aligned row against the chain query `u`: full match
width, no inserts, at least one residue, and free of the structural
characters. -/
def goodRow (row : Str) (u : Str) : Prop :=
  row.length = u.length ∧ hasResidue row = true ∧
  ∀ c ∈ row, c.isLower = false ∧ c ≠ '>' ∧ c ≠ '\n' ∧ c ≠ Char.ofNat 0

/-!
## Generic facts about the Python string primitives
-/

theorem pySplit_ne_nil (c : Char) (s : Str) : pySplit c s ≠ [] := by
  cases s with
  | nil => simp [pySplit]
  | cons a rest =>
    simp only [pySplit]
    cases h : pySplit c rest with
    | nil => simp
    | cons x xs =>
      by_cases hac : a = c <;> simp [hac]

theorem pySplit_nil (c : Char) : pySplit c [] = [[]] := rfl

theorem pySplit_no_sep (c : Char) (s : Str) (h : c ∉ s) : pySplit c s = [s] := by
  induction s with
  | nil => rfl
  | cons a rest ih =>
    simp only [List.mem_cons, not_or] at h
    have hac : ¬a = c := fun hh => h.1 hh.symm
    simp only [pySplit, ih h.2]
    simp [hac]

theorem pySplit_append_sep (c : Char) (l rest : Str) (h : c ∉ l) :
    pySplit c (l ++ c :: rest) = l :: pySplit c rest := by
  induction l with
  | nil =>
    simp only [List.nil_append, pySplit]
    cases h2 : pySplit c rest with
    | nil => exact absurd h2 (pySplit_ne_nil c rest)
    | cons x xs => simp
  | cons a t ih =>
    simp only [List.mem_cons, not_or] at h
    have hac : ¬a = c := fun hh => h.1 hh.symm
    simp only [List.cons_append, pySplit, List.append_eq]
    rw [ih h.2]
    simp [hac]

theorem joinSep_cons (c : Char) (l : Str) (L : List Str) (h : L ≠ []) :
    joinSep c (l :: L) = l ++ c :: joinSep c L := by
  cases L with
  | nil => exact absurd rfl h
  | cons x xs => rfl

theorem pySplit_joinSep (c : Char) (L : List Str) (hne : L ≠ [])
    (h : ∀ l ∈ L, c ∉ l) : pySplit c (joinSep c L) = L := by
  induction L with
  | nil => exact absurd rfl hne
  | cons l rest ih =>
    cases rest with
    | nil =>
      simpa using pySplit_no_sep c l (h l (by simp))
    | cons r2 rs =>
      rw [joinSep_cons c l (r2 :: rs) (by simp)]
      rw [pySplit_append_sep c l _ (h l (by simp))]
      rw [ih (by simp) (fun x hx => h x (by simp [hx]))]

theorem joinSep_append (c : Char) (A B : List Str) (hA : A ≠ []) (hB : B ≠ []) :
    joinSep c (A ++ B) = joinSep c A ++ c :: joinSep c B := by
  induction A with
  | nil => exact absurd rfl hA
  | cons a t ih =>
    cases t with
    | nil =>
      cases B with
      | nil => exact absurd rfl hB
      | cons b bs => simp [joinSep_cons, joinSep]
    | cons a2 t2 =>
      rw [List.cons_append, joinSep_cons c a ((a2 :: t2) ++ B) (by simp),
        ih (by simp), joinSep_cons c a (a2 :: t2) (by simp)]
      simp

theorem mem_joinSep (c : Char) (L : List Str) (x : Char)
    (hx : x ∈ joinSep c L) : x = c ∨ ∃ l ∈ L, x ∈ l := by
  induction L with
  | nil => simp [joinSep] at hx
  | cons l rest ih =>
    cases rest with
    | nil =>
      right; exact ⟨l, by simp, hx⟩
    | cons r2 rs =>
      rw [joinSep_cons c l (r2 :: rs) (by simp)] at hx
      rcases List.mem_append.mp hx with h1 | h2
      · right; exact ⟨l, by simp, h1⟩
      · rcases List.mem_cons.mp h2 with h3 | h4
        · left; exact h3
        · rcases ih h4 with h5 | ⟨l2, hl2, hxl2⟩
          · left; exact h5
          · right; exact ⟨l2, by simp [hl2], hxl2⟩

theorem joinSep_ne_nil (c : Char) (L : List Str) (hne : L ≠ [])
    (h : ∀ l ∈ L, l ≠ []) : joinSep c L ≠ [] := by
  cases L with
  | nil => exact absurd rfl hne
  | cons l rest =>
    cases rest with
    | nil => exact h l (by simp)
    | cons r2 rs =>
      rw [joinSep_cons c l (r2 :: rs) (by simp)]
      have := h l (by simp)
      cases l with
      | nil => simp
      | cons a t => simp

theorem getLast?_joinSep (c : Char) (L : List Str) (hne : L ≠ [])
    (h : ∀ l ∈ L, l ≠ []) :
    (joinSep c L).getLast? = (L.getLast hne).getLast? := by
  induction L with
  | nil => exact absurd rfl hne
  | cons l rest ih =>
    cases rest with
    | nil => simp [joinSep]
    | cons r2 rs =>
      rw [joinSep_cons c l (r2 :: rs) (by simp)]
      rw [List.getLast?_append_of_ne_nil]
      · rw [List.getLast_cons (by simp)]
        have h2 : ∀ x ∈ r2 :: rs, x ≠ [] := fun x hx => h x (by simp [hx])
        have h3 := ih (by simp) h2
        rw [← h3]
        have hj : joinSep c (r2 :: rs) ≠ [] :=
          joinSep_ne_nil c (r2 :: rs) (by simp) h2
        cases hjj : joinSep c (r2 :: rs) with
        | nil => exact absurd hjj hj
        | cons y ys => simp
      · simp

theorem pySplitlines_joinSep (L : List Str) (hne : L ≠ [])
    (h : ∀ l ∈ L, l ≠ [] ∧ '\n' ∉ l) :
    pySplitlines (joinSep '\n' L) = L := by
  have hn : ∀ l ∈ L, l ≠ [] := fun l hl => (h l hl).1
  have hj : joinSep '\n' L ≠ [] := joinSep_ne_nil '\n' L hne hn
  have hlast : (joinSep '\n' L).getLast? ≠ some '\n' := by
    rw [getLast?_joinSep '\n' L hne hn]
    have hmem := List.getLast_mem hne
    have h1 := (h _ hmem).1
    have h2 := (h _ hmem).2
    cases hll : (L.getLast hne).getLast? with
    | none => simp
    | some x =>
      have hxm : x ∈ (L.getLast hne).getLast? := by rw [hll]; rfl
      obtain ⟨h', he⟩ := List.mem_getLast?_eq_getLast hxm
      have : x ∈ L.getLast hne := he ▸ List.getLast_mem h'
      intro hc
      simp only [Option.some.injEq] at hc
      subst hc
      exact h2 this
  unfold pySplitlines
  rw [if_neg hj, if_neg hlast]
  exact pySplit_joinSep '\n' L hne (fun l hl => (h l hl).2)

theorem pySplit_concat_sep (c : Char) (s : Str) :
    pySplit c (s ++ [c]) = pySplit c s ++ [[]] := by
  induction s with
  | nil => simp [pySplit]
  | cons a rest ih =>
    simp only [List.cons_append, pySplit, List.append_eq]
    rw [ih]
    cases h : pySplit c rest with
    | nil => exact absurd h (pySplit_ne_nil c rest)
    | cons x xs => by_cases hac : a = c <;> simp [hac, h]

theorem pySplitlines_joinSep_nl (L : List Str) (hne : L ≠ [])
    (h : ∀ l ∈ L, l ≠ [] ∧ '\n' ∉ l) :
    pySplitlines (joinSep '\n' L ++ ['\n']) = L := by
  have hn : ∀ l ∈ L, l ≠ [] := fun l hl => (h l hl).1
  unfold pySplitlines
  rw [if_neg (by simp), if_pos (by simp)]
  rw [pySplit_concat_sep, pySplit_joinSep '\n' L hne (fun l hl => (h l hl).2)]
  simp

theorem mem_pySplit_not_sep (c : Char) (s : Str) :
    ∀ l ∈ pySplit c s, c ∉ l := by
  induction s with
  | nil =>
    intro l hl
    simp [pySplit] at hl
    simp [hl]
  | cons a rest ih =>
    intro l hl
    simp only [pySplit] at hl
    cases h : pySplit c rest with
    | nil => exact absurd h (pySplit_ne_nil c rest)
    | cons x xs =>
      simp only [h] at hl
      have ihx : c ∉ x := ih x (by rw [h]; exact List.mem_cons_self x xs)
      by_cases hac : a = c
      · rw [if_pos hac] at hl
        rcases List.mem_cons.mp hl with h1 | h2
        · simp [h1]
        · exact ih l (by rw [h]; exact h2)
      · rw [if_neg hac] at hl
        rcases List.mem_cons.mp hl with h1 | h2
        · subst h1
          intro hcmem
          rcases List.mem_cons.mp hcmem with h3 | h4
          · exact hac h3.symm
          · exact ihx h4
        · exact ih l (by rw [h]; exact List.mem_cons_of_mem x h2)

theorem mem_pySplit_subset (c : Char) (s : Str) :
    ∀ l ∈ pySplit c s, ∀ x ∈ l, x ∈ s := by
  induction s with
  | nil =>
    intro l hl
    simp [pySplit] at hl
    simp [hl]
  | cons a rest ih =>
    intro l hl
    simp only [pySplit] at hl
    cases h : pySplit c rest with
    | nil => exact absurd h (pySplit_ne_nil c rest)
    | cons x xs =>
      simp only [h] at hl
      have ihx : ∀ y ∈ x, y ∈ rest := ih x (by rw [h]; exact List.mem_cons_self x xs)
      by_cases hac : a = c
      · rw [if_pos hac] at hl
        rcases List.mem_cons.mp hl with h1 | h2
        · simp [h1]
        · intro y hy
          exact List.mem_cons_of_mem a (ih l (by rw [h]; exact h2) y hy)
      · rw [if_neg hac] at hl
        rcases List.mem_cons.mp hl with h1 | h2
        · subst h1
          intro y hy
          rcases List.mem_cons.mp hy with h3 | h4
          · simp [h3]
          · exact List.mem_cons_of_mem a (ihx y h4)
        · intro y hy
          exact List.mem_cons_of_mem a
            (ih l (by rw [h]; exact List.mem_cons_of_mem x h2) y hy)

/-!
## Decimal rendering and parsing round-trip
-/

theorem digitChar_isDigit (n : Nat) (h : n < 10) :
    (digitChar n).isDigit = true := by
  interval_cases n <;> decide

theorem digitChar_val (n : Nat) (h : n < 10) :
    (digitChar n).toNat - 48 = n := by
  interval_cases n <;> decide

theorem digitsAux_append (s t : Str) (acc : Nat) :
    digitsAux (s ++ t) acc =
      match digitsAux s acc with
      | none => none
      | some v => digitsAux t v := by
  induction s generalizing acc with
  | nil => simp [digitsAux]
  | cons c rest ih =>
    simp only [List.cons_append, digitsAux, List.append_eq]
    by_cases hc : c.isDigit
    · rw [if_pos hc, if_pos hc, ih]
    · rw [if_neg hc, if_neg hc]

theorem natToStrAux_spec (fuel : Nat) :
    ∀ n, n < fuel →
      natToStrAux fuel n ≠ [] ∧
      (∀ c ∈ natToStrAux fuel n, c.isDigit = true) ∧
      ∀ acc, digitsAux (natToStrAux fuel n) acc =
        some (acc * 10 ^ (natToStrAux fuel n).length + n) := by
  induction fuel with
  | zero => intro n hn; omega
  | succ fuel ih =>
    intro n hn
    by_cases h10 : n < 10
    · refine ⟨by simp [natToStrAux, h10], ?_, ?_⟩
      · intro c hc
        simp only [natToStrAux, if_pos h10, List.mem_singleton] at hc
        subst hc
        exact digitChar_isDigit n h10
      · intro acc
        simp only [natToStrAux, if_pos h10, digitsAux,
          digitChar_isDigit n h10, if_true]
        simp [digitChar_val n h10, pow_one]
    · have hdiv : n / 10 < fuel := by
        have h1 : n / 10 < n := Nat.div_lt_self (by omega) (by omega)
        omega
      obtain ⟨ihne, ihdig, ihval⟩ := ih (n / 10) hdiv
      have hmod : n % 10 < 10 := Nat.mod_lt n (by omega)
      refine ⟨by simp [natToStrAux, h10], ?_, ?_⟩
      · intro c hc
        simp only [natToStrAux, if_neg h10, List.mem_append,
          List.mem_singleton] at hc
        rcases hc with hc | hc
        · exact ihdig c hc
        · subst hc; exact digitChar_isDigit _ hmod
      · intro acc
        simp only [natToStrAux, if_neg h10]
        rw [digitsAux_append, ihval acc]
        simp only [digitsAux, digitChar_isDigit _ hmod, if_true]
        rw [digitChar_val _ hmod]
        simp only [List.length_append, List.length_singleton]
        congr 1
        rw [pow_succ]
        have : n / 10 * 10 + n % 10 = n := by omega
        ring_nf
        omega

theorem natToStr_ne_nil (n : Nat) : natToStr n ≠ [] :=
  (natToStrAux_spec (n + 1) n (by omega)).1

theorem natToStr_digits (n : Nat) : ∀ c ∈ natToStr n, c.isDigit = true :=
  (natToStrAux_spec (n + 1) n (by omega)).2.1

theorem parseDigits_natToStr (n : Nat) : parseDigits (natToStr n) = some n := by
  have h := (natToStrAux_spec (n + 1) n (by omega)).2.2 0
  unfold parseDigits
  rw [if_neg (natToStr_ne_nil n)]
  unfold natToStr at h ⊢
  rw [h]
  simp

theorem isDigit_ne_sep (c : Char) (h : c.isDigit = true) :
    c ≠ ',' ∧ c ≠ '\t' ∧ c ≠ '\n' ∧ c ≠ '>' ∧ c ≠ '-' ∧ c ≠ Char.ofNat 0 := by
  refine ⟨?_, ?_, ?_, ?_, ?_, ?_⟩ <;>
    (intro he; subst he; exact absurd h (by decide))

theorem pyInt_natToStr (n : Nat) : pyInt (natToStr n) = some (n : Int) := by
  cases hs : natToStr n with
  | nil => exact absurd hs (natToStr_ne_nil n)
  | cons c cs =>
    have hdig : c.isDigit = true := natToStr_digits n c (by rw [hs]; simp)
    have hnm : ¬(c = '-') := fun he => by
      subst he; exact absurd hdig (by decide)
    simp only [pyInt, if_neg hnm]
    rw [← hs, parseDigits_natToStr]
    rfl

theorem mapM_pyInt_natToStr (L : List Nat) :
    (L.map natToStr).mapM pyInt = some (L.map Int.ofNat) := by
  induction L with
  | nil => rfl
  | cons x xs ih =>
    simp only [List.map_cons, List.mapM_cons, pyInt_natToStr, ih]
    rfl

theorem map_intCast_eq_ofNat (L : List Nat) :
    L.map (fun n => (n : Int)) = L.map Int.ofNat := by
  induction L with
  | nil => rfl
  | cons x xs ih => simp_all [List.flatMap_cons]

/-- A comma-rendered list of decimals splits back into its entries. -/
theorem pySplit_comma_render (L : List Nat) (hne : L ≠ []) :
    pySplit ',' (joinSep ',' (L.map natToStr)) = L.map natToStr := by
  apply pySplit_joinSep
  · simp [hne]
  · intro l hl
    obtain ⟨n, _, rfl⟩ := List.mem_map.mp hl
    intro hc
    exact absurd rfl (isDigit_ne_sep ',' (natToStr_digits n ',' hc)).1

/-- No separator characters occur in a comma-rendered list of decimals. -/
theorem mem_joinSep_comma_render (L : List Nat) (x : Char)
    (hx : x ∈ joinSep ',' (L.map natToStr)) :
    x ≠ '\t' ∧ x ≠ '\n' ∧ x ≠ Char.ofNat 0 := by
  rcases mem_joinSep ',' _ x hx with h | ⟨l, hl, hxl⟩
  · subst h; refine ⟨by decide, by decide, by decide⟩
  · obtain ⟨n, _, rfl⟩ := List.mem_map.mp hl
    have h := isDigit_ne_sep x (natToStr_digits n x hxl)
    exact ⟨h.2.1, h.2.2.1, h.2.2.2.2.2⟩

/-!
## Claim C2: the `end = -1` sentinel
-/

/-- C2 counterexample: the claim says that `crop_msa` called with
`end = -1` bypasses slicing and returns the rows unchanged.  It does
not: the Python slice `[start - 1 : -1]` drops the final match-state
column, so the row `AB` of `>x\nAB` comes back as `A`. -/
theorem crop_end_sentinel_cex :
    crop_msa (">x\nAB".toList) 1 (-1) true ≠ some (">x\nAB".toList) ∧
    crop_msa (">x\nAB".toList) 1 (-1) true = some (">x\nA".toList) := by
  decide

/-- C2 (amended): the `-1` sentinel is honoured by the callers of
`crop_msa`, not by `crop_msa` itself: every call site guards the crop
with `region[1] != -1`, so a chain region ending in `-1` leaves the MSA
text completely unchanged. -/
theorem crop_end_sentinel (msa_str : Str) (valid_name : Bool) (start : Int) :
    stored_msa_crop msa_str valid_name start (-1) = some msa_str := by
  unfold stored_msa_crop
  simp

/-!
## Claim C7: cache read validation
-/

/-- C7 counterexample: the claim requires every cache hit to be more
than 20 seconds old, but the v3 template-store lookup (batch.py 540-551)
never inspects the modification time: a file written at the very moment
of the lookup (`now - mtime = 0`) is accepted whenever it exists and its
`template_aatype` dimension matches. -/
theorem cache_grace_window_cex :
    stored_template_v3 true 100 100 (some 3) ("ACD".toList) = true ∧
    (100 - 100 : Int) ≤ 20 := by
  decide

/-- C7 (amended): the existence / size / 20-second-grace-window triple
is enforced only by the v2 alignment-store lookup; the v3 template and
alignment lookups check existence only.  On every store, a hit whose
recorded sequence (v2 and v3 alignment stores: second stored line; v3
template store: `template_aatype` first dimension) disagrees with the
requested sequence is discarded, leaving the sequence for the remote
fetch. -/
theorem cache_read_validation :
    (∀ (present : Bool) (size : Nat) (mtime now : Int) (content seq m : Str),
        stored_unpaired_msa_v2 present size mtime now content seq = some (some m) →
        present = true ∧ size > 100 ∧ now - mtime > 20) ∧
    (∀ (present : Bool) (size : Nat) (mtime now : Int) (content seq l : Str),
        (pySplitlines content)[1]? = some l → l ≠ seq →
        stored_unpaired_msa_v2 present size mtime now content seq = some none) ∧
    (∀ (present : Bool) (mtime now : Int) (dim : Option Nat) (seq : Str),
        stored_template_v3 present mtime now dim seq = true →
        present = true ∧ dim = some seq.length) ∧
    (∀ (present : Bool) (mtime now : Int) (dim : Option Nat) (seq : Str),
        dim ≠ some seq.length → stored_template_v3 present mtime now dim seq = false) ∧
    (∀ (present : Bool) (content seq l : Str),
        (pySplit '\n' content)[1]? = some l → l ≠ seq →
        stored_unpaired_msa_v3 present content seq ≠ some true) := by
  refine ⟨?_, ?_, ?_, ?_, ?_⟩
  · intro present size mtime now content seq m h
    unfold stored_unpaired_msa_v2 at h
    by_cases hc : (present && decide (size > 100) && decide (now - mtime > 20)) = true
    · simp only [Bool.and_eq_true, decide_eq_true_eq] at hc
      exact ⟨hc.1.1, hc.1.2, hc.2⟩
    · rw [if_neg (by simpa using hc)] at h
      simp at h
  · intro present size mtime now content seq l h1 h2
    unfold stored_unpaired_msa_v2
    by_cases hc : (present && decide (size > 100) && decide (now - mtime > 20)) = true
    · rw [if_pos hc, h1]
      simp [h2]
    · rw [if_neg (by simpa using hc)]
  · intro present mtime now dim seq h
    unfold stored_template_v3 at h
    simp only [Bool.and_eq_true, beq_iff_eq] at h
    exact h
  · intro present mtime now dim seq h
    unfold stored_template_v3
    simp [h]
  · intro present content seq l h1 h2
    unfold stored_unpaired_msa_v3
    by_cases hp : present = true
    · rw [if_pos hp, h1]
      simp [h2]
    · rw [if_neg hp]
      simp

/-- Concrete instantiations of the amended C7 theorem: a mismatching v2
entry is re-fetched, a present-but-stale-free v3 template entry with the
wrong dimension is rejected, and a v3 alignment entry whose second line
disagrees is not used. -/
theorem cache_read_validation_witness :
    stored_unpaired_msa_v2 true 101 0 21 ("A\nB".toList) ("C".toList) = some none ∧
    stored_template_v3 true 5 6 (some 7) ("ACD".toList) = false ∧
    stored_unpaired_msa_v3 true (">u\nB".toList) ("C".toList) ≠ some true :=
  ⟨cache_read_validation.2.1 true 101 0 21 ("A\nB".toList) ("C".toList)
      ("B".toList) (by decide) (by decide),
    cache_read_validation.2.2.2.1 true 5 6 (some 7) ("ACD".toList) (by decide),
    cache_read_validation.2.2.2.2 true (">u\nB".toList) ("C".toList)
      ("B".toList) (by decide) (by decide)⟩

/-!
## Claim C8: prefetch failure isolation
-/

theorem storeGet_set_eq {α : Type} (st : List (Str × JobEntry α)) (k : Str)
    (v : JobEntry α) : storeGet (storeSet st k v) k = some v := by
  simp [storeGet, storeSet, List.find?]

theorem storeGet_set_ne {α : Type} (st : List (Str × JobEntry α)) (k k2 : Str)
    (v : JobEntry α) (h : k2 ≠ k) :
    storeGet (storeSet st k v) k2 = storeGet st k2 := by
  simp only [storeGet, storeSet, List.find?]
  rw [decide_eq_false (fun he => h he.symm)]

theorem worker_not_mem {α : Type} (keep : Bool) (marker : Str → Bool)
    (outcome : Str → Option α) (jobs : List Str) (j : Str) (hj : j ∉ jobs) :
    ∀ st, storeGet (fetch_msas_in_background keep marker outcome jobs st) j =
      storeGet st j := by
  induction jobs with
  | nil => intro st; rfl
  | cons a rest ih =>
    intro st
    have hja : j ≠ a := fun he => hj (he ▸ List.mem_cons_self a rest)
    have hjr : j ∉ rest := fun he => hj (List.mem_cons_of_mem a he)
    unfold fetch_msas_in_background
    by_cases hskip : (keep && marker a) = true
    · rw [if_pos hskip]
      exact ih hjr st
    · rw [if_neg hskip]
      cases outcome a with
      | some r => rw [ih hjr]; exact storeGet_set_ne st a j _ hja
      | none => rw [ih hjr]; exact storeGet_set_ne st a j _ hja

theorem worker_congr {α : Type} (keep : Bool) (marker : Str → Bool)
    (outcome : Str → Option α) (jobs : List Str) (k : Str) :
    ∀ st1 st2, storeGet st1 k = storeGet st2 k →
      storeGet (fetch_msas_in_background keep marker outcome jobs st1) k =
      storeGet (fetch_msas_in_background keep marker outcome jobs st2) k := by
  induction jobs with
  | nil => intro st1 st2 h; exact h
  | cons a rest ih =>
    intro st1 st2 h
    unfold fetch_msas_in_background
    by_cases hskip : (keep && marker a) = true
    · rw [if_pos hskip, if_pos hskip]; exact ih st1 st2 h
    · rw [if_neg hskip, if_neg hskip]
      cases outcome a with
      | some r =>
        apply ih
        by_cases hka : k = a
        · subst hka; rw [storeGet_set_eq, storeGet_set_eq]
        · rw [storeGet_set_ne st1 a k _ hka, storeGet_set_ne st2 a k _ hka]; exact h
      | none =>
        apply ih
        by_cases hka : k = a
        · subst hka; rw [storeGet_set_eq, storeGet_set_eq]
        · rw [storeGet_set_ne st1 a k _ hka, storeGet_set_ne st2 a k _ hka]; exact h

theorem worker_step {α : Type} (keep : Bool) (marker : Str → Bool)
    (outcome : Str → Option α) (a : Str) (rest : List Str)
    (st : List (Str × JobEntry α)) :
    fetch_msas_in_background keep marker outcome (a :: rest) st =
      if (keep && marker a) = true then
        fetch_msas_in_background keep marker outcome rest st
      else
        match outcome a with
        | some r => fetch_msas_in_background keep marker outcome rest
            (storeSet st a (JobEntry.ok r))
        | none => fetch_msas_in_background keep marker outcome rest
            (storeSet st a JobEntry.error) := rfl

theorem worker_error_general {α : Type} (keep : Bool) (marker : Str → Bool)
    (outcome : Str → Option α) (j : Str) (hfail : outcome j = none)
    (hnoskip : (keep && marker j) = false) :
    ∀ (jobs : List Str) (st : List (Str × JobEntry α)), j ∈ jobs → jobs.Nodup →
      storeGet (fetch_msas_in_background keep marker outcome jobs st) j =
        some JobEntry.error ∧
      ∀ k, k ≠ j →
        storeGet (fetch_msas_in_background keep marker outcome jobs st) k =
        storeGet (fetch_msas_in_background keep marker outcome (jobs.erase j) st) k := by
  intro jobs
  induction jobs with
  | nil => intro st hmem; simp at hmem
  | cons a rest ih =>
    intro st hmem hnd
    by_cases haj : a = j
    · subst haj
      have hanotr : a ∉ rest := (List.nodup_cons.mp hnd).1
      constructor
      · rw [worker_step, if_neg (by simp [hnoskip]), hfail,
          worker_not_mem keep marker outcome rest a hanotr]
        exact storeGet_set_eq st a JobEntry.error
      · intro k hk
        have herase : (a :: rest).erase a = rest := by
          simp [List.erase_cons_head]
        rw [herase, worker_step, if_neg (by simp [hnoskip]), hfail]
        exact worker_congr keep marker outcome rest k _ st
          (storeGet_set_ne st a k JobEntry.error hk)
    · have hmem2 : j ∈ rest := by
        rcases List.mem_cons.mp hmem with h1 | h2
        · exact absurd h1.symm haj
        · exact h2
      have hnd2 : rest.Nodup := (List.nodup_cons.mp hnd).2
      have herase : (a :: rest).erase j = a :: rest.erase j := by
        rw [List.erase_cons_tail]
        simp only [beq_iff_eq]
        exact haj
      rw [herase, worker_step, worker_step]
      by_cases hskip : (keep && marker a) = true
      · rw [if_pos hskip, if_pos hskip]
        exact ih st hmem2 hnd2
      · rw [if_neg hskip, if_neg hskip]
        cases outcome a with
        | some r => exact ih _ hmem2 hnd2
        | none => exact ih _ hmem2 hnd2

/-- C8: if the fetch body for one job raises, the worker stores the
`'error'` sentinel under exactly that job name and continues: every
other job name receives exactly the mailbox entry it would have received
had the failing job not been in the list.  The worker itself is a total
function of the job list, so no exception escapes the loop. -/
theorem worker_error_isolation {α : Type} (keep : Bool) (marker : Str → Bool)
    (outcome : Str → Option α) (jobs : List Str) (j : Str)
    (hmem : j ∈ jobs) (hnd : jobs.Nodup) (hfail : outcome j = none)
    (hnoskip : (keep && marker j) = false) :
    storeGet (fetch_msas_in_background keep marker outcome jobs []) j =
      some JobEntry.error ∧
    ∀ k, k ≠ j →
      storeGet (fetch_msas_in_background keep marker outcome jobs []) k =
      storeGet (fetch_msas_in_background keep marker outcome (jobs.erase j) []) k :=
  worker_error_general keep marker outcome j hfail hnoskip jobs [] hmem hnd

/-- Concrete instantiation of C8: job list `a, b, c` where fetching `b`
raises; `b` is mapped to the error sentinel and `a` gets the same entry
as in the two-job run without `b`. -/
theorem worker_error_isolation_witness :
    storeGet (fetch_msas_in_background false (fun _ => false)
        (fun s => if s = "b".toList then (none : Option Nat) else some 7)
        ["a".toList, "b".toList, "c".toList] []) ("b".toList) =
      some JobEntry.error ∧
    storeGet (fetch_msas_in_background false (fun _ => false)
        (fun s => if s = "b".toList then (none : Option Nat) else some 7)
        ["a".toList, "b".toList, "c".toList] []) ("a".toList) =
      storeGet (fetch_msas_in_background false (fun _ => false)
        (fun s => if s = "b".toList then (none : Option Nat) else some 7)
        (["a".toList, "b".toList, "c".toList].erase ("b".toList)) []) ("a".toList) := by
  have h := worker_error_isolation false (fun _ => false)
    (fun s => if s = "b".toList then (none : Option Nat) else some 7)
    ["a".toList, "b".toList, "c".toList] ("b".toList)
    (by decide) (by decide) (by decide) (by decide)
  exact ⟨h.1, h.2 ("a".toList) (by decide)⟩

/-!
## Claim C6: combination policy of `pair_msa`
-/

/-- C6: with only unpaired data the result is exactly the padded rows;
with only paired data exactly the paired rows; with both, the paired
rows followed (after one newline) by the padded rows; with neither, the
`ValueError` (modelled as `none`), and under inputs on which the two
helpers succeed this is the only error case. -/
theorem pair_msa_policy (uniq : List Str) (cards : List Nat) :
    (∀ up, pair_msa uniq cards none (some up) = pad_sequences up uniq cards) ∧
    (∀ p, pair_msa uniq cards (some p) none = pair_sequences p uniq cards) ∧
    (∀ p up a b, pair_sequences p uniq cards = some a →
        pad_sequences up uniq cards = some b →
        pair_msa uniq cards (some p) (some up) = some (a ++ '\n' :: b)) ∧
    (pair_msa uniq cards none none = none) ∧
    (∀ (po uo : Option (List Str)),
        (∀ p, po = some p → (pair_sequences p uniq cards).isSome) →
        (∀ u, uo = some u → (pad_sequences u uniq cards).isSome) →
        (pair_msa uniq cards po uo = none ↔ po = none ∧ uo = none)) := by
  refine ⟨fun up => rfl, fun p => rfl, ?_, rfl, ?_⟩
  · intro p up a b ha hb
    simp [pair_msa, ha, hb]
  · intro po uo hpo huo
    cases po with
    | none =>
      cases uo with
      | none => simp [pair_msa]
      | some u =>
        obtain ⟨b, hb⟩ := Option.isSome_iff_exists.mp (huo u rfl)
        simp [pair_msa, hb]
    | some p =>
      obtain ⟨a, ha⟩ := Option.isSome_iff_exists.mp (hpo p rfl)
      cases uo with
      | none => simp [pair_msa, ha]
      | some u =>
        obtain ⟨b, hb⟩ := Option.isSome_iff_exists.mp (huo u rfl)
        simp [pair_msa, ha, hb]

/-- Concrete instantiation of C6: one chain, one paired and one unpaired
block; the output is the paired block, a newline, then the padded
block. -/
theorem pair_msa_policy_witness :
    pair_msa ["A".toList] [1] (some [">h\nA".toList]) (some [">u\nA".toList]) =
      some (">h\nA".toList ++ '\n' :: ">u\nA".toList) :=
  (pair_msa_policy ["A".toList] [1]).2.2.1 [">h\nA".toList] [">u\nA".toList]
    (">h\nA".toList) (">u\nA".toList) (by decide) (by decide)

/-!
## Claim C10: headerless fallback of the decoder
-/

/-- C10: an a3m text whose first line does not begin with `#`, or whose
first line does not carry exactly two tab-separated fields after the
`#`, is returned whole as the single unpaired alignment, with no paired
alignment, the query itself as the unique sequence with cardinality 1,
and one mock template. -/
theorem headerless_fallback (text q : Str)
    (hne : pySplitlines (text.filter (fun c => !(c = Char.ofNat 0))) ≠ [])
    (hml : startsChar '#'
        ((pySplitlines (text.filter (fun c => !(c = Char.ofNat 0)))).headD []) = false ∨
      (pySplit '\t' (((pySplitlines (text.filter (fun c => !(c = Char.ofNat 0)))).headD
        []).drop 1)).length ≠ 2) :
    unserialize_msa [text] (Sum.inl q) =
      some ⟨[joinSep '\n' (pySplitlines (text.filter (fun c => !(c = Char.ofNat 0))))],
        none, [q], [1], [mk_mock_template q]⟩ := by
  obtain ⟨l0, rest, hl⟩ := List.exists_cons_of_ne_nil hne
  have hcond : (!(startsChar '#' l0) ||
      !((pySplit '\t' (l0.drop 1)).length == 2)) = true := by
    rw [hl] at hml
    simp only [List.headD_cons] at hml
    rcases hml with h | h
    · simp [h]
    · rw [List.drop_one] at h
      simp [h]
  unfold unserialize_msa unserialize_lines
  simp only [List.getElem?_cons_zero]
  rw [hl]
  simp only [List.getElem?_cons_zero]
  rw [if_pos hcond, ← hl]

/-- Concrete instantiation of C10 on a plain two-line a3m. -/
theorem headerless_fallback_witness :
    unserialize_msa [">q\nACD".toList] (Sum.inl ("ACD".toList)) =
      some ⟨[">q\nACD".toList], none, ["ACD".toList], [1], [⟨3⟩]⟩ :=
  (headerless_fallback (">q\nACD".toList) ("ACD".toList) (by decide)
    (by decide)).trans (by decide)

/-!
## The decoder's chain scanner
-/

theorem scanChainAux_nil (qlen : Int) (pos : Nat) (acc : Str) (curr : Nat)
    (aa : Bool) (start : Nat) :
    scanChainAux qlen [] pos acc curr aa start = (acc, aa, start) := rfl

theorem scanChainAux_cons (qlen : Int) (c : Char) (rs : List Char) (pos : Nat)
    (acc : Str) (curr : Nat) (aa : Bool) (start : Nat) :
    scanChainAux qlen (c :: rs) pos acc curr aa start =
      if (curr : Int) = qlen then (acc, aa, pos)
      else if c.isLower then
        scanChainAux qlen rs (pos + 1) (acc ++ [c]) curr aa start
      else
        scanChainAux qlen rs (pos + 1) (acc ++ [c]) (curr + 1)
          (aa || !(c = '-')) start := rfl

/-- The scanner's accumulated segment and `has_amino_acid` flag move in
lockstep: the flag is exactly "some consumed character is a residue". -/
theorem scanChainAux_delta (qlen : Int) (rest : List Char) :
    ∀ (pos : Nat) (acc : Str) (curr : Nat) (aa : Bool) (start : Nat),
      ∃ D : Str, (scanChainAux qlen rest pos acc curr aa start).1 = acc ++ D ∧
        (scanChainAux qlen rest pos acc curr aa start).2.1 = (aa || hasResidue D) ∧
        ∀ x ∈ D, x ∈ rest := by
  induction rest with
  | nil =>
    intro pos acc curr aa start
    exact ⟨[], by simp [scanChainAux_nil], by simp [scanChainAux_nil, hasResidue], by simp⟩
  | cons c rs ih =>
    intro pos acc curr aa start
    by_cases hb : (curr : Int) = qlen
    · exact ⟨[], by simp [scanChainAux_cons, hb],
        by simp [scanChainAux_cons, hb, hasResidue], by simp⟩
    · by_cases hl : c.isLower
      · obtain ⟨D, h1, h2, h3⟩ := ih (pos + 1) (acc ++ [c]) curr aa start
        refine ⟨c :: D, ?_, ?_, ?_⟩
        · rw [scanChainAux_cons, if_neg hb, if_pos hl, h1]
          simp
        · rw [scanChainAux_cons, if_neg hb, if_pos hl, h2]
          simp [hasResidue, hl]
        · intro x hx
          rcases List.mem_cons.mp hx with h | h
          · simp [h]
          · exact List.mem_cons_of_mem c (h3 x h)
      · obtain ⟨D, h1, h2, h3⟩ := ih (pos + 1) (acc ++ [c]) (curr + 1)
          (aa || !(c = '-')) start
        refine ⟨c :: D, ?_, ?_, ?_⟩
        · rw [scanChainAux_cons, if_neg hb, if_neg hl, h1]
          simp
        · rw [scanChainAux_cons, if_neg hb, if_neg hl, h2]
          simp only [hasResidue, List.any_cons, hl, Bool.not_false, Bool.true_and]
          rw [Bool.or_assoc]
        · intro x hx
          rcases List.mem_cons.mp hx with h | h
          · simp [h]
          · exact List.mem_cons_of_mem c (h3 x h)

theorem splitChainsAux_nil (sq : Str) (prev : Nat) :
    splitChainsAux sq [] prev = ([], []) := rfl

theorem splitChainsAux_cons (sq : Str) (q : Int) (rest : List Int) (prev : Nat) :
    splitChainsAux sq (q :: rest) prev =
      ((scanChain sq q prev).1 ::
          (splitChainsAux sq rest (scanChain sq q prev).2.2).1,
        (scanChain sq q prev).2.1 ::
          (splitChainsAux sq rest (scanChain sq q prev).2.2).2) := rfl

theorem splitChainsAux_length (sq : Str) (lens : List Int) :
    ∀ prev, (splitChainsAux sq lens prev).1.length = lens.length ∧
      (splitChainsAux sq lens prev).2.length = lens.length := by
  induction lens with
  | nil => intro prev; simp [splitChainsAux_nil]
  | cons q rest ih =>
    intro prev
    rw [splitChainsAux_cons]
    simp only [List.length_cons]
    exact ⟨by rw [(ih _).1], by rw [(ih _).2]⟩

/-- The per-chain flags are the residue test of the per-chain segments,
and all segment characters come from the scanned record sequence. -/
theorem splitChainsAux_flags (sq : Str) (lens : List Int) :
    ∀ prev, (splitChainsAux sq lens prev).2 =
        (splitChainsAux sq lens prev).1.map hasResidue ∧
      ∀ sg ∈ (splitChainsAux sq lens prev).1, ∀ x ∈ sg, x ∈ sq := by
  induction lens with
  | nil => intro prev; simp [splitChainsAux_nil]
  | cons q rest ih =>
    intro prev
    obtain ⟨D, h1, h2, h3⟩ := scanChainAux_delta q (sq.drop prev) prev [] 0 false prev
    have hseg : (scanChain sq q prev).1 = D := by
      rw [scanChain, h1]; simp
    have hflag : (scanChain sq q prev).2.1 = hasResidue D := by
      rw [scanChain, h2]; simp
    rw [splitChainsAux_cons]
    constructor
    · simp only [List.map_cons]
      rw [hseg, hflag, (ih _).1]
    · intro sg hsg x hx
      rcases List.mem_cons.mp hsg with h | h
      · subst h
        rw [hseg] at hx
        exact List.mem_of_mem_drop (h3 x hx)
      · exact (ih _).2 sg h x hx

theorem splitChains_length (lens : List Int) (sq : Str) :
    (splitChains lens sq).1.length = lens.length ∧
      (splitChains lens sq).2.length = lens.length :=
  splitChainsAux_length sq lens 0

theorem splitChains_flags (lens : List Int) (sq : Str) :
    (splitChains lens sq).2 = (splitChains lens sq).1.map hasResidue :=
  (splitChainsAux_flags sq lens 0).1

theorem splitChains_subset (lens : List Int) (sq : Str) :
    ∀ sg ∈ (splitChains lens sq).1, ∀ x ∈ sg, x ∈ sq :=
  (splitChainsAux_flags sq lens 0).2

/-!
## The decoder's two append branches
-/

theorem appendPaired_spec (segs : List Str) :
    ∀ (pm parts : List Str), pm.length = segs.length →
      segs.length ≤ parts.length →
      ∃ pm2, appendPaired pm parts segs = some pm2 ∧
        pm2.length = pm.length ∧
        ∀ j, j < pm.length →
          pm2.getD j [] = pm.getD j [] ++
            '>' :: (parts.getD j [] ++ '\n' :: (segs.getD j [] ++ ['\n'])) := by
  induction segs with
  | nil =>
    intro pm parts hlen _
    have : pm = [] := List.eq_nil_of_length_eq_zero hlen
    subst this
    exact ⟨[], rfl, rfl, by intro j hj; simp at hj⟩
  | cons sg sgrest ih =>
    intro pm parts hlen hparts
    cases pm with
    | nil => simp at hlen
    | cons p pmrest =>
      cases parts with
      | nil => simp at hparts
      | cons part partrest =>
        obtain ⟨pm2, h1, h2, h3⟩ := ih pmrest partrest
          (by simpa using hlen) (by simpa using hparts)
        refine ⟨(p ++ '>' :: (part ++ '\n' :: (sg ++ ['\n']))) :: pm2, ?_, ?_, ?_⟩
        · simp only [appendPaired, h1]
          rfl
        · simp [h2]
        · intro j hj
          cases j with
          | zero => simp
          | succ j2 =>
            simp only [List.getD_cons_succ]
            exact h3 j2 (by simpa using hj)

theorem appendUnpaired_spec (header : Str) (segs : List Str) :
    ∀ (um : List Str) (flags : List Bool), um.length = segs.length →
      flags.length = segs.length →
      ∃ um2, appendUnpaired header um segs flags = some um2 ∧
        um2.length = um.length ∧
        ∀ j, j < um.length →
          um2.getD j [] =
            if flags.getD j false then
              um.getD j [] ++ header ++ '\n' :: (segs.getD j [] ++ ['\n'])
            else um.getD j [] := by
  induction segs with
  | nil =>
    intro um flags hlen _
    have : um = [] := List.eq_nil_of_length_eq_zero hlen
    subst this
    exact ⟨[], rfl, rfl, by intro j hj; simp at hj⟩
  | cons sg sgrest ih =>
    intro um flags hlen hflags
    cases um with
    | nil => simp at hlen
    | cons u umrest =>
      cases flags with
      | nil => simp at hflags
      | cons b brest =>
        obtain ⟨um2, h1, h2, h3⟩ := ih umrest brest
          (by simpa using hlen) (by simpa using hflags)
        refine ⟨(if b then u ++ header ++ '\n' :: (sg ++ ['\n']) else u) :: um2, ?_, ?_, ?_⟩
        · simp only [appendUnpaired, h1]
          rfl
        · simp [h2]
        · intro j hj
          cases j with
          | zero => simp
          | succ j2 =>
            simp only [List.getD_cons_succ]
            exact h3 j2 (by simpa using hj)

theorem appendPaired_ne (pm parts segs pm2 : List Str) (hpm : pm ≠ [])
    (hsegs : segs ≠ []) (h : appendPaired pm parts segs = some pm2) :
    pm2 ≠ pm := by
  cases segs with
  | nil => exact absurd rfl hsegs
  | cons sg sgrest =>
    cases pm with
    | nil => exact absurd rfl hpm
    | cons p pmrest =>
      cases parts with
      | nil => exact absurd h (by simp [appendPaired])
      | cons part partrest =>
        simp only [appendPaired] at h
        cases hrec : appendPaired pmrest partrest sgrest with
        | none => rw [hrec] at h; simp at h
        | some r =>
          rw [hrec] at h
          have h2 : ((p ++ '>' :: (part ++ '\n' :: (sg ++ ['\n']))) :: r) = pm2 := by
            simpa using h
          intro he
          rw [← h2] at he
          injection he with hhead _
          have : ('>' :: (part ++ '\n' :: (sg ++ ['\n']))).length = 0 := by
            have := congrArg List.length hhead
            simp only [List.length_append] at this
            omega
          simp at this

/-- The classification test of the decoder, rephrased: all per-chain
flags are set iff every per-chain segment contains a residue. -/
theorem splitChains_count_iff (lens : List Int) (sq : Str) :
    ((splitChains lens sq).2.count true == lens.length) = true ↔
      ∀ sg ∈ (splitChains lens sq).1, hasResidue sg = true := by
  rw [beq_iff_eq, splitChains_flags]
  have hlen : ((splitChains lens sq).1.map hasResidue).length = lens.length := by
    simp [(splitChains_length lens sq).1]
  constructor
  · intro h sg hsg
    have hall := List.count_eq_length.mp (by rw [h, hlen])
    exact (hall (hasResidue sg) (List.mem_map_of_mem hasResidue hsg)).symm
  · intro h
    rw [← hlen]
    apply List.count_eq_length.mpr
    intro b hb
    obtain ⟨sg, hsg, rfl⟩ := List.mem_map.mp hb
    exact (h sg hsg).symm

/-- C3: a body row not seen before is placed in the paired output
(changing the paired accumulators) exactly when the job is neither
single-protein nor homo-oligomeric and every one of its per-chain
segments contains at least one non-gap residue; otherwise the paired
accumulators are untouched and every chain whose segment contains a
residue receives the record header and its own segment in its unpaired
accumulator. -/
theorem decode_row_classification (lens : List Int) (sing homo : Bool)
    (st st2 : DecodeState) (header sq : Str)
    (hnew : (header, sq) ∉ st.seen)
    (hplen : st.paired_msa.length = lens.length)
    (hulen : st.unpaired_msa.length = lens.length)
    (hk : lens ≠ [])
    (hstep : decode_record lens sing homo st header sq = some st2) :
    (st2.paired_msa ≠ st.paired_msa ↔
      (sing = false ∧ homo = false ∧
        ∀ sg ∈ (splitChains lens sq).1, hasResidue sg = true)) ∧
    ((sing = true ∨ homo = true ∨
        ∃ sg ∈ (splitChains lens sq).1, hasResidue sg = false) →
      st2.paired_msa = st.paired_msa ∧
      ∀ j, j < lens.length →
        st2.unpaired_msa.getD j [] =
          (if hasResidue ((splitChains lens sq).1.getD j []) = true then
            st.unpaired_msa.getD j [] ++ header ++
              '\n' :: ((splitChains lens sq).1.getD j [] ++ ['\n'])
          else st.unpaired_msa.getD j [])) := by
  have hslen := splitChains_length lens sq
  unfold decode_record at hstep
  rw [if_neg hnew] at hstep
  by_cases hb : (!sing && !homo &&
      ((splitChains lens sq).2.count true == lens.length)) = true
  · rw [if_pos hb] at hstep
    simp only [Bool.and_eq_true, Bool.not_eq_true'] at hb
    have hprops : sing = false ∧ homo = false ∧
        ∀ sg ∈ (splitChains lens sq).1, hasResidue sg = true :=
      ⟨hb.1.1, hb.1.2, (splitChains_count_iff lens sq).mp hb.2⟩
    cases happ : appendPaired st.paired_msa
        (pySplit '\t' (header.filter (fun c => !(c = '>'))))
        (splitChains lens sq).1 with
    | none => rw [happ] at hstep; simp at hstep
    | some pm =>
      rw [happ] at hstep
      simp only [Option.some.injEq] at hstep
      have hne : pm ≠ st.paired_msa :=
        appendPaired_ne st.paired_msa _ _ pm
          (by
            intro he; rw [he] at hplen; simp at hplen
            exact hk (List.eq_nil_of_length_eq_zero hplen.symm))
          (by
            intro he; rw [he] at hslen; simp at hslen
            exact hk (List.eq_nil_of_length_eq_zero hslen.1.symm))
          happ
      have hst2 : st2 = ⟨(header, sq) :: st.seen, pm, st.unpaired_msa⟩ := hstep.symm
      constructor
      · rw [hst2]
        exact ⟨fun _ => hprops, fun _ => hne⟩
      · intro hneg
        rcases hneg with h | h | ⟨sg, hsg, hres⟩
        · rw [hprops.1] at h; simp at h
        · rw [hprops.2.1] at h; simp at h
        · rw [hprops.2.2 sg hsg] at hres; simp at hres
  · rw [if_neg hb] at hstep
    cases happ : appendUnpaired header st.unpaired_msa
        (splitChains lens sq).1 (splitChains lens sq).2 with
    | none => rw [happ] at hstep; simp at hstep
    | some um =>
      rw [happ] at hstep
      simp only [Option.some.injEq] at hstep
      have hst2 : st2 = ⟨(header, sq) :: st.seen, st.paired_msa, um⟩ := hstep.symm
      obtain ⟨um2, heq, hl2, hgetD⟩ := appendUnpaired_spec header
        (splitChains lens sq).1 st.unpaired_msa (splitChains lens sq).2
        (by rw [hulen, hslen.1]) (by rw [hslen.2, hslen.1])
      have hum : um2 = um := by
        rw [heq] at happ
        exact Option.some.inj happ
      constructor
      · apply iff_of_false
        · rw [hst2]
          simp
        · intro hR
          apply hb
          simp only [Bool.and_eq_true, Bool.not_eq_true']
          exact ⟨⟨hR.1, hR.2.1⟩, (splitChains_count_iff lens sq).mpr hR.2.2⟩
      · intro _
        refine ⟨by rw [hst2], ?_⟩
        intro j hj
        have hj2 : j < st.unpaired_msa.length := by rw [hulen]; exact hj
        have h1 := hgetD j hj2
        rw [hum] at h1
        have hflag : (splitChains lens sq).2.getD j false =
            hasResidue ((splitChains lens sq).1.getD j []) := by
          rw [splitChains_flags]
          have hjlt : j < (splitChains lens sq).1.length := by
            rw [hslen.1]; exact hj
          rw [List.getD_eq_getElem _ _ (by simpa using hjlt),
            List.getD_eq_getElem _ _ hjlt, List.getElem_map]
        rw [hflag] at h1
        rw [hst2]
        simp only []
        rw [h1]

/-- Concrete instantiation of C3: the record `>u` / `AC--` in a
two-chain job has a residue only in chain 0, so it is demoted to the
unpaired bucket of chain 0 with exactly its first segment. -/
theorem decode_row_classification_witness :
    (DecodeState.mk [(">u".toList, "AC--".toList)] [[], []]
        [">u\nAC\n".toList, []]).unpaired_msa.getD 0 [] =
      (if hasResidue ((splitChains [2, 2] ("AC--".toList)).1.getD 0 []) = true then
        (DecodeState.mk ([] : List (Str × Str)) [[], []]
            [[], []]).unpaired_msa.getD 0 [] ++ ">u".toList ++
          '\n' :: ((splitChains [2, 2] ("AC--".toList)).1.getD 0 [] ++ ['\n'])
      else (DecodeState.mk ([] : List (Str × Str)) [[], []]
          [[], []]).unpaired_msa.getD 0 []) := by
  have h := decode_row_classification [2, 2] false false
    ⟨[], [[], []], [[], []]⟩
    ⟨[(">u".toList, "AC--".toList)], [[], []], [">u\nAC\n".toList, []]⟩
    (">u".toList) ("AC--".toList) (by decide) (by decide) (by decide)
    (by decide) (by decide)
  exact (h.2 (Or.inr (Or.inr ⟨"--".toList, by decide, by decide⟩))).2 0 (by decide)

/-!
## Small facts about fragments and rows
-/

theorem replaceFirst_length (a b : Char) (s : Str) :
    (replaceFirst a b s).length = s.length := by
  induction s with
  | nil => rfl
  | cons c rest ih =>
    simp only [replaceFirst]
    by_cases hc : c = a
    · rw [if_pos hc]; simp
    · rw [if_neg hc]; simp [ih]

theorem mem_replaceFirst (a b : Char) (s : Str) (x : Char)
    (hx : x ∈ replaceFirst a b s) : x = b ∨ x ∈ s := by
  induction s with
  | nil => simp [replaceFirst] at hx
  | cons c rest ih =>
    simp only [replaceFirst] at hx
    by_cases hc : c = a
    · rw [if_pos hc] at hx
      rcases List.mem_cons.mp hx with h | h
      · exact Or.inl h
      · exact Or.inr (List.mem_cons_of_mem c h)
    · rw [if_neg hc] at hx
      rcases List.mem_cons.mp hx with h | h
      · exact Or.inr (by simp [h])
      · rcases ih h with h2 | h2
        · exact Or.inl h2
        · exact Or.inr (List.mem_cons_of_mem c h2)

theorem repeatStr_length (s : Str) (k : Nat) :
    (repeatStr s k).length = k * s.length := by
  simp [repeatStr, List.length_flatten, Function.comp]

theorem repeatStr_ne_nil (s : Str) (k : Nat) (hk : 1 ≤ k) (hs : s ≠ []) :
    repeatStr s k ≠ [] := by
  intro he
  have := congrArg List.length he
  rw [repeatStr_length] at this
  simp at this
  rcases this with h | h
  · omega
  · exact hs h

theorem mem_repeatStr (s : Str) (k : Nat) (x : Char) (hx : x ∈ repeatStr s k) :
    x ∈ s := by
  simp only [repeatStr, List.mem_flatten] at hx
  obtain ⟨l, hl, hxl⟩ := hx
  rw [List.eq_of_mem_replicate hl] at hxl
  exact hxl

theorem repeatStr_one (s : Str) : repeatStr s 1 = s := by
  simp [repeatStr]

theorem mem_pySplitlines_no_nl (s : Str) (l : Str) (hl : l ∈ pySplitlines s) :
    '\n' ∉ l := by
  unfold pySplitlines at hl
  by_cases h0 : s = []
  · rw [if_pos h0] at hl; simp at hl
  · rw [if_neg h0] at hl
    by_cases h1 : s.getLast? = some '\n'
    · rw [if_pos h1] at hl
      exact mem_pySplit_not_sep '\n' s l (List.dropLast_subset _ hl)
    · rw [if_neg h1] at hl
      exact mem_pySplit_not_sep '\n' s l hl

theorem pairFrag_chars (n card : Nat) (line : Str) (x : Char)
    (hx : x ∈ pairFrag n card line) : x = '\t' ∨ x ∈ line := by
  unfold pairFrag at hx
  by_cases hs : startsChar '>' line = true
  · rw [if_pos hs] at hx
    by_cases hn : n ≠ 0
    · rw [if_pos hn] at hx
      rcases mem_replaceFirst '>' '\t' line x hx with h | h
      · exact Or.inl h
      · exact Or.inr h
    · rw [if_neg hn] at hx
      exact Or.inr hx
  · rw [if_neg hs] at hx
    exact Or.inr (mem_repeatStr line card x hx)

theorem pairFrag_ne_nil (n card : Nat) (line : Str) (hcard : 1 ≤ card)
    (hline : line ≠ []) : pairFrag n card line ≠ [] := by
  unfold pairFrag
  by_cases hs : startsChar '>' line = true
  · rw [if_pos hs]
    by_cases hn : n ≠ 0
    · rw [if_pos hn]
      intro he
      have := congrArg List.length he
      rw [replaceFirst_length] at this
      exact hline (List.eq_nil_of_length_eq_zero this)
    · rw [if_neg hn]; exact hline
  · rw [if_neg hs]
    exact repeatStr_ne_nil line card hcard hline

theorem getD_append_len {α : Type} (l1 l2 : List α) (a d : α) :
    (l1 ++ a :: l2).getD l1.length d = a := by
  induction l1 with
  | nil => rfl
  | cons x xs ih => simpa using ih

theorem get_append_len {α : Type} (l1 l2 : List α) (a : α)
    (h : l1.length < (l1 ++ a :: l2).length) :
    (l1 ++ a :: l2).get ⟨l1.length, h⟩ = a := by
  induction l1 with
  | nil => rfl
  | cons x xs ih => simpa using ih (by simpa using h)

theorem set_append_len {α : Type} (l1 l2 : List α) (a x : α) :
    (l1 ++ a :: l2).set l1.length x = l1 ++ x :: l2 := by
  induction l1 with
  | nil => rfl
  | cons y ys ih => simpa using ih

/-!
## Evaluation of `pair_sequences`
-/

theorem pairAddLines_nil (n : Nat) (cards : List Nat) (i : Nat)
    (rows : List Str) : pairAddLines n cards [] i rows = some rows := rfl

theorem pairAddLines_cons (n : Nat) (cards : List Nat) (line : Str)
    (lrest : List Str) (i : Nat) (rows : List Str) :
    pairAddLines n cards (line :: lrest) i rows =
      if h : i < rows.length then
        (if startsChar '>' line then
          pairAddLines n cards lrest (i + 1)
            (rows.set i (rows.get ⟨i, h⟩ ++
              (if n ≠ 0 then replaceFirst '>' '\t' line else line)))
        else
          match cards[n]? with
          | none => none
          | some card =>
              pairAddLines n cards lrest (i + 1)
                (rows.set i (rows.get ⟨i, h⟩ ++ repeatStr line card)))
      else none := rfl

theorem pairAddLines_spec (n : Nat) (cards : List Nat) (card : Nat)
    (hcard : cards[n]? = some card) (lines : List Str) :
    ∀ (rows2 rows1 : List Str), lines.length = rows2.length →
      pairAddLines n cards lines rows1.length (rows1 ++ rows2) =
        some (rows1 ++ List.zipWith (fun r l => r ++ pairFrag n card l) rows2 lines) := by
  induction lines with
  | nil =>
    intro rows2 rows1 hlen
    have : rows2 = [] := List.eq_nil_of_length_eq_zero hlen.symm
    subst this
    simp [pairAddLines_nil]
  | cons line lrest ih =>
    intro rows2 rows1 hlen
    cases rows2 with
    | nil => simp at hlen
    | cons r rrest =>
      have hlt : rows1.length < (rows1 ++ r :: rrest).length := by simp
      rw [pairAddLines_cons, dif_pos hlt, get_append_len rows1 rrest r hlt]
      have hset : ∀ y : Str, (rows1 ++ r :: rrest).set rows1.length y =
          (rows1 ++ [y]) ++ rrest := by
        intro y
        rw [set_append_len]
        simp
      have hlen2 : lrest.length = rrest.length := by simpa using hlen
      have hrec : ∀ y : Str, pairAddLines n cards lrest (rows1.length + 1)
          ((rows1 ++ [y]) ++ rrest) =
          some ((rows1 ++ [y]) ++
            List.zipWith (fun r l => r ++ pairFrag n card l) rrest lrest) := by
        intro y
        have := ih rrest (rows1 ++ [y]) hlen2
        simpa using this
      by_cases hs : startsChar '>' line = true
      · rw [if_pos hs, hset, hrec]
        have hfrag : r ++ (if n ≠ 0 then replaceFirst '>' '\t' line else line) =
            r ++ pairFrag n card line := by
          rw [pairFrag, if_pos hs]
        rw [hfrag]
        simp [List.zipWith]
      · rw [if_neg hs, hcard]
        show pairAddLines n cards lrest (rows1.length + 1)
            ((rows1 ++ r :: rrest).set rows1.length (r ++ repeatStr line card)) =
          some (rows1 ++
            List.zipWith (fun r l => r ++ pairFrag n card l) (r :: rrest) (line :: lrest))
        rw [hset, hrec]
        have hfrag : r ++ repeatStr line card = r ++ pairFrag n card line := by
          rw [pairFrag, if_neg hs]
        rw [hfrag]
        simp [List.zipWith]

theorem pairChains_nil (blocks : List Str) (cards : List Nat) (n : Nat)
    (rows : List Str) : pairChains blocks cards [] n rows = some rows := rfl

theorem pairChains_cons (blocks : List Str) (cards : List Nat) (q : Str)
    (qrest : List Str) (n : Nat) (rows : List Str) :
    pairChains blocks cards (q :: qrest) n rows =
      match blocks[n]? with
      | none => none
      | some block =>
        match pairAddLines n cards (pySplitlines block) 0 rows with
        | none => none
        | some rows2 => pairChains blocks cards qrest (n + 1) rows2 := rfl

theorem pairChains_cons_eval (blocks : List Str) (cards : List Nat) (q : Str)
    (qrest : List Str) (n : Nat) (rows : List Str) (block : Str)
    (rows2 : List Str) (hb : blocks[n]? = some block)
    (ha : pairAddLines n cards (pySplitlines block) 0 rows = some rows2) :
    pairChains blocks cards (q :: qrest) n rows =
      pairChains blocks cards qrest (n + 1) rows2 := by
  rw [pairChains_cons, hb]
  show (match pairAddLines n cards (pySplitlines block) 0 rows with
    | none => none
    | some r2 => pairChains blocks cards qrest (n + 1) r2) =
    pairChains blocks cards qrest (n + 1) rows2
  rw [ha]

theorem pairChains_spec (blocks : List Str) (cards : List Nat) (qs : List Str) :
    ∀ (n : Nat) (rows : List Str),
      (∀ j, j < qs.length → n + j < blocks.length ∧ n + j < cards.length ∧
        (pySplitlines (blocks.getD (n + j) [])).length = rows.length) →
      ∃ rows2, pairChains blocks cards qs n rows = some rows2 ∧
        rows2.length = rows.length ∧
        ∀ i, i < rows.length →
          rows2.getD i [] = rows.getD i [] ++ pairColumn blocks cards qs.length n i := by
  induction qs with
  | nil =>
    intro n rows _
    exact ⟨rows, pairChains_nil blocks cards n rows, rfl,
      by intro i _; simp [pairColumn]⟩
  | cons q qrest ih =>
    intro n rows hyp
    obtain ⟨hb, hc, hsl⟩ := hyp 0 (by simp)
    rw [Nat.add_zero] at hb hc hsl
    have hbsome : blocks[n]? = some (blocks.getD n []) := by
      rw [List.getD_eq_getElem _ _ hb]
      exact List.getElem?_eq_getElem hb
    have hcsome : cards[n]? = some (cards.getD n 0) := by
      rw [List.getD_eq_getElem _ _ hc]
      exact List.getElem?_eq_getElem hc
    have hadd := pairAddLines_spec n cards (cards.getD n 0) hcsome
      (pySplitlines (blocks.getD n [])) rows [] hsl
    simp only [List.nil_append, List.length_nil] at hadd
    set rows' := List.zipWith
      (fun r l => r ++ pairFrag n (cards.getD n 0) l) rows
      (pySplitlines (blocks.getD n [])) with hrows'
    rw [pairChains_cons_eval blocks cards q qrest n rows (blocks.getD n []) rows'
      hbsome hadd]
    have hlen' : rows'.length = rows.length := by
      rw [hrows', List.length_zipWith, hsl]
      simp
    obtain ⟨rows2, h1, h2, h3⟩ := ih (n + 1) rows' (by
      intro j hj
      have := hyp (j + 1) (by simpa using hj)
      rw [show n + 1 + j = n + (j + 1) by omega, hlen']
      exact this)
    refine ⟨rows2, h1, by rw [h2, hlen'], ?_⟩
    intro i hi
    have hi' : i < rows'.length := by rw [hlen']; exact hi
    rw [h3 i hi']
    have hgz : rows'.getD i [] =
        rows.getD i [] ++ pairFrag n (cards.getD n 0)
          ((pySplitlines (blocks.getD n [])).getD i []) := by
      rw [hrows']
      have hil : i < (pySplitlines (blocks.getD n [])).length := by
        rw [hsl]; exact hi
      rw [List.getD_eq_getElem _ _ hi', List.getD_eq_getElem _ _ hi,
        List.getD_eq_getElem _ _ hil]
      rw [List.getElem_zipWith]
    rw [hgz]
    show (rows.getD i [] ++ _) ++ _ = rows.getD i [] ++ pairColumn blocks cards (qrest.length + 1) n i
    rw [List.append_assoc]
    rfl

theorem getD_replicate_nilStr (n i : Nat) :
    (List.replicate n ([] : Str)).getD i [] = [] := by
  by_cases h : i < n
  · rw [List.getD_eq_getElem _ _ (by simpa using h), List.getElem_replicate]
  · rw [List.getD_eq_default]
    simpa using h

theorem pairColumn_no_nl (blocks : List Str) (cards : List Nat) :
    ∀ (k n i : Nat), '\n' ∉ pairColumn blocks cards k n i := by
  intro k
  induction k with
  | zero => intro n i; simp [pairColumn]
  | succ k2 ih =>
    intro n i
    intro hx
    rcases List.mem_append.mp hx with h | h
    · rcases pairFrag_chars _ _ _ _ h with h2 | h2
      · exact absurd h2.symm (by decide)
      · by_cases hi : i < (pySplitlines (blocks.getD n [])).length
        · rw [List.getD_eq_getElem _ _ hi] at h2
          exact mem_pySplitlines_no_nl (blocks.getD n []) _
            (List.getElem_mem hi) h2
        · rw [List.getD_eq_default _ _ (by simpa using hi)] at h2
          simp at h2
    · exact ih (n + 1) i h

theorem pairColumn_length (blocks : List Str) (cards : List Nat) :
    ∀ (k n i : Nat),
      (∀ j, j < k →
        startsChar '>' ((pySplitlines (blocks.getD (n + j) [])).getD i []) = false) →
      (pairColumn blocks cards k n i).length = pairWidth blocks cards k n i := by
  intro k
  induction k with
  | zero => intro n i _; simp [pairColumn, pairWidth]
  | succ k2 ih =>
    intro n i hyp
    have h0 := hyp 0 (by omega)
    rw [Nat.add_zero] at h0
    show (pairFrag n (cards.getD n 0) _ ++ pairColumn blocks cards k2 (n + 1) i).length = _
    rw [List.length_append]
    have hfrag : pairFrag n (cards.getD n 0)
        ((pySplitlines (blocks.getD n [])).getD i []) =
        repeatStr ((pySplitlines (blocks.getD n [])).getD i []) (cards.getD n 0) := by
      rw [pairFrag, if_neg (by rw [h0]; simp)]
    rw [hfrag, repeatStr_length,
      ih (n + 1) i (fun j hj => by
        have := hyp (j + 1) (by omega)
        rw [show n + 1 + j = n + (j + 1) by omega]
        exact this)]
    show cards.getD n 0 * ((pySplitlines (blocks.getD n [])).getD i []).length +
        pairWidth blocks cards k2 (n + 1) i =
      ((pySplitlines (blocks.getD n [])).getD i []).length * cards.getD n 0 +
        pairWidth blocks cards k2 (n + 1) i
    rw [Nat.mul_comm]

theorem pair_sequences_eval (blocks qs : List Str) (cards : List Nat) (b0 : Str)
    (hb : blocks[0]? = some b0) :
    pair_sequences blocks qs cards =
      (joinSep '\n') <$> pairChains blocks cards qs 0
        (List.replicate (pySplitlines b0).length []) := by
  unfold pair_sequences
  rw [hb]

/-- C4: when every chain block has the same number of lines `L`, the
output of `pair_sequences` has exactly `L` lines, and every output row
at an index where no block has a header has width equal to the sum over
chains of the chain's row width times the chain's cardinality. -/
theorem pair_sequences_invariant (blocks qs : List Str) (cards : List Nat)
    (L : Nat) (hbq : blocks.length = qs.length) (hcq : cards.length = qs.length)
    (hb0 : blocks ≠ [])
    (hL : ∀ b ∈ blocks, (pySplitlines b).length = L)
    (hnz : ∀ b ∈ blocks, ∀ l ∈ pySplitlines b, l ≠ [])
    (hcard : ∀ c ∈ cards, 1 ≤ c) :
    ∃ s, pair_sequences blocks qs cards = some s ∧
      (pySplitlines s).length = L ∧
      ∀ i, i < L →
        (∀ b ∈ blocks, startsChar '>' ((pySplitlines b).getD i []) = false) →
        ((pySplitlines s).getD i []).length = pairWidth blocks cards qs.length 0 i := by
  obtain ⟨b0, brest, hblocks⟩ := List.exists_cons_of_ne_nil hb0
  have hb0some : blocks[0]? = some b0 := by rw [hblocks]; simp
  have hb0mem : b0 ∈ blocks := by rw [hblocks]; simp
  have hLb0 : (pySplitlines b0).length = L := hL b0 hb0mem
  have hmemD : ∀ j, j < blocks.length → blocks.getD j [] ∈ blocks := by
    intro j hj
    rw [List.getD_eq_getElem _ _ hj]
    exact List.getElem_mem hj
  obtain ⟨rows2, h1, h2, h3⟩ := pairChains_spec blocks cards qs 0
    (List.replicate (pySplitlines b0).length [])
    (by
      intro j hj
      refine ⟨by omega, by omega, ?_⟩
      rw [Nat.zero_add]
      rw [hL (blocks.getD j []) (hmemD j (by omega)), List.length_replicate, hLb0])
  have hrowslen : rows2.length = L := by
    rw [h2, List.length_replicate, hLb0]
  have hrowget : ∀ i, i < L →
      rows2.getD i [] = pairColumn blocks cards qs.length 0 i := by
    intro i hi
    have := h3 i (by rw [List.length_replicate, hLb0]; exact hi)
    rw [getD_replicate_nilStr] at this
    simpa using this
  refine ⟨joinSep '\n' rows2, ?_, ?_, ?_⟩
  · rw [pair_sequences_eval blocks qs cards b0 hb0some, h1]
    rfl
  · by_cases hL0 : L = 0
    · subst hL0
      have : rows2 = [] := List.eq_nil_of_length_eq_zero hrowslen
      subst this
      rfl
    · have hqs : qs ≠ [] := by
        intro he
        rw [he] at hbq
        simp at hbq
        exact hb0 hbq
      obtain ⟨q0, qrest, hqs2⟩ := List.exists_cons_of_ne_nil hqs
      have hck : 0 < cards.length := by
        rw [hcq, hqs2]; simp
      have hrowsne : ∀ l ∈ rows2, l ≠ [] ∧ '\n' ∉ l := by
        intro l hl
        obtain ⟨i, hi, hieq⟩ := List.getElem_of_mem hl
        have hiL : i < L := by rw [← hrowslen]; exact hi
        have : l = pairColumn blocks cards qs.length 0 i := by
          rw [← hieq, ← List.getD_eq_getElem rows2 [] hi]
          exact hrowget i hiL
        subst this
        constructor
        · rw [hqs2]
          show pairFrag 0 (cards.getD 0 0)
            ((pySplitlines (blocks.getD 0 [])).getD i []) ++ _ ≠ []
          have hfragne : pairFrag 0 (cards.getD 0 0)
              ((pySplitlines (blocks.getD 0 [])).getD i []) ≠ [] := by
            apply pairFrag_ne_nil
            · rw [List.getD_eq_getElem _ _ hck]
              exact hcard _ (List.getElem_mem hck)
            · have hb0d : blocks.getD 0 [] = b0 := by rw [hblocks]; rfl
              rw [hb0d]
              have hiL2 : i < (pySplitlines b0).length := by rw [hLb0]; exact hiL
              rw [List.getD_eq_getElem _ _ hiL2]
              exact hnz b0 hb0mem _ (List.getElem_mem hiL2)
          intro he
          exact hfragne (List.append_eq_nil.mp he).1
        · exact pairColumn_no_nl blocks cards qs.length 0 i
      rw [pySplitlines_joinSep rows2
        (by intro he; rw [he] at hrowslen; simp at hrowslen; omega) hrowsne]
      exact hrowslen
  · intro i hi hhead
    by_cases hL0 : L = 0
    · omega
    · have hqs : qs ≠ [] := by
        intro he
        rw [he] at hbq
        simp at hbq
        exact hb0 hbq
      have hrowsne : ∀ l ∈ rows2, l ≠ [] ∧ '\n' ∉ l := by
        intro l hl
        obtain ⟨i2, hi2, hieq⟩ := List.getElem_of_mem hl
        have hiL : i2 < L := by rw [← hrowslen]; exact hi2
        have : l = pairColumn blocks cards qs.length 0 i2 := by
          rw [← hieq, ← List.getD_eq_getElem rows2 [] hi2]
          exact hrowget i2 hiL
        subst this
        constructor
        · obtain ⟨q0, qrest, hqs2⟩ := List.exists_cons_of_ne_nil hqs
          have hck : 0 < cards.length := by
            rw [hcq, hqs2]; simp
          rw [hqs2]
          show pairFrag 0 (cards.getD 0 0)
            ((pySplitlines (blocks.getD 0 [])).getD i2 []) ++ _ ≠ []
          have hfragne : pairFrag 0 (cards.getD 0 0)
              ((pySplitlines (blocks.getD 0 [])).getD i2 []) ≠ [] := by
            apply pairFrag_ne_nil
            · rw [List.getD_eq_getElem _ _ hck]
              exact hcard _ (List.getElem_mem hck)
            · have hb0d : blocks.getD 0 [] = b0 := by rw [hblocks]; rfl
              rw [hb0d]
              have hiL2 : i2 < (pySplitlines b0).length := by rw [hLb0]; exact hiL
              rw [List.getD_eq_getElem _ _ hiL2]
              exact hnz b0 hb0mem _ (List.getElem_mem hiL2)
          intro he
          exact hfragne (List.append_eq_nil.mp he).1
        · exact pairColumn_no_nl blocks cards qs.length 0 i2
      rw [pySplitlines_joinSep rows2
        (by intro he; rw [he] at hrowslen; simp at hrowslen; omega) hrowsne]
      rw [hrowget i hi]
      apply pairColumn_length
      intro j hj
      rw [Nat.zero_add]
      exact hhead (blocks.getD j []) (hmemD j (by omega))

/-- Concrete instantiation of C4: two chains with cardinalities 1 and 2,
two lines per block. -/
theorem pair_sequences_invariant_witness :
    ∃ s, pair_sequences [">a\nAC".toList, ">b\nDE".toList]
        ["AC".toList, "DE".toList] [1, 2] = some s ∧
      (pySplitlines s).length = 2 ∧
      ∀ i, i < 2 →
        (∀ b ∈ [">a\nAC".toList, ">b\nDE".toList],
          startsChar '>' ((pySplitlines b).getD i []) = false) →
        ((pySplitlines s).getD i []).length =
          pairWidth [">a\nAC".toList, ">b\nDE".toList] [1, 2] 2 0 i :=
  pair_sequences_invariant [">a\nAC".toList, ">b\nDE".toList]
    ["AC".toList, "DE".toList] [1, 2] 2 (by decide) (by decide) (by decide)
    (by decide) (by decide) (by decide)

/-!
## Evaluation of `pad_sequences`
-/

theorem sumCards_shift (c0 : Nat) (cs : List Nat) :
    ∀ (j n : Nat), sumCards (c0 :: cs) (n + 1) j = sumCards cs n j := by
  intro j
  induction j with
  | zero => intro n; rfl
  | succ j2 ih =>
    intro n
    show (c0 :: cs).getD (n + 1) 0 + sumCards (c0 :: cs) (n + 2) j2 =
      cs.getD n 0 + sumCards cs (n + 1) j2
    rw [List.getD_cons_succ, ih (n + 1)]

theorem expandedBlanks_length (qs : List Str) :
    ∀ (cards : List Nat), cards.length = qs.length →
      (expandedBlanks qs cards).length = sumCards cards 0 qs.length := by
  induction qs with
  | nil =>
    intro cards h
    have : cards = [] := List.eq_nil_of_length_eq_zero h
    subst this
    rfl
  | cons q rest ih =>
    intro cards h
    cases cards with
    | nil => simp at h
    | cons c0 cs =>
      show ((List.zipWith _ (q :: rest) (c0 :: cs)).flatten).length =
        sumCards (c0 :: cs) 0 (rest.length + 1)
      rw [List.zipWith_cons_cons, List.flatten_cons, List.length_append]
      have h2 : cs.length = rest.length := by simpa using h
      have := ih cs h2
      rw [show ((List.zipWith (fun (q : Str) c =>
          List.replicate c (List.replicate q.length '-')) rest cs).flatten).length =
          sumCards cs 0 rest.length from this]
      rw [List.length_replicate]
      show c0 + sumCards cs 0 rest.length =
        (c0 :: cs).getD 0 0 + sumCards (c0 :: cs) 1 rest.length
      rw [sumCards_shift c0 cs rest.length 0]
      simp

theorem sumCards_lt (cards : List Nat) :
    ∀ (j k n c : Nat), j < k → c < cards.getD (n + j) 0 →
      sumCards cards n j + c < sumCards cards n k := by
  intro j
  induction j with
  | zero =>
    intro k n c hjk hc
    cases k with
    | zero => omega
    | succ k2 =>
      show sumCards cards n 0 + c < cards.getD n 0 + sumCards cards (n + 1) k2
      rw [Nat.add_zero n] at hc
      show 0 + c < _
      omega
  | succ j2 ih =>
    intro k n c hjk hc
    cases k with
    | zero => omega
    | succ k2 =>
      show cards.getD n 0 + sumCards cards (n + 1) j2 + c <
        cards.getD n 0 + sumCards cards (n + 1) k2
      have := ih k2 (n + 1) c (by omega)
        (by rw [show n + 1 + j2 = n + (j2 + 1) by omega]; exact hc)
      omega

theorem mkBlanksAux_eval (cards : List Nat) :
    ∀ (qs : List Str) (n : Nat), n + qs.length ≤ cards.length →
      mkBlanksAux cards qs n = some ((List.zipWith (fun (q : Str) c =>
        List.replicate c (List.replicate q.length '-')) qs (cards.drop n)).flatten) := by
  intro qs
  induction qs with
  | nil => intro n _; simp [mkBlanksAux]
  | cons q rest ih =>
    intro n hn
    have hlt : n < cards.length := by simp at hn; omega
    have hsome : cards[n]? = some cards[n] := List.getElem?_eq_getElem hlt
    have hdrop : cards.drop n = cards[n] :: cards.drop (n + 1) :=
      List.drop_eq_getElem_cons hlt
    simp only [mkBlanksAux, hsome, ih (n + 1) (by simp at hn ⊢; omega)]
    rw [hdrop, List.zipWith_cons_cons, List.flatten_cons]
    rfl

theorem mem_padOneCopy (blanks : List Str) (pos : Nat) (lines : List Str)
    (line : Str) (h : line ∈ padOneCopy blanks pos lines) :
    ∃ src ∈ lines, src ≠ [] ∧
      ((startsChar '>' src = true ∧ line = src) ∨
        (startsChar '>' src = false ∧ line = embedRow blanks pos src)) := by
  unfold padOneCopy at h
  obtain ⟨src, hsrc, hf⟩ := List.mem_filterMap.mp h
  refine ⟨src, hsrc, ?_, ?_⟩
  · intro he
    rw [if_pos he] at hf
    simp at hf
  · by_cases he : src = []
    · rw [if_pos he] at hf; simp at hf
    · rw [if_neg he] at hf
      by_cases hs : startsChar '>' src = true
      · rw [if_pos hs] at hf
        exact Or.inl ⟨hs, (Option.some.inj hf).symm⟩
      · rw [if_neg hs] at hf
        refine Or.inr ⟨by simpa using hs, ?_⟩
        rw [embedRow]
        exact (Option.some.inj hf).symm

theorem getD_of_getElem?_some {α : Type} {l : List α} {n : Nat} {a d : α}
    (h : l[n]? = some a) : l.getD n d = a := by
  obtain ⟨hlt, he⟩ := (List.getElem?_eq_some_iff).mp h
  rw [List.getD_eq_getElem _ _ hlt, he]

theorem padChains_mem (blocks : List Str) (cards : List Nat) (blanks : List Str) :
    ∀ (qs : List Str) (n pos : Nat) (out : List Str),
      padChains blocks cards blanks qs n pos = some out →
      ∀ line ∈ out, ∃ j, j < qs.length ∧ ∃ c, c < cards.getD (n + j) 0 ∧
        line ∈ padOneCopy blanks (pos + sumCards cards n j + c)
          (pySplit '\n' (blocks.getD (n + j) [])) := by
  intro qs
  induction qs with
  | nil =>
    intro n pos out heq line hline
    simp only [padChains] at heq
    rw [← Option.some.inj heq] at hline
    simp at hline
  | cons q qrest ih =>
    intro n pos out heq line hline
    cases hcn : cards[n]? with
    | none =>
      rw [padChains, hcn] at heq
      simp at heq
    | some card =>
      have hcard : cards.getD n 0 = card := getD_of_getElem?_some hcn
      by_cases hcz : card = 0
      · subst hcz
        have heq2 : padChains blocks cards blanks qrest (n + 1) pos = some out := by
          have h2 := heq
          simp [padChains, hcn] at h2
          exact h2
        obtain ⟨j2, hj2, c, hc, hmem⟩ := ih (n + 1) pos out heq2 line hline
        refine ⟨j2 + 1, by simp only [List.length_cons]; omega, c, ?_, ?_⟩
        · rw [show n + (j2 + 1) = n + 1 + j2 by omega]
          exact hc
        · rw [show pos + sumCards cards n (j2 + 1) + c =
            pos + sumCards cards (n + 1) j2 + c by
              show pos + (cards.getD n 0 + sumCards cards (n + 1) j2) + c = _
              omega]
          rw [show n + (j2 + 1) = n + 1 + j2 by omega]
          exact hmem
      · cases hbn : blocks[n]? with
        | none =>
          rw [padChains, hcn] at heq
          simp [hcz, hbn] at heq
        | some block =>
          have hblock : blocks.getD n [] = block := getD_of_getElem?_some hbn
          have h2 := heq
          simp only [padChains, hcn, hbn, if_neg hcz] at h2
          cases hrec : padChains blocks cards blanks qrest (n + 1) (pos + card) with
          | none =>
            rw [hrec] at h2
            simp at h2
          | some r =>
          rw [hrec] at h2
          simp at h2
          have hout : out = padCopies card (pySplit '\n' block) blanks pos ++ r := by
            first
          | exact h2
          | exact h2.symm
          rw [hout] at hline
          rcases List.mem_append.mp hline with hl | hl
          · unfold padCopies at hl
            simp only [List.mem_flatten, List.mem_map] at hl
            obtain ⟨l2, ⟨jc, hjc, hl2⟩, hmem⟩ := hl
            rw [← hl2] at hmem
            refine ⟨0, by simp, jc, ?_, ?_⟩
            · rw [Nat.add_zero, hcard]
              exact List.mem_range.mp hjc
            · rw [Nat.add_zero, hblock]
              show line ∈ padOneCopy blanks (pos + 0 + jc) _
              rw [Nat.add_zero]
              exact hmem
          · obtain ⟨j2, hj2, c, hc, hmem⟩ := ih (n + 1) (pos + card) r hrec line hl
            refine ⟨j2 + 1, by simp only [List.length_cons]; omega, c, ?_, ?_⟩
            · rw [show n + (j2 + 1) = n + 1 + j2 by omega]
              exact hc
            · rw [show pos + sumCards cards n (j2 + 1) + c =
                pos + card + sumCards cards (n + 1) j2 + c by
                  show pos + (cards.getD n 0 + sumCards cards (n + 1) j2) + c = _
                  omega]
              rw [show n + (j2 + 1) = n + 1 + j2 by omega]
              exact hmem

theorem pySplitlines_joinSep_subset (L : List Str)
    (h : ∀ l ∈ L, '\n' ∉ l) :
    ∀ x ∈ pySplitlines (joinSep '\n' L), x ∈ L := by
  cases hL : L with
  | nil => intro x hx; simp [joinSep, pySplitlines] at hx
  | cons l0 rest =>
    intro x hx
    unfold pySplitlines at hx
    by_cases h0 : joinSep '\n' (l0 :: rest) = []
    · rw [if_pos h0] at hx; simp at hx
    · rw [if_neg h0] at hx
      have hsplit : pySplit '\n' (joinSep '\n' (l0 :: rest)) = l0 :: rest :=
        pySplit_joinSep '\n' (l0 :: rest) (by simp)
          (fun l hl => h l (by rw [hL]; exact hl))
      by_cases h1 : (joinSep '\n' (l0 :: rest)).getLast? = some '\n'
      · rw [if_pos h1, hsplit] at hx
        exact List.dropLast_subset _ hx
      · rw [if_neg h1, hsplit] at hx
        exact hx

theorem mem_expandedBlanks (qs : List Str) :
    ∀ (cards : List Nat) (b : Str), b ∈ expandedBlanks qs cards →
      ∀ x ∈ b, x = '-' := by
  induction qs with
  | nil => intro cards b hb; simp [expandedBlanks] at hb
  | cons q rest ih =>
    intro cards b hb
    cases cards with
    | nil => simp [expandedBlanks] at hb
    | cons c0 cs =>
      unfold expandedBlanks at hb
      rw [List.zipWith_cons_cons, List.flatten_cons] at hb
      rcases List.mem_append.mp hb with h | h
      · rw [List.eq_of_mem_replicate h]
        intro x hx
        exact List.eq_of_mem_replicate hx
      · exact ih cs b h

theorem embedRow_chars (blanks : List Str) (pos : Nat) (src : Str) (x : Char)
    (hx : x ∈ embedRow blanks pos src) : x ∈ src ∨ ∃ b ∈ blanks, x ∈ b := by
  unfold embedRow at hx
  rcases List.mem_append.mp hx with h | h
  · rcases List.mem_append.mp h with h2 | h2
    · obtain ⟨b, hb, hxb⟩ := List.mem_flatten.mp h2
      exact Or.inr ⟨b, List.take_subset pos blanks hb, hxb⟩
    · exact Or.inl h2
  · obtain ⟨b, hb, hxb⟩ := List.mem_flatten.mp h
    exact Or.inr ⟨b, List.drop_subset (pos + 1) blanks hb, hxb⟩

/-- C5: every residue (non-header) output row of `pad_sequences` is the
block-diagonal embedding, at a cardinality-expanded position `pos`
belonging to its chain's copy range, of a real residue row of that
chain's block between the all-gap placeholders of the other expanded
positions. -/
theorem pad_sequences_invariant (blocks qs : List Str) (cards : List Nat)
    (hbq : blocks.length = qs.length) (hcq : cards.length = qs.length)
    (s : Str) (hs : pad_sequences blocks qs cards = some s) :
    ∀ line ∈ pySplitlines s, startsChar '>' line = false →
      ∃ n, n < qs.length ∧ ∃ pos, pos < (expandedBlanks qs cards).length ∧
        sumCards cards 0 n ≤ pos ∧ pos < sumCards cards 0 n + cards.getD n 0 ∧
        ∃ realrow, realrow ∈ pySplit '\n' (blocks.getD n []) ∧ realrow ≠ [] ∧
          startsChar '>' realrow = false ∧
          line = embedRow (expandedBlanks qs cards) pos realrow := by
  have hblanks0 := mkBlanksAux_eval cards qs 0 (by omega)
  rw [List.drop_zero] at hblanks0
  have hblanks : mkBlanksAux cards qs 0 = some (expandedBlanks qs cards) := hblanks0
  have h2 := hs
  simp only [pad_sequences, hblanks] at h2
  cases hout : padChains blocks cards (expandedBlanks qs cards) qs 0 0 with
  | none => rw [hout] at h2; simp at h2
  | some out =>
  rw [hout] at h2
  simp at h2
  have hs2 : s = joinSep '\n' out := by
    first
  | exact h2
  | exact h2.symm
  have houtmem := padChains_mem blocks cards (expandedBlanks qs cards) qs 0 0 out hout
  have hnonl : ∀ l ∈ out, '\n' ∉ l := by
    intro l hl
    obtain ⟨j, hj, c, hc, hmem⟩ := houtmem l hl
    obtain ⟨src, hsrc, hsne, hcase⟩ := mem_padOneCopy _ _ _ _ hmem
    have hsrc_nl : '\n' ∉ src := mem_pySplit_not_sep '\n' _ src hsrc
    rcases hcase with ⟨_, hlsrc⟩ | ⟨_, hlsrc⟩
    · rw [hlsrc]; exact hsrc_nl
    · rw [hlsrc]
      intro hx
      rcases embedRow_chars _ _ _ _ hx with h3 | ⟨b, hb, hxb⟩
      · exact hsrc_nl h3
      · exact absurd (mem_expandedBlanks qs cards b hb '\n' hxb) (by decide)
  intro line hline hhead
  rw [hs2] at hline
  have hlmem : line ∈ out := pySplitlines_joinSep_subset out hnonl line hline
  obtain ⟨j, hj, c, hc, hmem⟩ := houtmem line hlmem
  rw [Nat.zero_add] at hc hmem
  rw [Nat.zero_add] at hmem
  obtain ⟨src, hsrc, hsne, hcase⟩ := mem_padOneCopy _ _ _ _ hmem
  rcases hcase with ⟨hhdr, hlsrc⟩ | ⟨hnothdr, hlsrc⟩
  · rw [hlsrc] at hhead
    rw [hhead] at hhdr
    simp at hhdr
  · refine ⟨j, hj, sumCards cards 0 j + c, ?_, Nat.le_add_right _ _, by omega,
      src, hsrc, hsne, hnothdr, hlsrc⟩
    rw [expandedBlanks_length qs cards hcq]
    exact sumCards_lt cards j qs.length 0 c hj (by rw [Nat.zero_add]; exact hc)

/-- Concrete instantiation of C5: the residue row `AC--` of the padded
two-chain output embeds the real row `AC` of chain 0 at expanded
position 0. -/
theorem pad_sequences_invariant_witness :
    ∃ n, n < (["AC".toList, "DE".toList] : List Str).length ∧
      ∃ pos, pos < (expandedBlanks ["AC".toList, "DE".toList] [1, 1]).length ∧
        sumCards [1, 1] 0 n ≤ pos ∧
        pos < sumCards [1, 1] 0 n + ([1, 1] : List Nat).getD n 0 ∧
        ∃ realrow, realrow ∈ pySplit '\n'
            (([">u\nAC".toList, "".toList] : List Str).getD n []) ∧ realrow ≠ [] ∧
          startsChar '>' realrow = false ∧
          "AC--".toList = embedRow (expandedBlanks ["AC".toList, "DE".toList] [1, 1])
            pos realrow :=
  pad_sequences_invariant [">u\nAC".toList, "".toList]
    ["AC".toList, "DE".toList] [1, 1] (by decide) (by decide)
    (">u\nAC--".toList) (by decide) ("AC--".toList) (by decide) (by decide)

/-!
## Claim C9: decode de-duplication
-/

theorem recLinesRaw_nil : recLinesRaw [] = [] := rfl

theorem recLinesRaw_cons (p : Str × Str) (recs : List (Str × Str)) :
    recLinesRaw (p :: recs) = p.1 :: p.2 :: recLinesRaw recs := rfl

theorem recLinesRaw_append (A B : List (Str × Str)) :
    recLinesRaw (A ++ B) = recLinesRaw A ++ recLinesRaw B := by
  simp [recLinesRaw]

theorem mem_recLinesRaw (recs : List (Str × Str)) (l : Str)
    (hl : l ∈ recLinesRaw recs) : ∃ p ∈ recs, l = p.1 ∨ l = p.2 := by
  simp only [recLinesRaw, List.mem_flatten, List.mem_map] at hl
  obtain ⟨piece, ⟨p, hp, rfl⟩, hmem⟩ := hl
  exact ⟨p, hp, by simpa using hmem⟩

theorem pairUp_recLinesRaw (recs : List (Str × Str)) (rest : List Str) :
    pairUp (recLinesRaw recs ++ rest) = (fun r => recs ++ r) <$> pairUp rest := by
  induction recs with
  | nil =>
      rw [recLinesRaw_nil, List.nil_append]
      cases pairUp rest <;> simp
  | cons p recs ih =>
      rw [recLinesRaw_cons]
      have hstep : pairUp (p.1 :: p.2 :: (recLinesRaw recs ++ rest)) =
          (fun r => (p.1, p.2) :: r) <$> pairUp (recLinesRaw recs ++ rest) := rfl
      rw [List.cons_append, List.cons_append, hstep, ih]
      cases pairUp rest <;> simp

theorem decodeBody_nil (lens : List Int) (sing homo : Bool) (st : DecodeState) :
    decodeBody lens sing homo [] st = some st := rfl

theorem decodeBody_cons (lens : List Int) (sing homo : Bool) (h s : Str)
    (rest : List (Str × Str)) (st : DecodeState) :
    decodeBody lens sing homo ((h, s) :: rest) st =
      match decode_record lens sing homo st h s with
      | none => none
      | some st2 => decodeBody lens sing homo rest st2 := rfl

theorem decodeBody_append (lens : List Int) (sing homo : Bool)
    (A B : List (Str × Str)) (st : DecodeState) :
    decodeBody lens sing homo (A ++ B) st =
      (decodeBody lens sing homo A st).bind
        (fun st2 => decodeBody lens sing homo B st2) := by
  induction A generalizing st with
  | nil => simp [decodeBody]
  | cons p A ih =>
      obtain ⟨h, s⟩ := p
      rw [List.cons_append, decodeBody_cons, decodeBody_cons]
      cases hrec : decode_record lens sing homo st h s with
      | none => simp
      | some st2 => simp [ih]

theorem decode_record_seen (lens : List Int) (sing homo : Bool)
    (st st2 : DecodeState) (h s : Str)
    (hrec : decode_record lens sing homo st h s = some st2) :
    st.seen ⊆ st2.seen ∧ (h, s) ∈ st2.seen := by
  unfold decode_record at hrec
  by_cases hmem : (h, s) ∈ st.seen
  · rw [if_pos hmem] at hrec
    injection hrec with hrec
    subst hrec
    exact ⟨List.Subset.refl _, hmem⟩
  · rw [if_neg hmem] at hrec
    split at hrec
    · split at hrec
      · exact absurd hrec (by simp)
      · injection hrec with hrec
        subst hrec
        exact ⟨List.subset_cons_self _ _, List.mem_cons_self _ _⟩
    · split at hrec
      · exact absurd hrec (by simp)
      · injection hrec with hrec
        subst hrec
        exact ⟨List.subset_cons_self _ _, List.mem_cons_self _ _⟩

theorem decodeBody_seen_mono (lens : List Int) (sing homo : Bool)
    (recs : List (Str × Str)) (st st2 : DecodeState)
    (hb : decodeBody lens sing homo recs st = some st2) :
    st.seen ⊆ st2.seen := by
  induction recs generalizing st with
  | nil =>
      rw [decodeBody_nil] at hb
      injection hb with hb
      subst hb
      exact List.Subset.refl _
  | cons p recs ih =>
      obtain ⟨h, s⟩ := p
      rw [decodeBody_cons] at hb
      cases hrec : decode_record lens sing homo st h s with
      | none =>
          simp only [hrec] at hb
          exact absurd hb (by simp)
      | some stm =>
          simp only [hrec] at hb
          exact (decode_record_seen lens sing homo st stm h s hrec).1.trans (ih stm hb)

theorem decode_record_skip (lens : List Int) (sing homo : Bool)
    (st : DecodeState) (h s : Str) (hmem : (h, s) ∈ st.seen) :
    decode_record lens sing homo st h s = some st := by
  unfold decode_record
  rw [if_pos hmem]

theorem decodeBody_skip_mem (lens : List Int) (sing homo : Bool)
    (L2 L3 : List (Str × Str)) (r : Str × Str) (st : DecodeState)
    (hmem : r ∈ st.seen) :
    decodeBody lens sing homo (L2 ++ r :: L3) st =
      decodeBody lens sing homo (L2 ++ L3) st := by
  rw [decodeBody_append, decodeBody_append]
  cases hA : decodeBody lens sing homo L2 st with
  | none => rfl
  | some stm =>
      show decodeBody lens sing homo (r :: L3) stm =
        decodeBody lens sing homo L3 stm
      obtain ⟨h, s⟩ := r
      rw [decodeBody_cons,
        decode_record_skip lens sing homo stm h s
          (decodeBody_seen_mono lens sing homo L2 st stm hA hmem)]

/-- Evaluation of the line decoder on a well-formed header followed by
at least one record. -/
theorem unserialize_lines_eval (l0 line1 line2 : Str) (body : List Str)
    (q : Str ⊕ List Str) (f0 f1 : Str) (lens cards : List Int) (c0 : Int)
    (recs : List (Str × Str))
    (hhdr : startsChar '#' l0 = true)
    (hsplit : pySplit '\t' (l0.drop 1) = [f0, f1])
    (hlens : (pySplit ',' f0).mapM pyInt = some lens)
    (hcards : (pySplit ',' f1).mapM pyInt = some cards)
    (hc0 : cards[0]? = some c0)
    (hpair : pairUp (line1 :: line2 :: body) = some recs) :
    unserialize_lines (l0 :: line1 :: line2 :: body) q =
      match decodeBody lens (decide (lens.length = 1) && decide (c0 = 1))
          (decide (lens.length = 1) && decide (c0 > 1)) recs
          ⟨[], List.replicate lens.length [], List.replicate lens.length []⟩ with
      | none => none
      | some st =>
        match (if (decide (lens.length = 1) && decide (c0 > 1)) = true then
            (if c0.toNat = 0 then some (some [])
             else match (extractUniq line2 lens 0)[0]? with
               | none => none
               | some q0 => some (some (homoPaired c0.toNat q0)))
          else some (some st.paired_msa)) with
        | none => none
        | some pm1 =>
          some ⟨st.unpaired_msa,
            (if (decide (lens.length = 1) && decide (c0 = 1)) = true
              then none else pm1),
            extractUniq line2 lens 0, cards,
            (extractUniq line2 lens 0).map mk_mock_template⟩ := by
  unfold unserialize_lines
  simp only [List.getElem?_cons_zero, List.getElem?_cons_succ, hhdr, hsplit,
    hlens, hcards, hc0, hpair, List.length_cons, List.length_nil,
    List.drop_succ_cons, List.drop_zero]
  rw [if_neg (by simp), if_neg (by omega)]

/-- **C9** (decode de-duplication is idempotent): decoding a serialized
multi-chain text in which a body record `r` appears twice yields exactly
the same result as decoding the text with the duplicate occurrence of
`r` removed; the duplicate contributes nothing because the decoder skips
any `(header, sequence)` pair already recorded in `seen`. -/
theorem decode_dedup_idempotent
    (lensN cardsN : List Nat) (L1 L2 L3 : List (Str × Str)) (r : Str × Str)
    (q : Str ⊕ List Str)
    (hlensN : lensN ≠ []) (hcardsN : cardsN ≠ [])
    (hlines : ∀ p ∈ L1 ++ r :: L2 ++ r :: L3,
      (p.1 ≠ [] ∧ '\n' ∉ p.1 ∧ Char.ofNat 0 ∉ p.1) ∧
      (p.2 ≠ [] ∧ '\n' ∉ p.2 ∧ Char.ofNat 0 ∉ p.2)) :
    unserialize_msa [joinSep '\n'
        (('#' :: (joinSep ',' (lensN.map natToStr) ++
          '\t' :: joinSep ',' (cardsN.map natToStr))) ::
          recLinesRaw (L1 ++ r :: L2 ++ r :: L3))] q =
    unserialize_msa [joinSep '\n'
        (('#' :: (joinSep ',' (lensN.map natToStr) ++
          '\t' :: joinSep ',' (cardsN.map natToStr))) ::
          recLinesRaw (L1 ++ r :: L2 ++ L3))] q := by
  obtain ⟨c0N, csN, rfl⟩ := List.exists_cons_of_ne_nil hcardsN
  -- the duplicate-free record list only has records of the original
  have hsub : ∀ p ∈ L1 ++ r :: L2 ++ L3, p ∈ L1 ++ r :: L2 ++ r :: L3 := by
    intro p hp
    simp only [List.mem_append, List.mem_cons] at hp ⊢
    tauto
  have hlines2 : ∀ p ∈ L1 ++ r :: L2 ++ L3,
      (p.1 ≠ [] ∧ '\n' ∉ p.1 ∧ Char.ofNat 0 ∉ p.1) ∧
      (p.2 ≠ [] ∧ '\n' ∉ p.2 ∧ Char.ofNat 0 ∉ p.2) :=
    fun p hp => hlines p (hsub p hp)
  -- the two record lists share their leading record
  obtain ⟨hd0, T1, T2, hB1, hB2⟩ : ∃ hd0 T1 T2,
      L1 ++ r :: L2 ++ r :: L3 = hd0 :: T1 ∧
      L1 ++ r :: L2 ++ L3 = hd0 :: T2 := by
    cases L1 with
    | nil => exact ⟨r, _, _, rfl, rfl⟩
    | cons p L1 => exact ⟨p, _, _, rfl, rfl⟩
  -- processing the duplicate is a no-op on the decode state
  have hkey : ∀ (lens : List Int) (sing homo : Bool) (st0 : DecodeState),
      decodeBody lens sing homo (L1 ++ r :: L2 ++ r :: L3) st0 =
      decodeBody lens sing homo (L1 ++ r :: L2 ++ L3) st0 := by
    intro lens sing homo st0
    rw [show L1 ++ r :: L2 ++ r :: L3 = (L1 ++ [r]) ++ (L2 ++ r :: L3) from by simp,
      show L1 ++ r :: L2 ++ L3 = (L1 ++ [r]) ++ (L2 ++ L3) from by simp,
      decodeBody_append lens sing homo (L1 ++ [r]) (L2 ++ r :: L3) st0,
      decodeBody_append lens sing homo (L1 ++ [r]) (L2 ++ L3) st0]
    cases hA : decodeBody lens sing homo (L1 ++ [r]) st0 with
    | none => rfl
    | some st1 =>
        show decodeBody lens sing homo (L2 ++ r :: L3) st1 =
          decodeBody lens sing homo (L2 ++ L3) st1
        apply decodeBody_skip_mem
        rw [decodeBody_append] at hA
        cases hL1 : decodeBody lens sing homo L1 st0 with
        | none => rw [hL1] at hA; exact absurd hA (by simp)
        | some stm =>
            rw [hL1] at hA
            have hA2 : decodeBody lens sing homo [r] stm = some st1 := hA
            obtain ⟨h, s⟩ := r
            rw [decodeBody_cons] at hA2
            cases hrec : decode_record lens sing homo stm h s with
            | none =>
                simp only [hrec] at hA2
                exact absurd hA2 (by simp)
            | some st2 =>
                simp only [hrec, decodeBody_nil, Option.some.injEq] at hA2
                subst hA2
                exact (decode_record_seen lens sing homo stm _ h s hrec).2
  rw [hB1, hB2] at hkey
  rw [hB1] at hlines
  rw [hB2] at hlines2
  rw [hB1, hB2]
  -- every character of the header is a digit or a separator, no NUL/newline
  have hdrchars : ∀ x ∈ ('#' :: (joinSep ',' (lensN.map natToStr) ++
      '\t' :: joinSep ',' ((c0N :: csN).map natToStr)) : Str),
      x ≠ '\n' ∧ x ≠ Char.ofNat 0 := by
    intro x hx
    rcases List.mem_cons.mp hx with rfl | hx2
    · exact ⟨by decide, by decide⟩
    · rcases List.mem_append.mp hx2 with hx3 | hx4
      · exact ⟨(mem_joinSep_comma_render lensN x hx3).2.1,
          (mem_joinSep_comma_render lensN x hx3).2.2⟩
      · rcases List.mem_cons.mp hx4 with rfl | hx5
        · exact ⟨by decide, by decide⟩
        · exact ⟨(mem_joinSep_comma_render (c0N :: csN) x hx5).2.1,
            (mem_joinSep_comma_render (c0N :: csN) x hx5).2.2⟩
  -- all lines of both texts are non-empty and newline-free
  have hgood1 : ∀ l ∈ ('#' :: (joinSep ',' (lensN.map natToStr) ++
      '\t' :: joinSep ',' ((c0N :: csN).map natToStr)) : Str) ::
      recLinesRaw (hd0 :: T1), l ≠ [] ∧ '\n' ∉ l := by
    intro l hl
    rcases List.mem_cons.mp hl with rfl | hl2
    · exact ⟨by simp, fun hc => (hdrchars '\n' hc).1 rfl⟩
    · obtain ⟨p, hp, hor⟩ := mem_recLinesRaw _ l hl2
      have hp2 := hlines p hp
      rcases hor with rfl | rfl
      · exact ⟨hp2.1.1, hp2.1.2.1⟩
      · exact ⟨hp2.2.1, hp2.2.2.1⟩
  have hgood2 : ∀ l ∈ ('#' :: (joinSep ',' (lensN.map natToStr) ++
      '\t' :: joinSep ',' ((c0N :: csN).map natToStr)) : Str) ::
      recLinesRaw (hd0 :: T2), l ≠ [] ∧ '\n' ∉ l := by
    intro l hl
    rcases List.mem_cons.mp hl with rfl | hl2
    · exact ⟨by simp, fun hc => (hdrchars '\n' hc).1 rfl⟩
    · obtain ⟨p, hp, hor⟩ := mem_recLinesRaw _ l hl2
      have hp2 := hlines2 p hp
      rcases hor with rfl | rfl
      · exact ⟨hp2.1.1, hp2.1.2.1⟩
      · exact ⟨hp2.2.1, hp2.2.2.1⟩
  -- neither text contains a NUL character, so the filter is the identity
  have hfil1 : (joinSep '\n' (('#' :: (joinSep ',' (lensN.map natToStr) ++
      '\t' :: joinSep ',' ((c0N :: csN).map natToStr)) : Str) ::
      recLinesRaw (hd0 :: T1))).filter (fun c => !(c = Char.ofNat 0)) =
      joinSep '\n' (('#' :: (joinSep ',' (lensN.map natToStr) ++
      '\t' :: joinSep ',' ((c0N :: csN).map natToStr)) : Str) ::
      recLinesRaw (hd0 :: T1)) := by
    rw [List.filter_eq_self]
    intro a ha
    rcases mem_joinSep '\n' _ a ha with rfl | ⟨l, hl, hal⟩
    · decide
    · rcases List.mem_cons.mp hl with rfl | hl2
      · simpa using (hdrchars a hal).2
      · obtain ⟨p, hp, hor⟩ := mem_recLinesRaw _ l hl2
        have hp2 := hlines p hp
        rcases hor with rfl | rfl
        · simpa using (fun hc : a = Char.ofNat 0 => hp2.1.2.2 (hc ▸ hal))
        · simpa using (fun hc : a = Char.ofNat 0 => hp2.2.2.2 (hc ▸ hal))
  have hfil2 : (joinSep '\n' (('#' :: (joinSep ',' (lensN.map natToStr) ++
      '\t' :: joinSep ',' ((c0N :: csN).map natToStr)) : Str) ::
      recLinesRaw (hd0 :: T2))).filter (fun c => !(c = Char.ofNat 0)) =
      joinSep '\n' (('#' :: (joinSep ',' (lensN.map natToStr) ++
      '\t' :: joinSep ',' ((c0N :: csN).map natToStr)) : Str) ::
      recLinesRaw (hd0 :: T2)) := by
    rw [List.filter_eq_self]
    intro a ha
    rcases mem_joinSep '\n' _ a ha with rfl | ⟨l, hl, hal⟩
    · decide
    · rcases List.mem_cons.mp hl with rfl | hl2
      · simpa using (hdrchars a hal).2
      · obtain ⟨p, hp, hor⟩ := mem_recLinesRaw _ l hl2
        have hp2 := hlines2 p hp
        rcases hor with rfl | rfl
        · simpa using (fun hc : a = Char.ofNat 0 => hp2.1.2.2 (hc ▸ hal))
        · simpa using (fun hc : a = Char.ofNat 0 => hp2.2.2.2 (hc ▸ hal))
  have hsl1 : pySplitlines (joinSep '\n' (('#' :: (joinSep ',' (lensN.map natToStr) ++
      '\t' :: joinSep ',' ((c0N :: csN).map natToStr)) : Str) ::
      recLinesRaw (hd0 :: T1))) =
      ('#' :: (joinSep ',' (lensN.map natToStr) ++
      '\t' :: joinSep ',' ((c0N :: csN).map natToStr)) : Str) :: recLinesRaw (hd0 :: T1) :=
    pySplitlines_joinSep _ (by simp) hgood1
  have hsl2 : pySplitlines (joinSep '\n' (('#' :: (joinSep ',' (lensN.map natToStr) ++
      '\t' :: joinSep ',' ((c0N :: csN).map natToStr)) : Str) ::
      recLinesRaw (hd0 :: T2))) =
      ('#' :: (joinSep ',' (lensN.map natToStr) ++
      '\t' :: joinSep ',' ((c0N :: csN).map natToStr)) : Str) :: recLinesRaw (hd0 :: T2) :=
    pySplitlines_joinSep _ (by simp) hgood2
  -- header parse facts
  have htlj : '\t' ∉ joinSep ',' (lensN.map natToStr) :=
    fun hx => (mem_joinSep_comma_render lensN '\t' hx).1 rfl
  have htcj : '\t' ∉ joinSep ',' ((c0N :: csN).map natToStr) :=
    fun hx => (mem_joinSep_comma_render (c0N :: csN) '\t' hx).1 rfl
  have hhdr : startsChar '#' ('#' :: (joinSep ',' (lensN.map natToStr) ++
      '\t' :: joinSep ',' ((c0N :: csN).map natToStr)) : Str) = true := rfl
  have hsplit : pySplit '\t' ((('#' :: (joinSep ',' (lensN.map natToStr) ++
      '\t' :: joinSep ',' ((c0N :: csN).map natToStr)) : Str) : Str).drop 1) =
      [joinSep ',' (lensN.map natToStr),
       joinSep ',' ((c0N :: csN).map natToStr)] := by
    show pySplit '\t' (joinSep ',' (lensN.map natToStr) ++
      '\t' :: joinSep ',' ((c0N :: csN).map natToStr)) = _
    rw [pySplit_append_sep '\t' _ _ htlj, pySplit_no_sep '\t' _ htcj]
  have hlensP : (pySplit ',' (joinSep ',' (lensN.map natToStr))).mapM pyInt =
      some (lensN.map Int.ofNat) := by
    rw [pySplit_comma_render lensN hlensN]
    exact mapM_pyInt_natToStr lensN
  have hcardsP : (pySplit ',' (joinSep ','
      ((c0N :: csN).map natToStr))).mapM pyInt =
      some ((c0N :: csN).map Int.ofNat) := by
    rw [pySplit_comma_render (c0N :: csN) (by simp)]
    exact mapM_pyInt_natToStr _
  have hc0 : ((c0N :: csN).map Int.ofNat)[0]? = some (Int.ofNat c0N) := by
    simp
  -- pairUp recovers the record lists
  have hp1 : pairUp (hd0.1 :: hd0.2 :: recLinesRaw T1) = some (hd0 :: T1) := by
    have h := pairUp_recLinesRaw (hd0 :: T1) []
    rw [List.append_nil, recLinesRaw_cons,
      show pairUp ([] : List Str) = some [] from rfl] at h
    simpa using h
  have hp2 : pairUp (hd0.1 :: hd0.2 :: recLinesRaw T2) = some (hd0 :: T2) := by
    have h := pairUp_recLinesRaw (hd0 :: T2) []
    rw [List.append_nil, recLinesRaw_cons,
      show pairUp ([] : List Str) = some [] from rfl] at h
    simpa using h
  -- assemble
  unfold unserialize_msa
  simp only [List.getElem?_cons_zero]
  rw [hfil1, hfil2, hsl1, hsl2, recLinesRaw_cons hd0 T1, recLinesRaw_cons hd0 T2]
  rw [unserialize_lines_eval _ hd0.1 hd0.2 (recLinesRaw T1) q _ _ _ _ _ _
      hhdr hsplit hlensP hcardsP hc0 hp1,
    unserialize_lines_eval _ hd0.1 hd0.2 (recLinesRaw T2) q _ _ _ _ _ _
      hhdr hsplit hlensP hcardsP hc0 hp2]
  rw [hkey]

/-- Concrete instantiation of C9: one chain of length 1, the record
`(">a", "A")` duplicated versus single. -/
theorem decode_dedup_idempotent_witness :
    (([1] : List Nat) ≠ []) ∧
    unserialize_msa [joinSep '\n'
        (('#' :: (joinSep ',' (([1] : List Nat).map natToStr) ++
          '\t' :: joinSep ',' (([1] : List Nat).map natToStr))) ::
          recLinesRaw (([] : List (Str × Str)) ++ (">a".toList, "A".toList) ::
            ([] : List (Str × Str)) ++ (">a".toList, "A".toList) ::
            ([] : List (Str × Str))))] (Sum.inl ("A".toList)) =
    unserialize_msa [joinSep '\n'
        (('#' :: (joinSep ',' (([1] : List Nat).map natToStr) ++
          '\t' :: joinSep ',' (([1] : List Nat).map natToStr))) ::
          recLinesRaw (([] : List (Str × Str)) ++ (">a".toList, "A".toList) ::
            ([] : List (Str × Str)) ++
            ([] : List (Str × Str))))] (Sum.inl ("A".toList)) :=
  ⟨by decide, decode_dedup_idempotent [1] [1] [] [] []
    (">a".toList, "A".toList) (Sum.inl ("A".toList))
    (by decide) (by decide) (by decide)⟩

/-!
## Claim C1: the codec round trip
-/

theorem countGt_append (a b : Str) : countGt (a ++ b) = countGt a + countGt b := by
  simp [countGt]

theorem countGt_eq_zero (s : Str) (h : '>' ∉ s) : countGt s = 0 := by
  unfold countGt
  rw [List.filter_eq_nil_iff.mpr]
  · rfl
  · intro c hc hcgt
    simp only [decide_eq_true_eq] at hcgt
    exact h (hcgt ▸ hc)

theorem countGt_cons_gt (s : Str) : countGt ('>' :: s) = 1 + countGt s := by
  simp [countGt, List.filter_cons]
  omega

theorem hasResidue_nil : hasResidue [] = false := rfl

theorem hasResidue_cons (c : Char) (s : Str) :
    hasResidue (c :: s) = ((!c.isLower && !(c = '-')) || hasResidue s) := by
  simp [hasResidue]

theorem hasResidue_ne_nil (s : Str) (h : hasResidue s = true) : s ≠ [] := by
  intro he
  rw [he] at h
  exact absurd h (by decide)

theorem hasResidue_replicate_dash (n : Nat) :
    hasResidue (List.replicate n '-') = false := by
  induction n with
  | zero => rfl
  | succ m ih => rw [List.replicate_succ, hasResidue_cons, ih]; decide

/-- Consuming a full chain piece with no inserts advances the scan by
exactly the piece. -/
theorem scanChainAux_consume (qlen : Int) (piece : Str)
    (hnl : ∀ c ∈ piece, c.isLower = false) :
    ∀ (rest : List Char) (pos : Nat) (acc : Str) (curr : Nat) (aa : Bool)
      (start : Nat), ((curr : Int) + piece.length = qlen) →
      scanChainAux qlen (piece ++ rest) pos acc curr aa start =
        scanChainAux qlen rest (pos + piece.length) (acc ++ piece)
          (curr + piece.length) (aa || hasResidue piece) start := by
  induction piece with
  | nil =>
    intro rest pos acc curr aa start _
    simp [hasResidue_nil]
  | cons c p ih =>
    intro rest pos acc curr aa start hq
    have hcl : c.isLower = false := hnl c (by simp)
    have hne : ¬((curr : Int) = qlen) := by
      simp only [List.length_cons] at hq
      intro he
      rw [← he] at hq
      omega
    rw [List.cons_append, scanChainAux_cons, if_neg hne, hcl]
    simp only [Bool.false_eq_true, if_false]
    rw [ih (fun x hx => hnl x (by simp [hx])) rest (pos + 1) (acc ++ [c])
      (curr + 1) (aa || !(c = '-')) start (by
        simp only [List.length_cons] at hq
        push_cast at hq ⊢
        omega)]
    rw [hasResidue_cons, hcl]
    simp only [List.length_cons, List.append_assoc, List.singleton_append,
      Bool.not_false, Bool.true_and, Bool.or_assoc]
    rw [show pos + 1 + p.length = pos + (p.length + 1) from by omega,
      show curr + 1 + p.length = curr + (p.length + 1) from by omega]

/-- On a record sequence that is a concatenation of exact-width,
insert-free, non-empty pieces, the decoder's chain scan recovers exactly
the pieces and their residue flags. -/
theorem splitChainsAux_pieces :
    ∀ (ps : List Str), (∀ p ∈ ps, ∀ c ∈ p, c.isLower = false) →
      (∀ p ∈ ps, p ≠ []) →
      ∀ done : Str,
      splitChainsAux (done ++ ps.flatten) (ps.map (fun p => (p.length : Int)))
        done.length = (ps, ps.map hasResidue) := by
  intro ps
  induction ps with
  | nil =>
    intro _ _ done
    simp [splitChainsAux_nil]
  | cons p ps ih =>
    intro hnl hne done
    rw [List.map_cons, splitChainsAux_cons]
    have hdrop : (done ++ (p :: ps).flatten).drop done.length = p ++ ps.flatten := by
      rw [List.flatten_cons, List.drop_left]
    have hscan0 : scanChain (done ++ (p :: ps).flatten) (p.length : Int)
        done.length =
        scanChainAux (p.length : Int) ps.flatten (done.length + p.length) p
          p.length (hasResidue p) done.length := by
      rw [scanChain, hdrop, scanChainAux_consume (p.length : Int) p
        (fun c hc => hnl p (by simp) c hc) ps.flatten done.length [] 0 false
        done.length (by push_cast; omega)]
      simp
    cases ps with
    | nil =>
      have hscan : scanChain (done ++ [p].flatten) (p.length : Int) done.length =
          (p, hasResidue p, done.length) := by
        rw [hscan0]
        simp [scanChainAux]
      simp only [hscan, List.map_nil, splitChainsAux_nil]
      simp
    | cons p2 ps2 =>
      obtain ⟨c2, p2rest, hp2⟩ := List.exists_cons_of_ne_nil (hne p2 (by simp))
      have hscan : scanChain (done ++ (p :: p2 :: ps2).flatten) (p.length : Int)
          done.length = (p, hasResidue p, done.length + p.length) := by
        rw [hscan0]
        have hfl : (p2 :: ps2).flatten = c2 :: (p2rest ++ ps2.flatten) := by
          rw [List.flatten_cons, hp2]
          simp
        rw [hfl, scanChainAux_cons, if_pos rfl]
      simp only [hscan]
      rw [show done ++ (p :: p2 :: ps2).flatten =
          (done ++ p) ++ (p2 :: ps2).flatten from by simp,
        show done.length + p.length = (done ++ p).length from
          (List.length_append _ _).symm,
        ih (fun x hx => hnl x (by simp [hx])) (fun x hx => hne x (by simp [hx]))
          (done ++ p)]
      simp

/-- `splitChains` on a concatenation of exact-width pieces whose
declared lengths are the piece lengths. -/
theorem splitChains_pieces (lens : List Int) (ps : List Str)
    (hlen : lens = ps.map (fun p => (p.length : Int)))
    (hnl : ∀ p ∈ ps, ∀ c ∈ p, c.isLower = false)
    (hne : ∀ p ∈ ps, p ≠ []) :
    splitChains lens ps.flatten = (ps, ps.map hasResidue) := by
  rw [splitChains, hlen,
    show ps.flatten = ([] : Str) ++ ps.flatten from rfl,
    show 0 = ([] : Str).length from rfl]
  exact splitChainsAux_pieces ps hnl hne []

theorem recLines_nil : recLines [] = [] := rfl

theorem recLines_cons (p : Str × Str) (recs : List (Str × Str)) :
    recLines (p :: recs) = ('>' :: p.1) :: p.2 :: recLines recs := rfl

theorem recLines_length (recs : List (Str × Str)) :
    (recLines recs).length = 2 * recs.length := by
  induction recs with
  | nil => rfl
  | cons p rest ih =>
    rw [recLines_cons]
    simp only [List.length_cons, ih, List.length_cons]
    omega

theorem mem_recLines (recs : List (Str × Str)) (l : Str)
    (hl : l ∈ recLines recs) : ∃ p ∈ recs, l = '>' :: p.1 ∨ l = p.2 := by
  simp only [recLines, List.mem_flatten, List.mem_map] at hl
  obtain ⟨piece, ⟨p, hp, rfl⟩, hmem⟩ := hl
  exact ⟨p, hp, by simpa using hmem⟩

theorem recLines_getD (recs : List (Str × Str)) :
    ∀ m, m < recs.length →
      (recLines recs).getD (2 * m) [] = '>' :: (recs.getD m ([], [])).1 ∧
      (recLines recs).getD (2 * m + 1) [] = (recs.getD m ([], [])).2 := by
  induction recs with
  | nil => intro m hm; simp at hm
  | cons p rest ih =>
    intro m hm
    cases m with
    | zero => rw [recLines_cons]; exact ⟨rfl, rfl⟩
    | succ m2 =>
      rw [recLines_cons,
        show 2 * (m2 + 1) = 2 * m2 + 1 + 1 from by omega]
      simp only [List.getD_cons_succ]
      rw [show 2 * m2 + 1 = 2 * m2 + 1 from rfl]
      exact ih m2 (by simpa using hm)

theorem recLinesRaw_length (recs : List (Str × Str)) :
    (recLinesRaw recs).length = 2 * recs.length := by
  induction recs with
  | nil => rfl
  | cons p rest ih =>
    rw [recLinesRaw_cons]
    simp only [List.length_cons, ih]
    omega

theorem recLinesRaw_getD (recs : List (Str × Str)) :
    ∀ m, m < recs.length →
      (recLinesRaw recs).getD (2 * m) [] = (recs.getD m ([], [])).1 ∧
      (recLinesRaw recs).getD (2 * m + 1) [] = (recs.getD m ([], [])).2 := by
  induction recs with
  | nil => intro m hm; simp at hm
  | cons p rest ih =>
    intro m hm
    cases m with
    | zero => rw [recLinesRaw_cons]; exact ⟨rfl, rfl⟩
    | succ m2 =>
      rw [recLinesRaw_cons,
        show 2 * (m2 + 1) = 2 * m2 + 1 + 1 from by omega]
      simp only [List.getD_cons_succ]
      exact ih m2 (by simpa using hm)

/-- Splitting a rendered block recovers its interleaved line list. -/
theorem renderBlock_lines (recs : List (Str × Str)) (hrne : recs ≠ [])
    (h : ∀ p ∈ recs, '\n' ∉ p.1 ∧ p.2 ≠ [] ∧ '\n' ∉ p.2) :
    pySplitlines (renderBlock recs) = recLines recs ∧
    pySplit '\n' (renderBlock recs) = recLines recs := by
  have hlines : ∀ l ∈ recLines recs, l ≠ [] ∧ '\n' ∉ l := by
    intro l hl
    obtain ⟨p, hp, hor⟩ := mem_recLines recs l hl
    rcases hor with rfl | rfl
    · exact ⟨by simp, by
        intro hc
        rcases List.mem_cons.mp hc with hc2 | hc2
        · exact absurd hc2 (by decide)
        · exact (h p hp).1 hc2⟩
    · exact ⟨(h p hp).2.1, (h p hp).2.2⟩
  have hne : recLines recs ≠ [] := by
    intro he
    have := recLines_length recs
    rw [he] at this
    simp only [List.length_nil] at this
    cases recs with
    | nil => exact hrne rfl
    | cons a b => simp at this
  exact ⟨pySplitlines_joinSep (recLines recs) hne hlines,
    pySplit_joinSep '\n' (recLines recs) hne (fun l hl => (hlines l hl).2)⟩

theorem pairedDerived_length (P : List (List (Str × Str))) :
    ∀ t m, (pairedDerived P t m).length = t := by
  intro t
  induction t with
  | zero => intro m; rfl
  | succ t2 ih => intro m; simp [pairedDerived, ih]

theorem pairedDerived_getD (P : List (List (Str × Str))) :
    ∀ t m r, r < t →
      (pairedDerived P t m).getD r ([], []) =
        (pairHeader (P.map (fun b => (b.getD (m + r) ([], [])).1)),
          (P.map (fun b => (b.getD (m + r) ([], [])).2)).flatten) := by
  intro t
  induction t with
  | zero => intro m r hr; simp at hr
  | succ t2 ih =>
    intro m r hr
    cases r with
    | zero => simp [pairedDerived]
    | succ r2 =>
      show (pairedDerived P t2 (m + 1)).getD r2 ([], []) = _
      rw [ih (m + 1) r2 (by omega), show m + 1 + r2 = m + (r2 + 1) from by omega]

theorem mem_pairedDerived (P : List (List (Str × Str))) :
    ∀ t m x, x ∈ pairedDerived P t m → ∃ r, r < t ∧
      x = (pairHeader (P.map (fun b => (b.getD (m + r) ([], [])).1)),
        (P.map (fun b => (b.getD (m + r) ([], [])).2)).flatten) := by
  intro t
  induction t with
  | zero => intro m x hx; simp [pairedDerived] at hx
  | succ t2 ih =>
    intro m x hx
    rcases List.mem_cons.mp hx with rfl | hx2
    · exact ⟨0, by omega, by simp⟩
    · obtain ⟨r, hr, he⟩ := ih (m + 1) x hx2
      exact ⟨r + 1, by omega, by
        rw [he, show m + 1 + r = m + (r + 1) from by omega]⟩

theorem mem_unpairedDerived (blanks : List Str) :
    ∀ (Us : List (List (Str × Str))) (n : Nat) (x : Str × Str),
      x ∈ unpairedDerived blanks Us n → ∃ i, i < Us.length ∧
        ∃ p ∈ Us.getD i [], x = ('>' :: p.1, embedRow blanks (n + i) p.2) := by
  intro Us
  induction Us with
  | nil => intro n x hx; simp [unpairedDerived] at hx
  | cons b rest ih =>
    intro n x hx
    rcases List.mem_append.mp hx with hx2 | hx2
    · obtain ⟨p, hp, he⟩ := List.mem_map.mp hx2
      exact ⟨0, by simp, p, hp, he.symm⟩
    · obtain ⟨i, hi, p, hp, he⟩ := ih (n + 1) x hx2
      refine ⟨i + 1, by simpa using hi, p, hp, ?_⟩
      rw [he, show n + 1 + i = n + (i + 1) from by omega]

theorem getD_map_renderBlock (P : List (List (Str × Str))) (j : Nat) :
    (P.map renderBlock).getD j [] = renderBlock (P.getD j []) := by
  by_cases hj : j < P.length
  · rw [List.getD_eq_getElem _ _ (by simpa using hj),
      List.getD_eq_getElem _ _ hj, List.getElem_map]
  · rw [List.getD_eq_default _ _ (by simpa using hj),
      List.getD_eq_default _ _ (by simpa using hj)]
    rfl

theorem startsChar_eq_false_of_not_mem (c : Char) (s : Str) (h : c ∉ s)
    (hne : s ≠ []) : startsChar c s = false := by
  cases s with
  | nil => exact absurd rfl hne
  | cons a rest =>
    simp only [List.mem_cons, not_or] at h
    simp only [startsChar, decide_eq_false_iff_not]
    exact fun he => h.1 he.symm

theorem pairTail_cons (nm : Str) (rest : List Str) :
    pairTail (nm :: rest) = ('\t' :: nm) ++ pairTail rest := rfl

theorem pairColumn_render_hdr (P : List (List (Str × Str))) (cards : List Nat)
    (R m : Nat) (hm : m < R)
    (hwf : ∀ b ∈ P, b ≠ [] ∧ b.length = R ∧
      ∀ p ∈ b, '\n' ∉ p.1 ∧ p.2 ≠ [] ∧ '\n' ∉ p.2 ∧ '>' ∉ p.2) :
    ∀ t n, n + t ≤ P.length → 1 ≤ n →
      pairColumn (P.map renderBlock) cards t n (2 * m) =
        pairTail (((P.drop n).take t).map (fun b => (b.getD m ([], [])).1)) := by
  intro t
  induction t with
  | zero => intro n _ _; simp [pairColumn, pairTail]
  | succ t2 ih =>
    intro n hn hn1
    have hnP : n < P.length := by omega
    have hmem : P.getD n [] ∈ P := by
      rw [List.getD_eq_getElem _ _ hnP]
      exact List.getElem_mem hnP
    obtain ⟨hbne, hbR, hbw⟩ := hwf _ hmem
    have hline : (pySplitlines ((P.map renderBlock).getD n [])).getD (2 * m) [] =
        '>' :: ((P.getD n []).getD m ([], [])).1 := by
      rw [getD_map_renderBlock,
        (renderBlock_lines _ hbne (fun p hp =>
          ⟨(hbw p hp).1, (hbw p hp).2.1, (hbw p hp).2.2.1⟩)).1]
      exact (recLines_getD _ m (by rw [hbR]; exact hm)).1
    show pairFrag n (cards.getD n 0) _ ++
        pairColumn (P.map renderBlock) cards t2 (n + 1) (2 * m) = _
    rw [hline]
    have hfrag : pairFrag n (cards.getD n 0)
        ('>' :: ((P.getD n []).getD m ([], [])).1) =
        '\t' :: ((P.getD n []).getD m ([], [])).1 := by
      simp [pairFrag, startsChar, replaceFirst, show n ≠ 0 by omega]
    rw [hfrag, ih (n + 1) (by omega) (by omega)]
    rw [List.drop_eq_getElem_cons hnP, List.take_succ_cons, List.map_cons,
      ← List.getD_eq_getElem P ([] : List (Str × Str)) hnP, pairTail_cons]

theorem pairColumn_render_row (P : List (List (Str × Str))) (cards : List Nat)
    (R m : Nat) (hm : m < R)
    (hwf : ∀ b ∈ P, b ≠ [] ∧ b.length = R ∧
      ∀ p ∈ b, '\n' ∉ p.1 ∧ p.2 ≠ [] ∧ '\n' ∉ p.2 ∧ '>' ∉ p.2)
    (hcard : ∀ j, j < P.length → cards.getD j 0 = 1) :
    ∀ t n, n + t ≤ P.length →
      pairColumn (P.map renderBlock) cards t n (2 * m + 1) =
        (((P.drop n).take t).map (fun b => (b.getD m ([], [])).2)).flatten := by
  intro t
  induction t with
  | zero => intro n _; simp [pairColumn]
  | succ t2 ih =>
    intro n hn
    have hnP : n < P.length := by omega
    have hmem : P.getD n [] ∈ P := by
      rw [List.getD_eq_getElem _ _ hnP]
      exact List.getElem_mem hnP
    obtain ⟨hbne, hbR, hbw⟩ := hwf _ hmem
    have hmR : m < (P.getD n []).length := by rw [hbR]; exact hm
    have hrmem : (P.getD n []).getD m ([], []) ∈ P.getD n [] := by
      rw [List.getD_eq_getElem _ _ hmR]
      exact List.getElem_mem hmR
    have hline : (pySplitlines ((P.map renderBlock).getD n [])).getD
        (2 * m + 1) [] = ((P.getD n []).getD m ([], [])).2 := by
      rw [getD_map_renderBlock,
        (renderBlock_lines _ hbne (fun p hp =>
          ⟨(hbw p hp).1, (hbw p hp).2.1, (hbw p hp).2.2.1⟩)).1]
      exact (recLines_getD _ m hmR).2
    show pairFrag n (cards.getD n 0) _ ++
        pairColumn (P.map renderBlock) cards t2 (n + 1) (2 * m + 1) = _
    rw [hline]
    have hfrag : pairFrag n (cards.getD n 0) ((P.getD n []).getD m ([], [])).2 =
        ((P.getD n []).getD m ([], [])).2 := by
      rw [pairFrag, if_neg (by
        rw [startsChar_eq_false_of_not_mem '>' _ (hbw _ hrmem).2.2.2
          (hbw _ hrmem).2.1]
        simp), hcard n hnP, repeatStr_one]
    rw [hfrag, ih (n + 1) (by omega)]
    rw [List.drop_eq_getElem_cons hnP, List.take_succ_cons, List.map_cons,
      ← List.getD_eq_getElem P ([] : List (Str × Str)) hnP, List.flatten_cons]

/-- `pair_sequences`' accumulation on rendered per-chain blocks with all
cardinalities 1 produces exactly the interleaved derived paired records. -/
theorem pairChains_render (P : List (List (Str × Str))) (cards : List Nat)
    (qs : List Str) (R : Nat)
    (hq : qs.length = P.length) (hP1 : 1 ≤ P.length)
    (hclen : P.length ≤ cards.length)
    (hcard : ∀ j, j < P.length → cards.getD j 0 = 1)
    (hwf : ∀ b ∈ P, b ≠ [] ∧ b.length = R ∧
      ∀ p ∈ b, '\n' ∉ p.1 ∧ p.2 ≠ [] ∧ '\n' ∉ p.2 ∧ '>' ∉ p.2) :
    pairChains (P.map renderBlock) cards qs 0 (List.replicate (2 * R) []) =
      some (recLinesRaw (pairedDerived P R 0)) := by
  have hsl : ∀ j, j < P.length →
      pySplitlines ((P.map renderBlock).getD j []) = recLines (P.getD j []) ∧
      (P.getD j []).length = R := by
    intro j hj
    have hmem : P.getD j [] ∈ P := by
      rw [List.getD_eq_getElem _ _ hj]
      exact List.getElem_mem hj
    obtain ⟨hbne, hbR, hbw⟩ := hwf _ hmem
    exact ⟨by
      rw [getD_map_renderBlock]
      exact (renderBlock_lines _ hbne (fun p hp =>
        ⟨(hbw p hp).1, (hbw p hp).2.1, (hbw p hp).2.2.1⟩)).1, hbR⟩
  obtain ⟨rows2, heq, hlen, hget⟩ := pairChains_spec (P.map renderBlock) cards qs
    0 (List.replicate (2 * R) []) (by
      intro j hj
      have hjP : j < P.length := by omega
      refine ⟨by simpa using hjP, by omega, ?_⟩
      rw [Nat.zero_add, (hsl j hjP).1, recLines_length, (hsl j hjP).2]
      simp)
  rw [heq]
  congr 1
  apply List.ext_getElem
  · rw [hlen, recLinesRaw_length, pairedDerived_length]
    simp
  · intro i h1 h2
    have hiR : i < 2 * R := by
      rw [hlen] at h1
      simpa using h1
    have hgi := hget i (by simpa using hiR)
    rw [getD_replicate_nilStr, List.nil_append, hq] at hgi
    rw [← List.getD_eq_getElem rows2 ([] : Str) h1,
      ← List.getD_eq_getElem _ ([] : Str) h2, hgi]
    obtain ⟨b0, Prest, rfl⟩ := List.exists_cons_of_ne_nil
      (show P ≠ [] by intro he; rw [he] at hP1; simp at hP1)
    have hm2 : i % 2 = 0 ∨ i % 2 = 1 := by omega
    have hdecomp : i = 2 * (i / 2) + i % 2 := by omega
    have hmR : i / 2 < R := by omega
    rcases hm2 with he | he
    · -- header line
      rw [show i = 2 * (i / 2) from by omega]
      have hline : (pySplitlines (((b0 :: Prest).map renderBlock).getD 0 [])).getD
          (2 * (i / 2)) [] = '>' :: (((b0 :: Prest).getD 0 []).getD (i / 2) ([], [])).1 := by
        rw [(hsl 0 (by simp)).1]
        exact (recLines_getD _ (i / 2) (by rw [(hsl 0 (by simp)).2]; exact hmR)).1
      show pairFrag 0 (cards.getD 0 0) _ ++
          pairColumn ((b0 :: Prest).map renderBlock) cards Prest.length 1
            (2 * (i / 2)) = _
      rw [hline]
      have hfrag : pairFrag 0 (cards.getD 0 0)
          ('>' :: (((b0 :: Prest).getD 0 []).getD (i / 2) ([], [])).1) =
          '>' :: (((b0 :: Prest).getD 0 []).getD (i / 2) ([], [])).1 := by
        simp [pairFrag, startsChar]
      rw [hfrag, pairColumn_render_hdr (b0 :: Prest) cards R (i / 2) hmR hwf
        Prest.length 1 (by simp only [List.length_cons]; omega) (by omega)]
      rw [(recLinesRaw_getD _ (i / 2) (by rw [pairedDerived_length]; exact hmR)).1,
        pairedDerived_getD (b0 :: Prest) R 0 (i / 2) hmR]
      simp only [Nat.zero_add, List.drop_succ_cons, List.drop_zero,
        List.take_length, List.map_cons, pairHeader, List.getD_cons_zero,
        List.cons_append]
    · -- residue line
      rw [show i = 2 * (i / 2) + 1 from by omega]
      rw [pairColumn_render_row (b0 :: Prest) cards R (i / 2) hmR hwf hcard
        ((b0 :: Prest).length) 0 (by omega)]
      rw [(recLinesRaw_getD _ (i / 2) (by rw [pairedDerived_length]; exact hmR)).2,
        pairedDerived_getD (b0 :: Prest) R 0 (i / 2) hmR]
      simp only [Nat.zero_add, List.drop_zero, List.take_length]

theorem padOneCopy_recLines (blanks : List Str) (n : Nat)
    (recs : List (Str × Str))
    (h : ∀ p ∈ recs, p.2 ≠ [] ∧ '>' ∉ p.2) :
    padOneCopy blanks n (recLines recs) =
      recLinesRaw (recs.map (fun p => ('>' :: p.1, embedRow blanks n p.2))) := by
  induction recs with
  | nil => rfl
  | cons p rest ih =>
    rw [recLines_cons]
    unfold padOneCopy
    rw [List.filterMap_cons, List.filterMap_cons]
    rw [if_neg (by simp), if_pos (show startsChar '>' ('>' :: p.1) = true from rfl)]
    rw [if_neg (h p (by simp)).1,
      if_neg (by
        rw [startsChar_eq_false_of_not_mem '>' p.2 (h p (by simp)).2
          (h p (by simp)).1]
        simp)]
    unfold padOneCopy at ih
    rw [ih (fun x hx => h x (by simp [hx]))]
    rfl

theorem padCopies_one (lines : List Str) (blanks : List Str) (pos : Nat) :
    padCopies 1 lines blanks pos = padOneCopy blanks pos lines := by
  unfold padCopies
  rw [show List.range 1 = [0] from rfl]
  simp

/-- `pad_sequences`' accumulation on rendered per-chain blocks with all
cardinalities 1 produces exactly the derived unpaired records,
interleaved. -/
theorem padChains_render (blanks : List Str) (cards : List Nat) :
    ∀ (Us : List (List (Str × Str))) (qs : List Str)
      (done : List (List (Str × Str))),
      qs.length = Us.length →
      done.length + Us.length ≤ cards.length →
      (∀ j, j < cards.length → cards.getD j 0 = 1) →
      (∀ b ∈ Us, b ≠ [] ∧ ∀ p ∈ b, '\n' ∉ p.1 ∧ p.2 ≠ [] ∧ '\n' ∉ p.2 ∧ '>' ∉ p.2) →
      padChains ((done ++ Us).map renderBlock) cards blanks qs done.length
          done.length =
        some (recLinesRaw (unpairedDerived blanks Us done.length)) := by
  intro Us
  induction Us with
  | nil =>
    intro qs done hq _ _ _
    have : qs = [] := List.eq_nil_of_length_eq_zero hq
    subst this
    rfl
  | cons b Urest ih =>
    intro qs done hq hlen hc1 hwf
    obtain ⟨q0, qrest, rfl⟩ : ∃ q0 qrest, qs = q0 :: qrest := by
      cases qs with
      | nil => simp at hq
      | cons a as => exact ⟨a, as, rfl⟩
    have hnc : done.length < cards.length := by
      simp only [List.length_cons] at hlen
      omega
    have hcn : cards[done.length]? = some 1 := by
      have h1 := hc1 done.length hnc
      rw [List.getD_eq_getElem _ _ hnc] at h1
      rw [List.getElem?_eq_getElem hnc, h1]
    have hbn : ((done ++ b :: Urest).map renderBlock)[done.length]? =
        some (renderBlock b) := by
      rw [List.map_append, List.getElem?_append_right (by simp)]
      simp
    rw [padChains, hcn]
    simp only [if_neg (one_ne_zero), hbn]
    rw [(renderBlock_lines b (hwf b (by simp)).1 (fun p hp =>
        ⟨((hwf b (by simp)).2 p hp).1, ((hwf b (by simp)).2 p hp).2.1,
          ((hwf b (by simp)).2 p hp).2.2.1⟩)).2]
    rw [padCopies_one, padOneCopy_recLines blanks done.length b
      (fun p hp => ⟨((hwf b (by simp)).2 p hp).2.1,
        ((hwf b (by simp)).2 p hp).2.2.2⟩)]
    have hrec : padChains ((done ++ b :: Urest).map renderBlock) cards blanks
        qrest (done.length + 1) (done.length + 1) =
        some (recLinesRaw (unpairedDerived blanks Urest (done.length + 1))) := by
      have hre : done ++ b :: Urest = (done ++ [b]) ++ Urest := by simp
      have hdl : done.length + 1 = (done ++ [b]).length := by simp
      rw [hre, hdl]
      exact ih qrest (done ++ [b]) (by simpa using hq)
        (by simp only [List.length_append, List.length_cons,
          List.length_nil] at hlen ⊢; omega)
        hc1 (fun x hx => hwf x (by simp [hx]))
    rw [hrec]
    show some (recLinesRaw (b.map (fun p => ('>' :: p.1, embedRow blanks
        done.length p.2))) ++ recLinesRaw (unpairedDerived blanks Urest
        (done.length + 1))) = _
    rw [← recLinesRaw_append]
    rfl

theorem pySlice_exact (pre mid post : Str) :
    pySlice (pre ++ mid ++ post) (pre.length : Int)
      ((pre.length : Int) + (mid.length : Int)) = mid := by
  unfold pySlice pyIdx
  rw [if_neg (by push_cast; omega), if_neg (by push_cast; omega)]
  have h1 : ((pre.length : Int) + (mid.length : Int)).toNat =
      pre.length + mid.length := by omega
  have h2 : ((pre.length : Int)).toNat = pre.length := by omega
  rw [h1, h2]
  have hlen : (pre ++ mid ++ post).length =
      pre.length + mid.length + post.length := by simp [Nat.add_assoc]
  rw [hlen, Nat.min_eq_left (by omega), Nat.min_eq_left (by omega)]
  rw [show pre ++ mid ++ post = (pre ++ mid) ++ post from by simp,
    show pre.length + mid.length = (pre ++ mid).length from by simp,
    List.take_left, List.drop_left]

theorem extractUniq_flatten (us : List Str) :
    ∀ (pre : Str),
      extractUniq (pre ++ us.flatten) (us.map (fun u => (u.length : Int)))
        (pre.length : Int) = us := by
  induction us with
  | nil => intro pre; rfl
  | cons u urest ih =>
    intro pre
    rw [List.map_cons, extractUniq]
    rw [show pre ++ (u :: urest).flatten = pre ++ u ++ urest.flatten from by simp]
    rw [pySlice_exact pre u urest.flatten]
    have hc : (pre.length : Int) + (u.length : Int) =
        (((pre ++ u).length : Nat) : Int) := by push_cast; simp
    rw [hc, ih (pre ++ u)]

theorem set_flatten (l : List Str) (n : Nat) (x : Str) (hn : n < l.length) :
    (l.set n x).flatten =
      (l.take n).flatten ++ x ++ (l.drop (n + 1)).flatten := by
  rw [List.set_eq_take_append_cons_drop, if_pos hn]
  simp

/-- The `_blank_seq` list with every cardinality 1 is one all-gap string
per chain. -/
theorem blanks_one (qs : List Str) :
    (List.zipWith (fun (q : Str) c =>
      List.replicate c (List.replicate q.length '-')) qs
        (List.replicate qs.length 1)).flatten =
      qs.map (fun u => List.replicate u.length '-') := by
  induction qs with
  | nil => rfl
  | cons q rest ih =>
    rw [show List.replicate (q :: rest).length 1 =
        1 :: List.replicate rest.length 1 from by
      rw [List.length_cons, List.replicate_succ]]
    rw [List.zipWith_cons_cons, List.flatten_cons, ih, List.map_cons]
    rfl

/-- The decoder's body loop on fresh, duplicate-free records succeeds,
keeps the accumulator shapes, and each chain gains one paired record per
row classified paired and one unpaired record per row whose own chain
flag is set. -/
theorem decodeBody_counts (lens : List Int) :
    ∀ (recs : List (Str × Str)) (st : DecodeState),
      st.paired_msa.length = lens.length →
      st.unpaired_msa.length = lens.length →
      (∀ p ∈ recs, p ∉ st.seen) →
      recs.Nodup →
      (∀ p ∈ recs, '>' ∉ p.2 ∧ countGt p.1 = 1 ∧
        (((splitChains lens p.2).2.count true == lens.length) = true →
          lens.length ≤ (pySplit '\t' (p.1.filter (fun c => !(c = '>')))).length)) →
      ∃ st2, decodeBody lens false false recs st = some st2 ∧
        st2.paired_msa.length = lens.length ∧
        st2.unpaired_msa.length = lens.length ∧
        ∀ j, j < lens.length →
          countGt (st2.paired_msa.getD j []) =
            countGt (st.paired_msa.getD j []) +
              (recs.filter (fun p =>
                (splitChains lens p.2).2.count true == lens.length)).length ∧
          countGt (st2.unpaired_msa.getD j []) =
            countGt (st.unpaired_msa.getD j []) +
              (recs.filter (fun p =>
                !((splitChains lens p.2).2.count true == lens.length) &&
                (splitChains lens p.2).2.getD j false)).length := by
  intro recs
  induction recs with
  | nil =>
    intro st hplen hulen _ _ _
    exact ⟨st, rfl, hplen, hulen, fun j _ => ⟨by simp, by simp⟩⟩
  | cons p rest ih =>
    intro st hplen hulen hfresh hnd hrec
    obtain ⟨h, s⟩ := p
    have hfresh0 : (h, s) ∉ st.seen := hfresh _ (by simp)
    obtain ⟨hgt, hcg, hpb⟩ := hrec (h, s) (by simp)
    have hslen := splitChains_length lens s
    have hfresh2 : ∀ x ∈ rest, x ∉ (h, s) :: st.seen := by
      intro x hx
      simp only [List.mem_cons, not_or]
      exact ⟨fun he => (List.nodup_cons.mp hnd).1 (he ▸ hx),
        hfresh x (by simp [hx])⟩
    have hnd2 : rest.Nodup := (List.nodup_cons.mp hnd).2
    have hrec2 : ∀ x ∈ rest, '>' ∉ x.2 ∧ countGt x.1 = 1 ∧
        (((splitChains lens x.2).2.count true == lens.length) = true →
          lens.length ≤ (pySplit '\t' (x.1.filter (fun c => !(c = '>')))).length) :=
      fun x hx => hrec x (by simp [hx])
    by_cases hcls : ((splitChains lens s).2.count true == lens.length) = true
    · obtain ⟨pm2, happ, hlen2, hget⟩ := appendPaired_spec (splitChains lens s).1
        st.paired_msa (pySplit '\t' (h.filter (fun c => !(c = '>'))))
        (by rw [hplen, hslen.1]) (by rw [hslen.1]; exact hpb hcls)
      have hstep : decode_record lens false false st h s =
          some ⟨(h, s) :: st.seen, pm2, st.unpaired_msa⟩ := by
        unfold decode_record
        rw [if_neg hfresh0, if_pos (by
          simp only [Bool.not_false, Bool.true_and]
          exact hcls), happ]
      obtain ⟨st2, hbody, hl1, hl2, hcount⟩ := ih ⟨(h, s) :: st.seen, pm2,
        st.unpaired_msa⟩ (by
          show pm2.length = lens.length
          rw [hlen2, hplen]) hulen hfresh2 hnd2 hrec2
      refine ⟨st2, ?_, hl1, hl2, ?_⟩
      · rw [decodeBody_cons]
        simp only [hstep]
        exact hbody
      · intro j hj
        have hj2 : j < st.paired_msa.length := by rw [hplen]; exact hj
        obtain ⟨hc1, hc2⟩ := hcount j hj
        have hproj1 : (⟨(h, s) :: st.seen, pm2, st.unpaired_msa⟩ :
            DecodeState).paired_msa = pm2 := rfl
        have hproj2 : (⟨(h, s) :: st.seen, pm2, st.unpaired_msa⟩ :
            DecodeState).unpaired_msa = st.unpaired_msa := rfl
        rw [hproj1] at hc1
        rw [hproj2] at hc2
        constructor
        · rw [hc1, hget j hj2, countGt_append, countGt_cons_gt,
            countGt_eq_zero ((pySplit '\t' (h.filter (fun c =>
              !(c = '>')))).getD j [] ++
              '\n' :: ((splitChains lens s).1.getD j [] ++ ['\n'])) ?hfree,
            List.filter_cons, if_pos hcls, List.length_cons]
          · omega
          case hfree =>
            intro hc
            rcases List.mem_append.mp hc with hc2a | hc2a
            · by_cases hjp : j < (pySplit '\t'
                  (h.filter (fun c => !(c = '>')))).length
              · have hpmem : (pySplit '\t'
                    (h.filter (fun c => !(c = '>')))).getD j [] ∈
                    pySplit '\t' (h.filter (fun c => !(c = '>'))) := by
                  rw [List.getD_eq_getElem _ _ hjp]
                  exact List.getElem_mem hjp
                have hsub := mem_pySplit_subset '\t' _ _ hpmem '>' hc2a
                have := (List.mem_filter.mp hsub).2
                simp at this
              · rw [List.getD_eq_default _ _ (by omega)] at hc2a
                simp at hc2a
            · rcases List.mem_cons.mp hc2a with hc3 | hc3
              · exact absurd hc3 (by decide)
              · rcases List.mem_append.mp hc3 with hc4 | hc4
                · have hjs : j < (splitChains lens s).1.length := by
                    rw [hslen.1]; exact hj
                  have hsmem : (splitChains lens s).1.getD j [] ∈
                      (splitChains lens s).1 := by
                    rw [List.getD_eq_getElem _ _ hjs]
                    exact List.getElem_mem hjs
                  exact hgt (splitChains_subset lens s _ hsmem '>' hc4)
                · exact absurd (List.mem_singleton.mp hc4) (by decide)
        · rw [hc2, List.filter_cons, if_neg (by simp [hcls])]
    · have hXf : ((splitChains lens s).2.count true == lens.length) = false := by
        revert hcls
        cases ((splitChains lens s).2.count true == lens.length) <;> simp
      obtain ⟨um2, happ, hlen2, hget⟩ := appendUnpaired_spec h
        (splitChains lens s).1 st.unpaired_msa (splitChains lens s).2
        (by rw [hulen, hslen.1]) (by rw [hslen.2, hslen.1])
      have hstep : decode_record lens false false st h s =
          some ⟨(h, s) :: st.seen, st.paired_msa, um2⟩ := by
        unfold decode_record
        rw [if_neg hfresh0, if_neg (by
          simp only [Bool.not_false, Bool.true_and]
          exact hcls), happ]
      obtain ⟨st2, hbody, hl1, hl2, hcount⟩ := ih ⟨(h, s) :: st.seen,
        st.paired_msa, um2⟩ hplen (by
          show um2.length = lens.length
          rw [hlen2, hulen]) hfresh2 hnd2 hrec2
      refine ⟨st2, ?_, hl1, hl2, ?_⟩
      · rw [decodeBody_cons]
        simp only [hstep]
        exact hbody
      · intro j hj
        have hj3 : j < st.unpaired_msa.length := by rw [hulen]; exact hj
        obtain ⟨hc1, hc2⟩ := hcount j hj
        have hproj1 : (⟨(h, s) :: st.seen, st.paired_msa, um2⟩ :
            DecodeState).paired_msa = st.paired_msa := rfl
        have hproj2 : (⟨(h, s) :: st.seen, st.paired_msa, um2⟩ :
            DecodeState).unpaired_msa = um2 := rfl
        rw [hproj1] at hc1
        rw [hproj2] at hc2
        have hsegfree : '>' ∉ ('\n' :: ((splitChains lens s).1.getD j [] ++
            ['\n'])) := by
          intro hc
          rcases List.mem_cons.mp hc with hc3 | hc3
          · exact absurd hc3 (by decide)
          · rcases List.mem_append.mp hc3 with hc4 | hc4
            · have hjs : j < (splitChains lens s).1.length := by
                rw [hslen.1]; exact hj
              have hsmem : (splitChains lens s).1.getD j [] ∈
                  (splitChains lens s).1 := by
                rw [List.getD_eq_getElem _ _ hjs]
                exact List.getElem_mem hjs
              exact hgt (splitChains_subset lens s _ hsmem '>' hc4)
            · exact absurd (List.mem_singleton.mp hc4) (by decide)
        constructor
        · rw [hc1, List.filter_cons, if_neg (by
            intro hcp
            exact hcls hcp)]
        · rw [hc2, hget j hj3]
          by_cases hflag : (splitChains lens s).2.getD j false = true
          · rw [if_pos hflag, List.filter_cons, if_pos (by
              rw [hXf, hflag]
              rfl)]
            rw [show st.unpaired_msa.getD j [] ++ h ++
                '\n' :: ((splitChains lens s).1.getD j [] ++ ['\n']) =
                (st.unpaired_msa.getD j [] ++ h) ++
                ('\n' :: ((splitChains lens s).1.getD j [] ++ ['\n'])) from by
              simp [List.append_assoc]]
            rw [countGt_append, countGt_append, hcg,
              countGt_eq_zero _ hsegfree, List.length_cons]
            omega
          · rw [if_neg hflag, List.filter_cons, if_neg (by
              rw [hXf]
              simp only [Bool.not_eq_true] at hflag
              rw [hflag]
              simp)]

theorem mem_pairTail (names : List Str) (x : Char) (hx : x ∈ pairTail names) :
    x = '\t' ∨ ∃ nm ∈ names, x ∈ nm := by
  simp only [pairTail, List.mem_flatten, List.mem_map] at hx
  obtain ⟨piece, ⟨nm, hnm, rfl⟩, hmem⟩ := hx
  rcases List.mem_cons.mp hmem with h | h
  · exact Or.inl h
  · exact Or.inr ⟨nm, hnm, h⟩

theorem joinSep_tab_pairTail (n0 : Str) (rest : List Str) :
    joinSep '\t' (n0 :: rest) = n0 ++ pairTail rest := by
  induction rest generalizing n0 with
  | nil => simp [joinSep, pairTail]
  | cons r rs ih =>
    rw [joinSep_cons '\t' n0 (r :: rs) (by simp), ih r, pairTail_cons]
    simp

theorem filter_pairHeader (n0 : Str) (rest : List Str)
    (h : ∀ nm ∈ n0 :: rest, '>' ∉ nm) :
    (pairHeader (n0 :: rest)).filter (fun c => !(c = '>')) =
      joinSep '\t' (n0 :: rest) := by
  rw [pairHeader, joinSep_tab_pairTail]
  rw [List.filter_cons, if_neg (by simp)]
  rw [List.filter_append]
  rw [List.filter_eq_self.mpr (by
    intro a ha
    simpa using fun he : a = '>' => h n0 (by simp) (he ▸ ha))]
  rw [List.filter_eq_self.mpr (by
    intro a ha
    rcases mem_pairTail rest a ha with rfl | ⟨nm, hnm, ham⟩
    · simp
    · simpa using fun he : a = '>' => h nm (by simp [hnm]) (he ▸ ham))]

theorem countGt_pairHeader (n0 : Str) (rest : List Str)
    (h : ∀ nm ∈ n0 :: rest, '>' ∉ nm) :
    countGt (pairHeader (n0 :: rest)) = 1 := by
  rw [pairHeader, countGt_cons_gt, countGt_eq_zero]
  intro hc
  rcases List.mem_append.mp hc with hc2 | hc2
  · exact h n0 (by simp) hc2
  · rcases mem_pairTail rest '>' hc2 with he | ⟨nm, hnm, ham⟩
    · exact absurd he (by decide)
    · exact h nm (by simp [hnm]) ham

/-- A paired body row splits into the per-chain rows, all flagged. -/
theorem paired_row_classify (uniq : List Str) (ps : List Str)
    (hlen : ps.length = uniq.length)
    (hplen : ∀ j, j < ps.length → (ps.getD j []).length = (uniq.getD j []).length)
    (hnl : ∀ p ∈ ps, ∀ c ∈ p, c.isLower = false)
    (hres : ∀ p ∈ ps, hasResidue p = true) :
    splitChains (uniq.map (fun u => (u.length : Int))) ps.flatten =
      (ps, ps.map hasResidue) ∧
    (((splitChains (uniq.map (fun u => (u.length : Int)))
      ps.flatten).2.count true ==
      (uniq.map (fun u => (u.length : Int))).length) = true) := by
  have hlens : uniq.map (fun u => (u.length : Int)) =
      ps.map (fun p => (p.length : Int)) := by
    apply List.ext_getElem
    · simp [hlen]
    · intro j h1 h2
      simp only [List.getElem_map]
      have hj : j < ps.length := by simpa using h2
      have := hplen j hj
      rw [List.getD_eq_getElem _ _ hj,
        List.getD_eq_getElem _ _ (by simpa using h1)] at this
      rw [this]
  have hsp := splitChains_pieces (uniq.map (fun u => (u.length : Int))) ps hlens
    hnl (fun p hp => hasResidue_ne_nil p (hres p hp))
  refine ⟨hsp, ?_⟩
  rw [hsp]
  show ((ps.map hasResidue).count true == _) = true
  rw [beq_iff_eq]
  rw [List.count_eq_length.mpr (by
    intro b hb
    obtain ⟨p, hp, rfl⟩ := List.mem_map.mp hb
    exact (hres p hp).symm)]
  simp [hlen]

/-- An unpaired body row splits into one real row at its own chain and
all-gap fragments elsewhere. -/
theorem unpaired_row_classify (uniq : List Str) (row : Str) (n : Nat)
    (hn : n < uniq.length) (hk : 2 ≤ uniq.length)
    (hrowlen : row.length = (uniq.getD n []).length)
    (hune : ∀ j, j < uniq.length → uniq.getD j [] ≠ [])
    (hnl : ∀ c ∈ row, c.isLower = false)
    (hres : hasResidue row = true) :
    splitChains (uniq.map (fun u => (u.length : Int)))
      (embedRow (uniq.map (fun u => List.replicate u.length '-')) n row) =
      ((uniq.map (fun u => List.replicate u.length '-')).set n row,
        ((uniq.map (fun u => List.replicate u.length '-')).set n row).map
          hasResidue) ∧
    (((splitChains (uniq.map (fun u => (u.length : Int)))
      (embedRow (uniq.map (fun u => List.replicate u.length '-')) n row)).2.count
        true == (uniq.map (fun u => (u.length : Int))).length) = false) ∧
    (∀ j, j < uniq.length →
      (splitChains (uniq.map (fun u => (u.length : Int)))
        (embedRow (uniq.map (fun u => List.replicate u.length '-')) n
          row)).2.getD j false = decide (j = n)) := by
  have hbl : (uniq.map (fun u => List.replicate u.length '-')).length =
      uniq.length := by simp
  have hnb : n < (uniq.map (fun u => List.replicate u.length '-')).length := by
    rw [hbl]; exact hn
  have hemb : embedRow (uniq.map (fun u => List.replicate u.length '-')) n row =
      ((uniq.map (fun u => List.replicate u.length '-')).set n row).flatten := by
    rw [set_flatten _ n row hnb, embedRow]
  have hpieceelem : ∀ j, j < uniq.length →
      ((uniq.map (fun u => List.replicate u.length '-')).set n row).getD j [] =
      if n = j then row else List.replicate (uniq.getD j []).length '-' := by
    intro j hj
    have hjs : j < ((uniq.map (fun u => List.replicate u.length '-')).set n
        row).length := by
      rw [List.length_set, hbl]; exact hj
    rw [List.getD_eq_getElem _ _ hjs, List.getElem_set]
    by_cases he : n = j
    · rw [if_pos he, if_pos he]
    · rw [if_neg he, if_neg he, List.getElem_map,
        List.getD_eq_getElem uniq ([] : Str) hj]
  have hlens : uniq.map (fun u => (u.length : Int)) =
      ((uniq.map (fun u => List.replicate u.length '-')).set n row).map
        (fun p => (p.length : Int)) := by
    apply List.ext_getElem
    · simp
    · intro j h1 h2
      have hj : j < uniq.length := by simpa using h1
      have hjs : j < ((uniq.map (fun u => List.replicate u.length '-')).set n
          row).length := by
        rw [List.length_set, hbl]; exact hj
      simp only [List.getElem_map]
      rw [← List.getD_eq_getElem ((uniq.map (fun u =>
        List.replicate u.length '-')).set n row) ([] : Str) hjs,
        hpieceelem j hj]
      by_cases he : n = j
      · rw [if_pos he]
        subst he
        rw [hrowlen, List.getD_eq_getElem _ _ hn]
      · rw [if_neg he, List.length_replicate,
          List.getD_eq_getElem uniq ([] : Str) hj]
  have hpmem : ∀ p ∈ (uniq.map (fun u => List.replicate u.length '-')).set n row,
      p = row ∨ ∃ u ∈ uniq, p = List.replicate u.length '-' := by
    intro p hp
    rcases List.mem_or_eq_of_mem_set hp with h2 | h2
    · obtain ⟨u, hu, rfl⟩ := List.mem_map.mp h2
      exact Or.inr ⟨u, hu, rfl⟩
    · exact Or.inl h2
  have hsp := splitChains_pieces (uniq.map (fun u => (u.length : Int)))
    ((uniq.map (fun u => List.replicate u.length '-')).set n row) hlens
    (by
      intro p hp c hc
      rcases hpmem p hp with rfl | ⟨u, hu, rfl⟩
      · exact hnl c hc
      · rw [List.eq_of_mem_replicate hc]
        decide)
    (by
      intro p hp
      rcases hpmem p hp with hpr | ⟨u, hu, hur⟩
      · rw [hpr]
        exact hasResidue_ne_nil row hres
      · rw [hur]
        intro he
        have hu0 : u.length = 0 := by simpa using congrArg List.length he
        obtain ⟨j, hj, hju⟩ := List.mem_iff_getElem.mp hu
        refine hune j hj ?_
        rw [List.getD_eq_getElem _ _ hj, hju]
        exact List.eq_nil_of_length_eq_zero hu0)
  rw [← hemb] at hsp
  have hflag : ∀ j, j < uniq.length →
      (((uniq.map (fun u => List.replicate u.length '-')).set n row).map
        hasResidue).getD j false = decide (j = n) := by
    intro j hj
    have hjl : j < (((uniq.map (fun u => List.replicate u.length '-')).set n
        row).map hasResidue).length := by
      rw [List.length_map, List.length_set, hbl]; exact hj
    have hjs : j < ((uniq.map (fun u => List.replicate u.length '-')).set n
        row).length := by
      rw [List.length_set, hbl]; exact hj
    rw [List.getD_eq_getElem _ _ hjl, List.getElem_map,
      ← List.getD_eq_getElem ((uniq.map (fun u =>
        List.replicate u.length '-')).set n row) ([] : Str) hjs,
      hpieceelem j hj]
    by_cases he : n = j
    · rw [if_pos he, hres]
      simp [he]
    · rw [if_neg he, hasResidue_replicate_dash]
      simp [Ne.symm he]
  refine ⟨hsp, ?_, ?_⟩
  · rw [hsp]
    show ((((uniq.map (fun u => List.replicate u.length '-')).set n row).map
      hasResidue).count true ==
      (uniq.map (fun u => (u.length : Int))).length) = false
    rw [beq_eq_false_iff_ne]
    intro hcnt
    have hflen : (((uniq.map (fun u => List.replicate u.length '-')).set n
        row).map hasResidue).length = uniq.length := by
      rw [List.length_map, List.length_set, hbl]
    have hall := List.count_eq_length.mp (by
      rw [hcnt, hflen]
      simp)
    have hj0k : (if n = 0 then 1 else 0) < uniq.length := by
      by_cases h0 : n = 0 <;> simp [h0] <;> omega
    have hj0n : (if n = 0 then 1 else 0) ≠ n := by
      by_cases h0 : n = 0 <;> simp [h0] <;> omega
    have hf0 := hflag (if n = 0 then 1 else 0) hj0k
    have hmem : (((uniq.map (fun u => List.replicate u.length '-')).set n
        row).map hasResidue).getD (if n = 0 then 1 else 0) false ∈
        ((uniq.map (fun u => List.replicate u.length '-')).set n row).map
          hasResidue := by
      rw [List.getD_eq_getElem _ _ (by rw [hflen]; exact hj0k)]
      exact List.getElem_mem _
    have h2 := hall _ hmem
    rw [hf0] at h2
    simp [hj0n] at h2
  · intro j hj
    rw [hsp]
    exact hflag j hj

theorem unpairedDerived_filter_length (blanks : List Str)
    (pred : Str × Str → Bool) (j : Nat) :
    ∀ (Us : List (List (Str × Str))) (n : Nat),
      (∀ i, i < Us.length → ∀ p ∈ Us.getD i [],
        pred ('>' :: p.1, embedRow blanks (n + i) p.2) = decide (n + i = j)) →
      ((unpairedDerived blanks Us n).filter pred).length =
        (if n ≤ j ∧ j < n + Us.length then (Us.getD (j - n) []).length else 0) := by
  intro Us
  induction Us with
  | nil =>
    intro n _
    simp only [unpairedDerived, List.filter_nil, List.length_nil,
      List.length_nil]
    rw [if_neg (by omega)]
  | cons b rest ih =>
    intro n hp
    show ((b.map (fun p => ('>' :: p.1, embedRow blanks n p.2)) ++
      unpairedDerived blanks rest (n + 1)).filter pred).length = _
    rw [List.filter_append, List.length_append]
    have htrans : ∀ i, i < rest.length → ∀ p ∈ rest.getD i [],
        pred ('>' :: p.1, embedRow blanks (n + 1 + i) p.2) =
          decide (n + 1 + i = j) := by
      intro i hi p hp2
      have h2 := hp (i + 1) (by simpa using hi) p (by
        rw [List.getD_cons_succ]
        exact hp2)
      rw [show n + (i + 1) = n + 1 + i from by omega] at h2
      exact h2
    have h0 : ∀ p ∈ b, pred ('>' :: p.1, embedRow blanks n p.2) =
        decide (n = j) := by
      intro p hp2
      have h2 := hp 0 (by simp) p (by rw [List.getD_cons_zero]; exact hp2)
      rw [Nat.add_zero] at h2
      exact h2
    by_cases hnj : n = j
    · have hfull : (b.map (fun p => ('>' :: p.1, embedRow blanks n
          p.2))).filter pred = b.map (fun p => ('>' :: p.1, embedRow blanks n
          p.2)) := by
        rw [List.filter_eq_self]
        intro x hx
        obtain ⟨p, hpm, rfl⟩ := List.mem_map.mp hx
        rw [h0 p hpm]
        simp [hnj]
      rw [hfull, List.length_map, ih (n + 1) htrans, if_neg (by omega),
        if_pos (by simp only [List.length_cons]; omega),
        show j - n = 0 from by omega, List.getD_cons_zero]
      omega
    · have hnone : ((b.map (fun p => ('>' :: p.1, embedRow blanks n
          p.2))).filter pred).length = 0 := by
        rw [List.filter_eq_nil_iff.mpr, List.length_nil]
        intro x hx
        obtain ⟨p, hpm, rfl⟩ := List.mem_map.mp hx
        rw [h0 p hpm]
        simp [hnj]
      rw [hnone, ih (n + 1) htrans]
      by_cases hin : n + 1 ≤ j ∧ j < n + 1 + rest.length
      · rw [if_pos hin, if_pos (by simp only [List.length_cons]; omega)]
        rw [show j - n = (j - (n + 1)) + 1 from by omega, List.getD_cons_succ]
        omega
      · rw [if_neg hin, if_neg (by simp only [List.length_cons]; omega)]

/-- Evaluation of the encoder on rendered per-chain blocks: the encoded
text is the header line followed by the interleaved derived paired and
padded records. -/
theorem msa_to_str_render (uniq : List Str) (cardsN : List Nat)
    (P U : List (List (Str × Str))) (R : Nat)
    (hk : 1 ≤ uniq.length)
    (hcard_len : cardsN.length = uniq.length)
    (hP_len : P.length = uniq.length)
    (hU_len : U.length = uniq.length)
    (hPwf : ∀ b ∈ P, b ≠ [] ∧ b.length = R ∧
      ∀ p ∈ b, '\n' ∉ p.1 ∧ p.2 ≠ [] ∧ '\n' ∉ p.2 ∧ '>' ∉ p.2)
    (hUwf : ∀ b ∈ U, b ≠ [] ∧
      ∀ p ∈ b, '\n' ∉ p.1 ∧ p.2 ≠ [] ∧ '\n' ∉ p.2 ∧ '>' ∉ p.2) :
    msa_to_str (some (U.map renderBlock)) (some (P.map renderBlock)) uniq
      cardsN =
      some (joinSep '\n'
        (('#' :: (joinSep ',' (uniq.map (fun s => natToStr s.length)) ++
          '\t' :: joinSep ',' (cardsN.map natToStr))) ::
          (recLinesRaw (pairedDerived P R 0) ++
            recLinesRaw (unpairedDerived
              (uniq.map (fun u => List.replicate u.length '-')) U 0)))) := by
  obtain ⟨b0, Prest, hPe⟩ := List.exists_cons_of_ne_nil
    (show P ≠ [] by intro he; rw [he] at hP_len; simp at hP_len; omega)
  obtain ⟨u0, Urest, hUe⟩ := List.exists_cons_of_ne_nil
    (show U ≠ [] by intro he; rw [he] at hU_len; simp at hU_len; omega)
  have hR : 1 ≤ R := by
    have := (hPwf b0 (by rw [hPe]; simp)).2.1
    have hne := (hPwf b0 (by rw [hPe]; simp)).1
    cases hb : b0 with
    | nil => exact absurd hb hne
    | cons x xs => rw [hb] at this; simp at this; omega
  have hcard1 : ∀ j, j < (cardsN.map (fun _ => (1 : Nat))).length →
      (cardsN.map (fun _ => (1 : Nat))).getD j 0 = 1 := by
    intro j hj
    rw [List.getD_eq_getElem _ _ hj, List.getElem_map]
  -- the paired part
  have hb0mem : b0 ∈ P := by rw [hPe]; simp
  have hlines0 : (pySplitlines (renderBlock b0)).length = 2 * R := by
    rw [(renderBlock_lines b0 (hPwf b0 hb0mem).1 (fun p hp =>
      ⟨((hPwf b0 hb0mem).2.2 p hp).1, ((hPwf b0 hb0mem).2.2 p hp).2.1,
        ((hPwf b0 hb0mem).2.2 p hp).2.2.1⟩)).1, recLines_length,
      (hPwf b0 hb0mem).2.1]
  have hpairseq : pair_sequences (P.map renderBlock) uniq
      (cardsN.map (fun _ => 1)) =
      some (joinSep '\n' (recLinesRaw (pairedDerived P R 0))) := by
    have hb0 : (P.map renderBlock)[0]? = some (renderBlock b0) := by
      rw [hPe]
      simp
    rw [pair_sequences_eval (P.map renderBlock) uniq (cardsN.map (fun _ => 1))
      (renderBlock b0) hb0, hlines0,
      pairChains_render P (cardsN.map (fun _ => 1)) uniq R
        (by omega) (by omega) (by simp [hcard_len, hP_len]) (by
          intro j hj
          exact hcard1 j (by
            rw [List.length_map, hcard_len, ← hP_len]
            exact hj)) hPwf]
    rfl
  -- the padded part
  have hpadseq : pad_sequences (U.map renderBlock) uniq
      (cardsN.map (fun _ => 1)) =
      some (joinSep '\n' (recLinesRaw (unpairedDerived
        (uniq.map (fun u => List.replicate u.length '-')) U 0))) := by
    unfold pad_sequences
    rw [mkBlanksAux_eval (cardsN.map (fun _ => 1)) uniq 0
      (by simp [hcard_len])]
    rw [List.drop_zero,
      show cardsN.map (fun _ => (1 : Nat)) =
        List.replicate uniq.length 1 from by
        rw [← hcard_len, List.map_const'],
      blanks_one uniq]
    have hpc := padChains_render
      (uniq.map (fun u => List.replicate u.length '-'))
      (List.replicate uniq.length 1) U uniq [] (by omega)
      (by simp [hU_len]) (by
        intro j hj
        simp only [List.length_replicate] at hj
        rw [List.getD_eq_getElem _ _ (by simpa using hj),
          List.getElem_replicate]) hUwf
    simp only [List.nil_append, List.length_nil] at hpc
    show (joinSep '\n') <$> padChains (U.map renderBlock)
      (List.replicate uniq.length 1)
      (uniq.map (fun u => List.replicate u.length '-')) uniq 0 0 = _
    rw [hpc]
    rfl
  -- assemble
  have hpne : recLinesRaw (pairedDerived P R 0) ≠ [] := by
    intro he
    have := recLinesRaw_length (pairedDerived P R 0)
    rw [he, pairedDerived_length] at this
    simp at this
    omega
  have hune : recLinesRaw (unpairedDerived
      (uniq.map (fun u => List.replicate u.length '-')) U 0) ≠ [] := by
    rw [hUe]
    show recLinesRaw (u0.map _ ++ unpairedDerived _ Urest 1) ≠ []
    rw [recLinesRaw_append]
    intro he
    have h2 := List.append_eq_nil.mp he
    have h3 := congrArg List.length h2.1
    rw [recLinesRaw_length] at h3
    simp at h3
    exact (hUwf u0 (by rw [hUe]; simp)).1 h3
  unfold msa_to_str
  rw [pair_msa, hpairseq, hpadseq]
  show some _ = _
  rw [joinSep_cons _ _ _ (by
    intro he
    exact hpne (List.append_eq_nil.mp he).1)]
  rw [joinSep_append '\n' _ _ hpne hune]
  simp

theorem pairedDerived_cons_of_pos (P : List (List (Str × Str))) (t m : Nat)
    (ht : 1 ≤ t) :
    pairedDerived P t m =
      (pairHeader (P.map (fun b => (b.getD m ([], [])).1)),
        (P.map (fun b => (b.getD m ([], [])).2)).flatten) ::
      pairedDerived P (t - 1) (m + 1) := by
  cases t with
  | zero => omega
  | succ t2 => rfl

/-- **C1** (codec round trip): encoding a valid multi-chain job with
`msa_to_str` and decoding with `unserialize_msa` succeeds, returns the
unique sequences and cardinalities unchanged, and reproduces the
partition of body rows: every chain's paired output holds exactly one
FASTA record per paired input row, and every chain's unpaired output
exactly one record per row of its own unpaired block. -/
theorem codec_round_trip (uniq : List Str) (cardsN : List Nat)
    (P U : List (List (Str × Str))) (R : Nat) (q : Str ⊕ List Str)
    (hk : 2 ≤ uniq.length)
    (hcard_len : cardsN.length = uniq.length)
    (hP_len : P.length = uniq.length)
    (hU_len : U.length = uniq.length)
    (hPlen : ∀ b ∈ P, b.length = R)
    (hR : 1 ≤ R)
    (hUne : ∀ b ∈ U, b ≠ [])
    (hProw0 : ∀ j, j < uniq.length →
      ((P.getD j []).getD 0 ([], [])).2 = uniq.getD j [])
    (hPrec : ∀ j, j < uniq.length → ∀ p ∈ P.getD j [],
      goodName p.1 ∧ goodRow p.2 (uniq.getD j []))
    (hUrec : ∀ j, j < uniq.length → ∀ p ∈ U.getD j [],
      goodName p.1 ∧ goodRow p.2 (uniq.getD j []))
    (hnodup : (pairedDerived P R 0 ++ unpairedDerived
      (uniq.map (fun u => List.replicate u.length '-')) U 0).Nodup) :
    ∃ enc res,
      msa_to_str (some (U.map renderBlock)) (some (P.map renderBlock)) uniq
        cardsN = some enc ∧
      unserialize_msa [enc] q = some res ∧
      res.query_seqs_unique = uniq ∧
      res.query_seqs_cardinality = cardsN.map (fun n => (n : Int)) ∧
      (∃ pm, res.paired_msa = some pm ∧ pm.length = uniq.length ∧
        ∀ j, j < uniq.length → countGt (pm.getD j []) = R) ∧
      res.unpaired_msa.length = uniq.length ∧
      (∀ j, j < uniq.length →
        countGt (res.unpaired_msa.getD j []) = (U.getD j []).length) := by
  -- record-level facts, indexed
  have hPj_mem : ∀ j, j < uniq.length → P.getD j [] ∈ P := by
    intro j hj
    have hjP : j < P.length := by omega
    rw [List.getD_eq_getElem _ _ hjP]
    exact List.getElem_mem hjP
  have hUj_mem : ∀ j, j < uniq.length → U.getD j [] ∈ U := by
    intro j hj
    have hjU : j < U.length := by omega
    rw [List.getD_eq_getElem _ _ hjU]
    exact List.getElem_mem hjU
  have hPjlen : ∀ j, j < uniq.length → (P.getD j []).length = R :=
    fun j hj => hPlen _ (hPj_mem j hj)
  have hProw : ∀ j, j < uniq.length → ∀ r, r < R →
      goodName ((P.getD j []).getD r ([], [])).1 ∧
      goodRow ((P.getD j []).getD r ([], [])).2 (uniq.getD j []) := by
    intro j hj r hr
    refine hPrec j hj _ ?_
    have hrb : r < (P.getD j []).length := by rw [hPjlen j hj]; exact hr
    rw [List.getD_eq_getElem _ _ hrb]
    exact List.getElem_mem hrb
  have hu_good : ∀ j, j < uniq.length →
      goodRow (uniq.getD j []) (uniq.getD j []) := by
    intro j hj
    have := (hProw j hj 0 (by omega)).2
    rw [hProw0 j hj] at this
    exact this
  have hu_ne : ∀ j, j < uniq.length → uniq.getD j [] ≠ [] :=
    fun j hj => hasResidue_ne_nil _ (hu_good j hj).2.1
  -- well-formedness packages for the encoder
  have hPwf : ∀ b ∈ P, b ≠ [] ∧ b.length = R ∧
      ∀ p ∈ b, '\n' ∉ p.1 ∧ p.2 ≠ [] ∧ '\n' ∉ p.2 ∧ '>' ∉ p.2 := by
    intro b hb
    obtain ⟨j, hjP, hje⟩ := List.mem_iff_getElem.mp hb
    have hj : j < uniq.length := by omega
    have hbd : b = P.getD j [] := by rw [List.getD_eq_getElem _ _ hjP, hje]
    subst hbd
    refine ⟨by
      intro he
      have := hPjlen j hj
      rw [he] at this
      simp at this
      omega, hPjlen j hj, ?_⟩
    intro p hp
    obtain ⟨hn, hr⟩ := hPrec j hj p hp
    exact ⟨hn.2.2.1, hasResidue_ne_nil _ hr.2.1,
      fun hc => ((hr.2.2 '\n' hc).2.2.1 rfl),
      fun hc => ((hr.2.2 '>' hc).2.1 rfl)⟩
  have hUwf : ∀ b ∈ U, b ≠ [] ∧
      ∀ p ∈ b, '\n' ∉ p.1 ∧ p.2 ≠ [] ∧ '\n' ∉ p.2 ∧ '>' ∉ p.2 := by
    intro b hb
    obtain ⟨j, hjU, hje⟩ := List.mem_iff_getElem.mp hb
    have hj : j < uniq.length := by omega
    have hbd : b = U.getD j [] := by rw [List.getD_eq_getElem _ _ hjU, hje]
    subst hbd
    refine ⟨hUne _ hb, ?_⟩
    intro p hp
    obtain ⟨hn, hr⟩ := hUrec j hj p hp
    exact ⟨hn.2.2.1, hasResidue_ne_nil _ hr.2.1,
      fun hc => ((hr.2.2 '\n' hc).2.2.1 rfl),
      fun hc => ((hr.2.2 '>' hc).2.1 rfl)⟩
  -- the encoded text
  have henc := msa_to_str_render uniq cardsN P U R (by omega) hcard_len hP_len
    hU_len hPwf hUwf
  rw [← recLinesRaw_append] at henc
  obtain ⟨P0, Pr, hPe⟩ := List.exists_cons_of_ne_nil
    (show P ≠ [] by intro he; rw [he] at hP_len; simp at hP_len; omega)
  -- name and row membership facts
  have hnames : ∀ r, r < R →
      ∀ nm ∈ P.map (fun b => (b.getD r ([], [])).1), goodName nm := by
    intro r hr nm hnm
    obtain ⟨b, hb, rfl⟩ := List.mem_map.mp hnm
    obtain ⟨j, hjP, hje⟩ := List.mem_iff_getElem.mp hb
    have hj : j < uniq.length := by omega
    have hbd : b = P.getD j [] := by rw [List.getD_eq_getElem _ _ hjP, hje]
    subst hbd
    exact (hProw j hj r hr).1
  have hrows : ∀ r, r < R →
      ∀ row ∈ P.map (fun b => (b.getD r ([], [])).2),
        hasResidue row = true ∧
        ∀ c ∈ row, c.isLower = false ∧ c ≠ '>' ∧ c ≠ '\n' ∧ c ≠ Char.ofNat 0 := by
    intro r hr row hrow
    obtain ⟨b, hb, rfl⟩ := List.mem_map.mp hrow
    obtain ⟨j, hjP, hje⟩ := List.mem_iff_getElem.mp hb
    have hj : j < uniq.length := by omega
    have hbd : b = P.getD j [] := by rw [List.getD_eq_getElem _ _ hjP, hje]
    subst hbd
    exact ⟨(hProw j hj r hr).2.2.1, (hProw j hj r hr).2.2.2⟩
  have hph_chars : ∀ r, ∀ x ∈ pairHeader (P.map (fun b =>
      (b.getD r ([], [])).1)), x = '>' ∨ x = '\t' ∨
      ∃ nm ∈ P.map (fun b => (b.getD r ([], [])).1), x ∈ nm := by
    intro r x hx
    rw [hPe, List.map_cons, pairHeader] at hx
    rcases List.mem_cons.mp hx with rfl | hx2
    · exact Or.inl rfl
    · rcases List.mem_append.mp hx2 with hx3 | hx4
      · refine Or.inr (Or.inr ⟨(P0.getD r ([], [])).1, ?_, hx3⟩)
        rw [hPe, List.map_cons]
        exact List.mem_cons_self _ _
      · rcases mem_pairTail _ x hx4 with rfl | ⟨nm, hnm, hxm⟩
        · exact Or.inr (Or.inl rfl)
        · refine Or.inr (Or.inr ⟨nm, ?_, hxm⟩)
          rw [hPe, List.map_cons]
          exact List.mem_cons_of_mem _ hnm
  have hblank_chars : ∀ b ∈ uniq.map (fun u => List.replicate u.length '-'),
      ∀ x ∈ b, x = '-' := by
    intro b hb x hx
    obtain ⟨u, hu, rfl⟩ := List.mem_map.mp hb
    exact List.eq_of_mem_replicate hx
  have hUrow : ∀ i, i < uniq.length → ∀ p ∈ U.getD i [],
      goodName p.1 ∧ goodRow p.2 (uniq.getD i []) := hUrec
  -- facts about every body record
  have hbodyfacts : ∀ p ∈ pairedDerived P R 0 ++ unpairedDerived
      (uniq.map (fun u => List.replicate u.length '-')) U 0,
      (p.1 ≠ [] ∧ '\n' ∉ p.1 ∧ Char.ofNat 0 ∉ p.1) ∧
      (p.2 ≠ [] ∧ '\n' ∉ p.2 ∧ Char.ofNat 0 ∉ p.2) := by
    intro p hp
    rcases List.mem_append.mp hp with hp1 | hp2
    · obtain ⟨r, hr, rfl⟩ := mem_pairedDerived P R 0 p hp1
      rw [Nat.zero_add]
      constructor
      · refine ⟨by rw [hPe, List.map_cons, pairHeader]; simp, ?_, ?_⟩
        · intro hc
          rcases hph_chars r '\n' hc with he | he | ⟨nm, hnm, hxm⟩
          · exact absurd he (by decide)
          · exact absurd he (by decide)
          · exact (hnames r hr nm hnm).2.2.1 hxm
        · intro hc
          rcases hph_chars r (Char.ofNat 0) hc with he | he | ⟨nm, hnm, hxm⟩
          · exact absurd he (by decide)
          · exact absurd he (by decide)
          · exact (hnames r hr nm hnm).2.2.2 hxm
      · refine ⟨?_, ?_, ?_⟩
        · intro he
          have hall := List.flatten_eq_nil_iff.mp he
          have hres := (hrows r hr ((P.getD 0 []).getD r ([], [])).2
            (List.mem_map_of_mem _ (hPj_mem 0 (by omega)))).1
          exact hasResidue_ne_nil _ hres
            (hall _ (List.mem_map_of_mem _ (hPj_mem 0 (by omega))))
        · intro hc
          obtain ⟨row, hrw, hxm⟩ := List.mem_flatten.mp hc
          exact ((hrows r hr row hrw).2 '\n' hxm).2.2.1 rfl
        · intro hc
          obtain ⟨row, hrw, hxm⟩ := List.mem_flatten.mp hc
          exact ((hrows r hr row hrw).2 (Char.ofNat 0) hxm).2.2.2 rfl
    · obtain ⟨i, hiU, p2, hp2m, rfl⟩ := mem_unpairedDerived _ U 0 p hp2
      have hi : i < uniq.length := by omega
      obtain ⟨hn, hrw⟩ := hUrow i hi p2 hp2m
      rw [Nat.zero_add]
      have hrowchars : ∀ x ∈ embedRow (uniq.map (fun u =>
          List.replicate u.length '-')) i p2.2, x = '-' ∨ x ∈ p2.2 := by
        intro x hx
        rcases embedRow_chars _ i p2.2 x hx with h2 | ⟨b, hb, hxb⟩
        · exact Or.inr h2
        · exact Or.inl (hblank_chars b hb x hxb)
      constructor
      · refine ⟨by simp, ?_, ?_⟩
        · intro hc
          rcases List.mem_cons.mp hc with he | he
          · exact absurd he (by decide)
          · exact hn.2.2.1 he
        · intro hc
          rcases List.mem_cons.mp hc with he | he
          · exact absurd he (by decide)
          · exact hn.2.2.2 he
      · refine ⟨?_, ?_, ?_⟩
        · intro he
          have hlen := congrArg List.length he
          rw [embedRow] at hlen
          simp only [List.length_append, List.length_nil] at hlen
          have := hasResidue_ne_nil _ hrw.2.1
          have h2 : p2.2.length = 0 := by omega
          exact this (List.eq_nil_of_length_eq_zero h2)
        · intro hc
          rcases hrowchars '\n' hc with he | he
          · exact absurd he (by decide)
          · exact (hrw.2.2 '\n' he).2.2.1 rfl
        · intro hc
          rcases hrowchars (Char.ofNat 0) hc with he | he
          · exact absurd he (by decide)
          · exact (hrw.2.2 (Char.ofNat 0) he).2.2.2 rfl
  -- canonical chain lengths
  have hlenk : (uniq.map (fun u => (u.length : Int))).length = uniq.length := by
    simp
  -- classification of the derived paired records
  have hpaired_cls : ∀ r, r < R →
      (((splitChains (uniq.map (fun u => (u.length : Int)))
        ((P.map (fun b => (b.getD r ([], [])).2)).flatten)).2.count true ==
        (uniq.map (fun u => (u.length : Int))).length) = true) := by
    intro r hr
    refine (paired_row_classify uniq (P.map (fun b => (b.getD r ([], [])).2))
      (by simp [hP_len]) ?_ ?_ ?_).2
    · intro j hj
      have hjP : j < P.length := by simpa using hj
      have hju : j < uniq.length := by omega
      rw [List.getD_eq_getElem _ _ hj, List.getElem_map,
        ← List.getD_eq_getElem P ([] : List (Str × Str)) hjP]
      exact (hProw j hju r hr).2.1
    · intro row hrow c hc
      exact ((hrows r hr row hrow).2 c hc).1
    · intro row hrow
      exact (hrows r hr row hrow).1
  -- classification of the derived unpaired records
  have hunp_cls : ∀ i, i < uniq.length → ∀ p2 ∈ U.getD i [],
      (((splitChains (uniq.map (fun u => (u.length : Int)))
        (embedRow (uniq.map (fun u => List.replicate u.length '-')) i
          p2.2)).2.count true ==
        (uniq.map (fun u => (u.length : Int))).length) = false) ∧
      (∀ j, j < uniq.length →
        (splitChains (uniq.map (fun u => (u.length : Int)))
          (embedRow (uniq.map (fun u => List.replicate u.length '-')) i
            p2.2)).2.getD j false = decide (j = i)) := by
    intro i hi p2 hp2
    obtain ⟨hn, hrw⟩ := hUrec i hi p2 hp2
    have h := unpaired_row_classify uniq p2.2 i hi hk hrw.1 hu_ne
      (fun c hc => (hrw.2.2 c hc).1) hrw.2.1
    exact ⟨h.2.1, h.2.2⟩
  -- the decoder hypothesis package for every body record
  have hbodyrec : ∀ p ∈ pairedDerived P R 0 ++ unpairedDerived
      (uniq.map (fun u => List.replicate u.length '-')) U 0,
      '>' ∉ p.2 ∧ countGt p.1 = 1 ∧
      (((splitChains (uniq.map (fun u => (u.length : Int))) p.2).2.count
        true == (uniq.map (fun u => (u.length : Int))).length) = true →
        (uniq.map (fun u => (u.length : Int))).length ≤
          (pySplit '\t' (p.1.filter (fun c => !(c = '>')))).length) := by
    intro p hp
    rcases List.mem_append.mp hp with hp1 | hp2x
    · obtain ⟨r, hr, rfl⟩ := mem_pairedDerived P R 0 p hp1
      rw [Nat.zero_add]
      refine ⟨?_, ?_, ?_⟩
      · intro hc
        obtain ⟨row, hrw, hxm⟩ := List.mem_flatten.mp hc
        exact ((hrows r hr row hrw).2 '>' hxm).2.1 rfl
      · rw [hPe, List.map_cons]
        rw [countGt_pairHeader _ _ (by
          intro nm hnm
          exact (hnames r hr nm (by rw [hPe, List.map_cons]; exact hnm)).1)]
      · intro _
        rw [hPe, List.map_cons, filter_pairHeader _ _ (fun nm hnm =>
          (hnames r hr nm (by rw [hPe, List.map_cons]; exact hnm)).1)]
        rw [pySplit_joinSep '\t' _ (by simp) (by
          intro nm hnm hc
          have hnm2 : nm ∈ List.map (fun b => (b.getD r ([], [])).1) P := by
            rw [hPe, List.map_cons]
            exact hnm
          exact (hnames r hr nm hnm2).2.1 hc)]
        have hplen2 : Pr.length + 1 = uniq.length := by
          rw [← hP_len, hPe]
          simp
        simp only [hlenk, List.length_cons, List.length_map]
        omega
    · obtain ⟨i, hiU, p2, hp2m, rfl⟩ := mem_unpairedDerived _ U 0 p hp2x
      have hi : i < uniq.length := by omega
      obtain ⟨hn, hrw⟩ := hUrec i hi p2 hp2m
      rw [Nat.zero_add]
      refine ⟨?_, ?_, ?_⟩
      · intro hc
        rcases embedRow_chars _ i p2.2 '>' hc with h2 | ⟨b, hb, hxb⟩
        · exact (hrw.2.2 '>' h2).2.1 rfl
        · exact absurd (hblank_chars b hb '>' hxb) (by decide)
      · show countGt ('>' :: p2.1) = 1
        rw [countGt_cons_gt, countGt_eq_zero _ hn.1]
      · intro hcls
        exact absurd hcls (by
          simp only [(hunp_cls i hi p2 hp2m).1]
          simp)
  -- run the decoder body
  obtain ⟨st2, hbody, hstp, hstu, hcounts⟩ := decodeBody_counts
    (uniq.map (fun u => (u.length : Int)))
    (pairedDerived P R 0 ++ unpairedDerived
      (uniq.map (fun u => List.replicate u.length '-')) U 0)
    ⟨[], List.replicate (uniq.map (fun u => (u.length : Int))).length [],
      List.replicate (uniq.map (fun u => (u.length : Int))).length []⟩
    (by simp) (by simp) (by intro p hp2x; simp) hnodup hbodyrec
  -- the paired filter keeps exactly the paired records
  have hfilP : ((pairedDerived P R 0 ++ unpairedDerived
      (uniq.map (fun u => List.replicate u.length '-')) U 0).filter (fun p =>
      (splitChains (uniq.map (fun u => (u.length : Int))) p.2).2.count true ==
      (uniq.map (fun u => (u.length : Int))).length)).length = R := by
    rw [List.filter_append, List.length_append]
    rw [List.filter_eq_self.mpr (by
      intro x hx
      obtain ⟨r, hr, rfl⟩ := mem_pairedDerived P R 0 x hx
      rw [Nat.zero_add]
      exact hpaired_cls r hr)]
    rw [List.filter_eq_nil_iff.mpr (by
      intro x hx
      obtain ⟨i, hiU, p2, hp2m, rfl⟩ := mem_unpairedDerived _ U 0 x hx
      have hi : i < uniq.length := by omega
      rw [Nat.zero_add]
      simp only [(hunp_cls i hi p2 hp2m).1]
      simp)]
    rw [pairedDerived_length]
    simp
  -- the unpaired filter at chain j keeps exactly chain j's records
  have hfilU : ∀ j, j < uniq.length →
      ((pairedDerived P R 0 ++ unpairedDerived
        (uniq.map (fun u => List.replicate u.length '-')) U 0).filter (fun p =>
        !((splitChains (uniq.map (fun u => (u.length : Int))) p.2).2.count
          true == (uniq.map (fun u => (u.length : Int))).length) &&
        (splitChains (uniq.map (fun u => (u.length : Int))) p.2).2.getD j
          false)).length = (U.getD j []).length := by
    intro j hj
    rw [List.filter_append, List.length_append]
    rw [List.filter_eq_nil_iff.mpr (by
      intro x hx
      obtain ⟨r, hr, rfl⟩ := mem_pairedDerived P R 0 x hx
      rw [Nat.zero_add]
      simp only [hpaired_cls r hr]
      simp)]
    rw [unpairedDerived_filter_length
      (uniq.map (fun u => List.replicate u.length '-')) _ j U 0 (by
        intro i hi p2 hp2m
        have hiu : i < uniq.length := by omega
        simp only [Nat.zero_add]
        show (!((splitChains (uniq.map (fun u => (u.length : Int)))
          (embedRow (uniq.map (fun u => List.replicate u.length '-')) i
            p2.2)).2.count true ==
          (uniq.map (fun u => (u.length : Int))).length) &&
          (splitChains (uniq.map (fun u => (u.length : Int)))
            (embedRow (uniq.map (fun u => List.replicate u.length '-')) i
              p2.2)).2.getD j false) = decide (i = j)
        rw [(hunp_cls i hiu p2 hp2m).1, (hunp_cls i hiu p2 hp2m).2 j hj]
        simp only [Bool.not_false, Bool.true_and]
        rw [decide_eq_decide]
        constructor
        · omega
        · omega)]
    rw [if_pos ⟨by omega, by omega⟩]
    simp
  -- header parse facts
  obtain ⟨c0N, csN, hce⟩ := List.exists_cons_of_ne_nil
    (show cardsN ≠ [] by
      intro he; rw [he] at hcard_len; simp at hcard_len; omega)
  have hljmm : uniq.map (fun s => natToStr s.length) =
      (uniq.map (fun s => s.length)).map natToStr := by
    rw [List.map_map]
    rfl
  have hLne : uniq.map (fun s => s.length) ≠ [] := by
    intro he
    have h2 : (uniq.map (fun s => s.length)).length = 0 := by
      rw [he]
      rfl
    rw [List.length_map] at h2
    omega
  have hdrchars : ∀ x ∈ ('#' :: (joinSep ',' (uniq.map (fun s => natToStr s.length)) ++
      '\t' :: joinSep ',' (cardsN.map natToStr)) : Str),
      x ≠ '\n' ∧ x ≠ Char.ofNat 0 := by
    intro x hx
    rcases List.mem_cons.mp hx with rfl | hx2
    · exact ⟨by decide, by decide⟩
    · rcases List.mem_append.mp hx2 with hx3 | hx4
      · rw [hljmm] at hx3
        exact ⟨(mem_joinSep_comma_render _ x hx3).2.1,
          (mem_joinSep_comma_render _ x hx3).2.2⟩
      · rcases List.mem_cons.mp hx4 with rfl | hx5
        · exact ⟨by decide, by decide⟩
        · exact ⟨(mem_joinSep_comma_render cardsN x hx5).2.1,
            (mem_joinSep_comma_render cardsN x hx5).2.2⟩
  have hgoodlines : ∀ l ∈ ('#' :: (joinSep ',' (uniq.map (fun s => natToStr s.length)) ++
      '\t' :: joinSep ',' (cardsN.map natToStr)) : Str) ::
      recLinesRaw (pairedDerived P R 0 ++ unpairedDerived
      (uniq.map (fun u => List.replicate u.length '-')) U 0), l ≠ [] ∧ '\n' ∉ l := by
    intro l hl
    rcases List.mem_cons.mp hl with rfl | hl2
    · exact ⟨by simp, fun hc => (hdrchars '\n' hc).1 rfl⟩
    · obtain ⟨p, hpm, hor⟩ := mem_recLinesRaw _ l hl2
      have hbf := hbodyfacts p hpm
      rcases hor with rfl | rfl
      · exact ⟨hbf.1.1, hbf.1.2.1⟩
      · exact ⟨hbf.2.1, hbf.2.2.1⟩
  have hfil : (joinSep '\n' (('#' :: (joinSep ',' (uniq.map (fun s => natToStr s.length)) ++
      '\t' :: joinSep ',' (cardsN.map natToStr)) : Str) ::
      recLinesRaw (pairedDerived P R 0 ++ unpairedDerived
      (uniq.map (fun u => List.replicate u.length '-')) U 0))).filter (fun c => !(c = Char.ofNat 0)) =
      joinSep '\n' (('#' :: (joinSep ',' (uniq.map (fun s => natToStr s.length)) ++
      '\t' :: joinSep ',' (cardsN.map natToStr)) : Str) :: recLinesRaw (pairedDerived P R 0 ++ unpairedDerived
      (uniq.map (fun u => List.replicate u.length '-')) U 0)) := by
    rw [List.filter_eq_self]
    intro a ha
    rcases mem_joinSep '\n' _ a ha with rfl | ⟨l, hl, hal⟩
    · decide
    · rcases List.mem_cons.mp hl with rfl | hl2
      · simpa using (hdrchars a hal).2
      · obtain ⟨p, hpm, hor⟩ := mem_recLinesRaw _ l hl2
        have hbf := hbodyfacts p hpm
        rcases hor with rfl | rfl
        · simpa using (fun hc : a = Char.ofNat 0 => hbf.1.2.2 (hc ▸ hal))
        · simpa using (fun hc : a = Char.ofNat 0 => hbf.2.2.2 (hc ▸ hal))
  have hsl : pySplitlines (joinSep '\n' (('#' :: (joinSep ',' (uniq.map (fun s => natToStr s.length)) ++
      '\t' :: joinSep ',' (cardsN.map natToStr)) : Str) ::
      recLinesRaw (pairedDerived P R 0 ++ unpairedDerived
      (uniq.map (fun u => List.replicate u.length '-')) U 0))) = ('#' :: (joinSep ',' (uniq.map (fun s => natToStr s.length)) ++
      '\t' :: joinSep ',' (cardsN.map natToStr)) : Str) :: recLinesRaw (pairedDerived P R 0 ++ unpairedDerived
      (uniq.map (fun u => List.replicate u.length '-')) U 0) :=
    pySplitlines_joinSep _ (by simp) hgoodlines
  have htlj : '\t' ∉ joinSep ',' (uniq.map (fun s => natToStr s.length)) := by
    rw [hljmm]
    exact fun hx => (mem_joinSep_comma_render _ '\t' hx).1 rfl
  have htcj : '\t' ∉ joinSep ',' (cardsN.map natToStr) :=
    fun hx => (mem_joinSep_comma_render cardsN '\t' hx).1 rfl
  have hhdr : startsChar '#' ('#' :: (joinSep ',' (uniq.map (fun s => natToStr s.length)) ++
      '\t' :: joinSep ',' (cardsN.map natToStr)) : Str) = true := rfl
  have hsplit : pySplit '\t' ((('#' :: (joinSep ',' (uniq.map (fun s => natToStr s.length)) ++
      '\t' :: joinSep ',' (cardsN.map natToStr)) : Str) : Str).drop 1) =
      [joinSep ',' (uniq.map (fun s => natToStr s.length)),
       joinSep ',' (cardsN.map natToStr)] := by
    show pySplit '\t' (joinSep ',' (uniq.map (fun s => natToStr s.length)) ++
      '\t' :: joinSep ',' (cardsN.map natToStr)) = _
    rw [pySplit_append_sep '\t' _ _ htlj, pySplit_no_sep '\t' _ htcj]
  have hlensP : (pySplit ',' (joinSep ',' (uniq.map (fun s =>
      natToStr s.length)))).mapM pyInt =
      some (uniq.map (fun u => (u.length : Int))) := by
    rw [hljmm, pySplit_comma_render _ hLne, mapM_pyInt_natToStr, List.map_map]
    rfl
  have hcardsP : (pySplit ',' (joinSep ',' (cardsN.map natToStr))).mapM pyInt =
      some (cardsN.map Int.ofNat) := by
    rw [pySplit_comma_render cardsN (by
      intro he; rw [he] at hcard_len; simp at hcard_len; omega),
      mapM_pyInt_natToStr]
  have hc0 : (cardsN.map Int.ofNat)[0]? = some (Int.ofNat c0N) := by
    rw [hce]
    simp
  -- the leading record shape of the body
  have hshape : recLinesRaw (pairedDerived P R 0 ++ unpairedDerived
      (uniq.map (fun u => List.replicate u.length '-')) U 0) =
      pairHeader (P.map (fun b => (b.getD 0 ([], [])).1)) ::
      (P.map (fun b => (b.getD 0 ([], [])).2)).flatten ::
      recLinesRaw (pairedDerived P (R - 1) 1 ++ unpairedDerived
        (uniq.map (fun u => List.replicate u.length '-')) U 0) := by
    rw [pairedDerived_cons_of_pos P R 0 hR, List.cons_append, recLinesRaw_cons]
  have hpairup : pairUp
      (pairHeader (P.map (fun b => (b.getD 0 ([], [])).1)) ::
        (P.map (fun b => (b.getD 0 ([], [])).2)).flatten ::
        recLinesRaw (pairedDerived P (R - 1) 1 ++ unpairedDerived
          (uniq.map (fun u => List.replicate u.length '-')) U 0)) =
      some (pairedDerived P R 0 ++ unpairedDerived
      (uniq.map (fun u => List.replicate u.length '-')) U 0) := by
    have h := pairUp_recLinesRaw (pairedDerived P R 0 ++ unpairedDerived
      (uniq.map (fun u => List.replicate u.length '-')) U 0) []
    rw [List.append_nil,
      show pairUp ([] : List Str) = some [] from rfl] at h
    simp at h
    rw [← hshape]
    exact h
  -- the job is multi-chain, so neither single-protein nor homo-oligomeric
  have hsing : (decide ((uniq.map (fun u => (u.length : Int))).length = 1) &&
      decide (Int.ofNat c0N = 1)) = false := by
    rw [decide_eq_false (show
      ¬((uniq.map (fun u => (u.length : Int))).length = 1) by
        rw [hlenk]; omega)]
    simp
  have hhomo : (decide ((uniq.map (fun u => (u.length : Int))).length = 1) &&
      decide (Int.ofNat c0N > 1)) = false := by
    rw [decide_eq_false (show
      ¬((uniq.map (fun u => (u.length : Int))).length = 1) by
        rw [hlenk]; omega)]
    simp
  -- the first body row is the concatenated query
  have hProws : P.map (fun b => (b.getD 0 ([], [])).2) = uniq := by
    apply List.ext_getElem
    · simp [hP_len]
    · intro j h1 h2
      rw [List.getElem_map]
      have hju : j < uniq.length := by simpa using h2
      have h3 := hProw0 j hju
      rw [List.getD_eq_getElem _ _ (show j < P.length by omega),
        List.getD_eq_getElem _ _ hju] at h3
      exact h3
  have hxu : extractUniq ((P.map (fun b => (b.getD 0 ([], [])).2)).flatten)
      (uniq.map (fun u => (u.length : Int))) 0 = uniq := by
    rw [hProws]
    have h := extractUniq_flatten uniq []
    simpa using h
  -- the decoded result
  have hdec : unserialize_msa [joinSep '\n' (('#' :: (joinSep ',' (uniq.map (fun s => natToStr s.length)) ++
      '\t' :: joinSep ',' (cardsN.map natToStr)) : Str) ::
      recLinesRaw (pairedDerived P R 0 ++ unpairedDerived
      (uniq.map (fun u => List.replicate u.length '-')) U 0))] q =
      some ⟨st2.unpaired_msa, some st2.paired_msa,
        extractUniq ((P.map (fun b => (b.getD 0 ([], [])).2)).flatten)
          (uniq.map (fun u => (u.length : Int))) 0,
        cardsN.map Int.ofNat,
        (extractUniq ((P.map (fun b => (b.getD 0 ([], [])).2)).flatten)
          (uniq.map (fun u => (u.length : Int))) 0).map mk_mock_template⟩ := by
    unfold unserialize_msa
    simp only [List.getElem?_cons_zero]
    rw [hfil, hsl, hshape]
    rw [unserialize_lines_eval _ _ _ _ q _ _ _ _ _ _ hhdr hsplit hlensP
      hcardsP hc0 hpairup]
    rw [hsing, hhomo, hbody]
    rfl
  refine ⟨_, _, henc, hdec, hxu, (map_intCast_eq_ofNat cardsN).symm,
    ⟨st2.paired_msa, rfl, ?_, ?_⟩, ?_, ?_⟩
  · rw [hstp, hlenk]
  · intro j hj
    have h := (hcounts j (by rw [hlenk]; exact hj)).1
    rw [getD_replicate_nilStr, hfilP,
      show countGt ([] : Str) = 0 from rfl, Nat.zero_add] at h
    exact h
  · rw [hstu, hlenk]
  · intro j hj
    have h := (hcounts j (by rw [hlenk]; exact hj)).2
    rw [getD_replicate_nilStr, hfilU j hj,
      show countGt ([] : Str) = 0 from rfl, Nat.zero_add] at h
    exact h

set_option synthInstance.maxSize 2000 in
set_option synthInstance.maxHeartbeats 1000000 in
/-- Concrete instantiation of C1: a two-chain job (`"AB"`, `"C"`) with
cardinalities `[2, 1]`, two paired rows per chain, and one unpaired
record per chain, round-trips through `msa_to_str` and
`unserialize_msa`. -/
theorem codec_round_trip_witness :
    ∃ enc res,
      msa_to_str
        (some (([[("u1".toList, "GG".toList)], [("u2".toList, "F".toList)]] :
          List (List (Str × Str))).map renderBlock))
        (some (([[("n1".toList, "AB".toList), ("h1".toList, "DB".toList)],
          [("n2".toList, "C".toList), ("h2".toList, "E".toList)]] :
          List (List (Str × Str))).map renderBlock))
        ["AB".toList, "C".toList] [2, 1] = some enc ∧
      unserialize_msa [enc] (Sum.inl "ABC".toList) = some res ∧
      res.query_seqs_unique = ["AB".toList, "C".toList] ∧
      res.query_seqs_cardinality =
        ([2, 1] : List Nat).map (fun n => (n : Int)) ∧
      (∃ pm, res.paired_msa = some pm ∧
        pm.length = (["AB".toList, "C".toList] : List Str).length ∧
        ∀ j, j < (["AB".toList, "C".toList] : List Str).length →
          countGt (pm.getD j []) = 2) ∧
      res.unpaired_msa.length = (["AB".toList, "C".toList] : List Str).length ∧
      (∀ j, j < (["AB".toList, "C".toList] : List Str).length →
        countGt (res.unpaired_msa.getD j []) =
          (([[("u1".toList, "GG".toList)], [("u2".toList, "F".toList)]] :
            List (List (Str × Str))).getD j []).length) :=
  codec_round_trip ["AB".toList, "C".toList] [2, 1]
    [[("n1".toList, "AB".toList), ("h1".toList, "DB".toList)],
     [("n2".toList, "C".toList), ("h2".toList, "E".toList)]]
    [[("u1".toList, "GG".toList)], [("u2".toList, "F".toList)]]
    2 (Sum.inl "ABC".toList)
    (by decide) (by decide) (by decide) (by decide) (by decide) (by decide)
    (by decide) (by decide) (by unfold goodName goodRow; decide)
    (by unfold goodName goodRow; decide) (by decide)
